import Mathlib

/-!
Verification of the content-model-to-DFA pipeline (src/dfa.py).

The builder (states, transitions, element registry, the fragment
construction for element / sequence / choice / all nodes, occurrence
wrapping, finalization and the alphabet computation) is embedded from
src/dfa.py.  Python dicts are embedded as insertion-ordered association
lists, Python sets as insertion-ordered duplicate-free lists.  The
determinization and minimization passes are performed by external
libraries in the source (automata-lib and third_party.DFA) whose code is
not part of src/; they are modelled from the spec where indicated.
-/

namespace UxsdDfa

/-- Python set.add on an insertion-ordered duplicate-free list. -/
def setInsert {α : Type} [DecidableEq α] (l : List α) (x : α) : List α :=
  if x ∈ l then l else l ++ [x]

/-- Python set union (the |= operator), folding set.add over the right operand. -/
def setUnion {α : Type} [DecidableEq α] (l r : List α) : List α :=
  r.foldl setInsert l

/-- Python set construction from an iterable: insert elements one by one. -/
def setOfList {α : Type} [DecidableEq α] (l : List α) : List α :=
  l.foldl setInsert []

/-- Python dict lookup (dict.get, returning None when the key is absent). -/
def alGet {α β : Type} [DecidableEq α] : List (α × β) → α → Option β
  | [], _ => none
  | (k, v) :: rest, a => if k = a then some v else alGet rest a

/-- Python dict assignment: replace in place when the key exists, else append. -/
def alSet {α β : Type} [DecidableEq α] : List (α × β) → α → β → List (α × β)
  | [], a, b => [(a, b)]
  | (k, v) :: rest, a, b => if k = a then (k, b) :: rest else (k, v) :: alSet rest a b

/-- Occurrence bounds of a content-model node: the Python list
[min_occurs, max_occurs] with None for an unbounded maximum. -/
structure Occurs where
  lo : Nat
  hi : Option Nat
deriving DecidableEq, Repr

/-- A content-model tree node: an XsdElement leaf or an XsdGroup with model
sequence, choice or all, each carrying its occurs pair. -/
inductive Node where
  | element : String → Occurs → Node
  | sequence : List Node → Occurs → Node
  | choice : List Node → Occurs → Node
  | allGroup : List Node → Occurs → Node
deriving Repr

/-- The ways dfa_from_group can raise: KeyError (set.remove of a missing
element, or a dict lookup of a missing key), IndexError (empty group list
indexed by the sequence rule), the NotImplementedError for an unsupported
occurs pair, a guard for pending transition targets surviving finalization,
and fuel exhaustion of the bounded loops in the spec-modelled passes. -/
inductive BuildErr where
  | keyError : BuildErr
  | indexError : BuildErr
  | unsupportedOccurs : Occurs → BuildErr
  | pendingTarget : BuildErr
  | fuelOut : BuildErr
deriving DecidableEq, Repr

/-- A transition target: some state, or none for the pending marker
(Python None) meaning the target is not yet connected. -/
abbrev Target := Option String

/-- The builder context of one dfa_from_group call: the NFA state set
(_nfa_states), the transition table (_nfa_state_transitions) and the
element registry (_elements). -/
structure Builder where
  states : List String
  transitions : List (String × List (String × List Target))
  elements : List (String × Node)
deriving Repr

def emptyBuilder : Builder := ⟨[], [], []⟩

/-- State names: the Python format string q plus the decimal size of the
current state set. -/
def qName (n : Nat) : String := "q" ++ Nat.repr n

/-- The source _new_state: name the state after the current size of the
state set, add it, return it. -/
def newState (b : Builder) : String × Builder :=
  let x := qName b.states.length
  (x, { b with states := setInsert b.states x })

/-- The source _remove_state.  It is defined here for completeness; no call
site exists anywhere in dfa.py. -/
def removeState (b : Builder) (x : String) : Builder :=
  { b with states := b.states.filter (fun s => s ≠ x),
           transitions := b.transitions.filter (fun kv => kv.1 ≠ x) }

/-- The source _add_transition: create the inner dict or the inner set as
needed, then add the target to the set. -/
def addTransition (b : Builder) (state input : String) (tgt : Target) : Builder :=
  match alGet b.transitions state with
  | none => { b with transitions := alSet b.transitions state [(input, [tgt])] }
  | some row =>
    match alGet row input with
    | none => { b with transitions := alSet b.transitions state (alSet row input [tgt]) }
    | some ts =>
      { b with transitions := alSet b.transitions state (alSet row input (setInsert ts tgt)) }

/-- The row rewrite of the source _patch: every target becomes concrete,
the pending marker replaced by next, the set rebuilt by insertion. -/
def patchRow (row : List (String × List Target)) (next : String) : List (String × List Target) :=
  row.map (fun kv => (kv.1, setOfList (kv.2.map (fun x => some (x.getD next)))))

/-- The source _patch: rewrite every pending target of the given state to
next.  Indexing a state absent from the transition table is a KeyError. -/
def patchB (b : Builder) (state : String) (next : String) : Except BuildErr Builder :=
  match alGet b.transitions state with
  | none => .error .keyError
  | some row =>
    .ok { b with transitions := alSet b.transitions state (patchRow row next) }

/-- The "for v in vacant: _patch(v, next)" loops of the source. -/
def patchMany (b : Builder) (vs : List String) (next : String) : Except BuildErr Builder :=
  vs.foldlM (fun bb v => patchB bb v next) b

/-- A fragment: the start state and the set of vacant states returned by
each _nfa_from_* function. -/
abbrev Frag := String × List String

/-- Result of building one node: the outcome (fragment plus builder, or the
raised error) together with the node value as the call leaves it (the all
rule mutates and restores the child list of its group). -/
abbrev BuildRes := (Except BuildErr (Frag × Builder)) × Node

/-- The loop of the source _nfa_from_sequence over t._group[1:]: build each
child, patch the previous vacant set to the new start, keep the new vacant
set.  Also returns the child nodes as the loop leaves them. -/
def seqLoop (rec : Node → Builder → BuildRes) (init : String) :
    List String → List Node → Builder → (Except BuildErr (Frag × Builder)) × List Node
  | vacant, [], b => (.ok ((init, vacant), b), [])
  | vacant, e :: rest, b =>
    match rec e b with
    | (.error err, e2) => (.error err, e2 :: rest)
    | (.ok ((init2, vacant2), b2), e2) =>
      match patchMany b2 vacant init2 with
      | .error err => (.error err, e2 :: rest)
      | .ok b3 =>
        match seqLoop rec init vacant2 rest b3 with
        | (r, rest2) => (r, e2 :: rest2)

/-- The source _nfa_from_sequence applied to a child list: index 0 of an
empty group raises IndexError, else run the loop from the first fragment. -/
def seqSteps (rec : Node → Builder → BuildRes) :
    List Node → Builder → (Except BuildErr (Frag × Builder)) × List Node
  | [], _ => (.error .indexError, [])
  | e :: rest, b =>
    match rec e b with
    | (.error err, e2) => (.error err, e2 :: rest)
    | (.ok ((init, vacant), b2), e2) =>
      match seqLoop rec init vacant rest b2 with
      | (r, rest2) => (r, e2 :: rest2)

/-- The loop of the source _nfa_from_choice: build each child, add an
epsilon transition from the branch state to its start, union the vacants. -/
def choiceLoop (rec : Node → Builder → BuildRes) (x : String) :
    List String → List Node → Builder → (Except BuildErr (List String × Builder)) × List Node
  | vacants, [], b => (.ok (vacants, b), [])
  | vacants, e :: rest, b =>
    match rec e b with
    | (.error err, e2) => (.error err, e2 :: rest)
    | (.ok ((init, vacant), b2), e2) =>
      let b3 := addTransition b2 x "" (some init)
      match choiceLoop rec x (setUnion vacants vacant) rest b3 with
      | (r, rest2) => (r, e2 :: rest2)

/-- The source _nfa_from_choice: fresh branch state, then the loop. -/
def choiceSteps (rec : Node → Builder → BuildRes) (cs : List Node) (b : Builder) :
    (Except BuildErr (Frag × Builder)) × List Node :=
  let (x, b1) := newState b
  match choiceLoop rec x [] cs b1 with
  | (.error err, cs2) => (.error err, cs2)
  | (.ok (vacants, b2), cs2) => (.ok ((x, vacants), b2), cs2)

/-- The loop of the source _nfa_from_all over permutations(t._group): set
t._group to the permutation, build it by the sequence rule, join with an
epsilon edge from the branch state.  itertools.permutations materializes
its input up front, so the iteration sequence is the snapshot of the child
list taken at loop entry.  On an error the loop is abandoned with t._group
still holding the active permutation as the failing call left it; that
list is returned in the second component (none when the loop finished and
line 92 of the source restores the original list). -/
def allLoop (rec : Node → Builder → BuildRes) (x : String) :
    List String → List (List Node) → Builder →
    (Except BuildErr (List String × Builder)) × Option (List Node)
  | vacants, [], b => (.ok (vacants, b), none)
  | vacants, p :: rest, b =>
    match seqSteps rec p b with
    | (.error err, p2) => (.error err, some p2)
    | (.ok ((init, vacant), b2), _) =>
      let b3 := addTransition b2 x "" (some init)
      allLoop rec x (setUnion vacants vacant) rest b3

/-- The source _nfa_from_all: fresh branch state, loop over every
permutation of the child list, restore the child list on completion. -/
def allSteps (rec : Node → Builder → BuildRes) (cs : List Node) (b : Builder) :
    (Except BuildErr (Frag × Builder)) × List Node :=
  let (x, b1) := newState b
  match allLoop rec x [] cs.permutations b1 with
  | (.error err, some g) => (.error err, g)
  | (.error err, none) => (.error err, cs)
  | (.ok (vacants, b2), _) => (.ok ((x, vacants), b2), cs)

/-- The occurrence wrapping at the tail of the source _nfa_from_node,
dispatching on the four supported occurs pairs and raising on the rest. -/
def occursWrap (b : Builder) (o : Occurs) (init : String) (vacant : List String) :
    Except BuildErr (Frag × Builder) :=
  if o = ⟨1, some 1⟩ then
    .ok ((init, vacant), b)
  else if o = ⟨0, some 1⟩ then
    let b1 := addTransition b init "" none
    .ok ((init, setInsert vacant init), b1)
  else if o = ⟨0, none⟩ then
    match patchMany b vacant init with
    | .error e => .error e
    | .ok b1 => .ok ((init, [init]), addTransition b1 init "" none)
  else if o = ⟨1, none⟩ then
    let (nxt, b1) := newState b
    match patchMany b1 vacant nxt with
    | .error e => .error e
    | .ok b2 => .ok ((init, [nxt]), addTransition (addTransition b2 nxt "" (some init)) nxt "" none)
  else
    .error (.unsupportedOccurs o)

/-- The body of the source _nfa_from_element (lines 52-54): allocate a
fresh state, record a transition on the element name to the pending
marker, and register the element descriptor under its name. -/
def elementB (b : Builder) (name : String) (o : Occurs) : Builder :=
  let b2 := addTransition (newState b).2 (newState b).1 name none
  { b2 with elements := alSet b2.elements name (.element name o) }

/-- One step of the source _nfa_from_node: dispatch on the node kind
(_nfa_from_element for leaves, the sequence, choice or all rule for
groups), then apply the occurrence wrapping. -/
def nodeStep (rec : Node → Builder → BuildRes) (t : Node) (b : Builder) : BuildRes :=
  match t with
  | .element name o =>
    (occursWrap (elementB b name o) o (newState b).1 [(newState b).1], .element name o)
  | .sequence cs o =>
    match seqSteps rec cs b with
    | (.error err, cs2) => (.error err, .sequence cs2 o)
    | (.ok ((init, vacant), b2), cs2) => (occursWrap b2 o init vacant, .sequence cs2 o)
  | .choice cs o =>
    match choiceSteps rec cs b with
    | (.error err, cs2) => (.error err, .choice cs2 o)
    | (.ok ((init, vacant), b2), cs2) => (occursWrap b2 o init vacant, .choice cs2 o)
  | .allGroup cs o =>
    match allSteps rec cs b with
    | (.error err, cs2) => (.error err, .allGroup cs2 o)
    | (.ok ((init, vacant), b2), cs2) => (occursWrap b2 o init vacant, .allGroup cs2 o)

/-- The recursive _nfa_from_node, with a recursion-depth budget so the
definition is structural; the top-level entry supplies enough fuel for the
whole tree and the fuelOut branch is unreachable there. -/
def nfaFromNode : Nat → Node → Builder → BuildRes
  | 0, t, _ => (.error .fuelOut, t)
  | fuel + 1, t, b => nodeStep (nfaFromNode fuel) t b

mutual
/-- Height of a content-model node, used as the recursion budget of the
embedded builder: one unit per nesting level. -/
def nodeFuel : Node → Nat
  | .element _ _ => 1
  | .sequence cs _ => 1 + listFuel cs
  | .choice cs _ => 1 + listFuel cs
  | .allGroup cs _ => 1 + listFuel cs
/-- Largest height among a list of nodes. -/
def listFuel : List Node → Nat
  | [] => 0
  | c :: rest => max (nodeFuel c) (listFuel rest)
end

/-- Finalization (source lines 132-135): allocate the accepting state, give
it an empty transition row, patch every root-vacant state to it. -/
def finalizeB (b : Builder) (finals : List String) : Except BuildErr (String × Builder) :=
  let (final, b1) := newState b
  let b2 := { b1 with transitions := alSet b1.transitions final [] }
  match patchMany b2 finals final with
  | .error e => .error e
  | .ok b3 => .ok (final, b3)

/-- The alphabet computation (source lines 137-140): union the keys of all
transition rows, then set.remove the epsilon symbol; set.remove raises
KeyError when the element is absent. -/
def alphabetOf (b : Builder) : Except BuildErr (List String) :=
  let syms := b.transitions.foldl (fun acc kv => setUnion acc (kv.2.map (fun e => e.1))) []
  if "" ∈ syms then .ok (syms.filter (fun s => s ≠ "")) else .error .keyError

/-- The finished epsilon-NFA handed to the determinizer (source line 142). -/
structure NfaRec where
  states : List String
  inputSymbols : List String
  transitions : List (String × List (String × List Target))
  initialState : String
  finalState : String
deriving Repr

/-- Does a transition row still hold the pending marker? -/
def rowPend (row : List (String × List Target)) : Bool :=
  row.any (fun e => e.2.any (fun x => x.isNone))

/-- Does any transition entry still hold the pending marker? -/
def hasPending (tr : List (String × List (String × List Target))) : Bool :=
  tr.any (fun kv => rowPend kv.2)

/-- All pending targets of the second builder sit at states satisfying Q or
in the given vacant set. -/
def PendBound (b2 : Builder) (Q : String → Prop) (vac : List String) : Prop :=
  ∀ kv ∈ b2.transitions, rowPend kv.2 = true → Q kv.1 ∨ kv.1 ∈ vac

/-- The state owns a row with a pending target in the given builder. -/
def PendsOf (b : Builder) (s : String) : Prop :=
  ∃ kv0 ∈ b.transitions, kv0.1 = s ∧ rowPend kv0.2 = true

/-- Source lines 131-146 after the recursive build: finalize, compute the
alphabet, and package the NFA.  Modelled from the spec for the last step:
automata-lib validates the transition table when the NFA object is
constructed, and the spec requires that no pending target survives
finalization, so a surviving pending marker is rejected here. -/
def mkNfa (b : Builder) (init : String) (finals : List String) : Except BuildErr NfaRec :=
  match finalizeB b finals with
  | .error e => .error e
  | .ok (final, b2) =>
    match alphabetOf b2 with
    | .error e => .error e
    | .ok alpha =>
      if hasPending b2.transitions then .error .pendingTarget
      else .ok ⟨b2.states, alpha, b2.transitions, init, final⟩

/-- Concrete targets of one NFA state on one symbol (the empty symbol is
the epsilon label). -/
def nfaTargets (tr : List (String × List (String × List Target))) (s a : String) : List String :=
  match alGet tr s with
  | none => []
  | some row =>
    match alGet row a with
    | none => []
    | some ts => ts.filterMap id

/-- Canonical form of a subset of NFA states: the sublist of the state list
holding its members, so that equal sets have equal representations. -/
def canonSet (states : List String) (S : List String) : List String :=
  states.filter (fun s => s ∈ S)

/-- Plain bounded iteration of a function. -/
def iterN {α : Type} (f : α → α) : Nat → α → α
  | 0, x => x
  | n + 1, x => iterN f n (f x)

/-- One round of following epsilon transitions from every member. -/
def epsOnce (nfa : NfaRec) (S : List String) : List String :=
  S.foldl (fun acc s => setUnion acc (nfaTargets nfa.transitions s "")) S

/-- Modelled from the spec: the epsilon closure, the smallest superset of S
closed under epsilon transitions; the worklist fixpoint is reached within
one round per NFA state, and the result is kept in canonical subset form. -/
def epsClosure (nfa : NfaRec) (S : List String) : List String :=
  canonSet nfa.states (iterN (epsOnce nfa) (nfa.states.length + 1) S)

/-- Union of the symbol successors of every member of a subset. -/
def moveSet (nfa : NfaRec) (S : List String) (a : String) : List String :=
  S.foldl (fun acc s => setUnion acc (nfaTargets nfa.transitions s a)) []

/-- Modelled from the spec: the subset-construction transition function,
the epsilon closure of the set of symbol successors.  The empty subset is
the automata-lib trap state (printed as a pair of braces). -/
def subsetDelta (nfa : NfaRec) (S : List String) (a : String) : List String :=
  epsClosure nfa (moveSet nfa S a)

/-- The subset the determinized DFA starts in. -/
def dfaStart (nfa : NfaRec) : List String :=
  epsClosure nfa [nfa.initialState]

/-- Modelled from the spec: breadth-first discovery of the reachable subset
states.  Each worklist step processes one subset and appends its unseen
successors, so the number of steps is bounded by the number of distinct
subsets and the fuel supplied by the caller covers it. -/
def bfsLoop (nfa : NfaRec) (alpha : List String) :
    Nat → List (List String) → List (List String) → Except BuildErr (List (List String))
  | 0, _, _ => .error .fuelOut
  | fuel + 1, discovered, worklist =>
    match worklist with
    | [] => .ok discovered
    | S :: rest =>
      let step := alpha.foldl
        (fun (acc : List (List String) × List (List String)) a =>
          let T := subsetDelta nfa S a
          if T ∈ acc.1 then acc else (acc.1 ++ [T], acc.2 ++ [T]))
        (discovered, rest)
      bfsLoop nfa alpha fuel step.1 step.2

/-- Modelled from the spec: the determinizer output, the list of reachable
subset states in first-discovered order (the transition function stays
subsetDelta, of which the transition table built by automata-lib is the
restriction to the discovered states). -/
def determinize (nfa : NfaRec) : Except BuildErr (List (List String)) :=
  bfsLoop nfa nfa.inputSymbols (2 ^ nfa.states.length + 1) [dfaStart nfa] [dfaStart nfa]

/-- Is a subset state accepting (contains the NFA accepting state)? -/
def subsetAccepting (nfa : NfaRec) (S : List String) : Bool :=
  nfa.finalState ∈ S

/-- A partition of the discovered subset states into blocks. -/
abbrev Partition := List (List (List String))

/-- Group the members of a list by a key, keys in order of first
occurrence, members keeping their relative order. -/
def groupByKey {α κ : Type} [DecidableEq α] [DecidableEq κ] (key : α → κ) (l : List α) :
    List (List α) :=
  (setOfList (l.map key)).map (fun k => l.filter (fun x => key x = k))

/-- The signature of a subset state under a partition: for each symbol, the
index of the block its successor belongs to. -/
def sigOf (nfa : NfaRec) (alpha : List String) (P : Partition) (S : List String) : List Nat :=
  alpha.map (fun a => P.findIdx (fun B => subsetDelta nfa S a ∈ B))

/-- Modelled from the spec: one refinement pass, splitting every block by
the block-index signature of its members. -/
def refineOnce (nfa : NfaRec) (alpha : List String) (P : Partition) : Partition :=
  P.flatMap (fun B => groupByKey (sigOf nfa alpha P) B)

/-- Modelled from the spec: repeat refinement until a pass changes nothing;
every changing pass adds at least one block, so the fuel supplied by the
caller (one unit per state) covers the loop. -/
def refineLoop (nfa : NfaRec) (alpha : List String) :
    Nat → Partition → Except BuildErr Partition
  | 0, _ => .error .fuelOut
  | fuel + 1, P =>
    let P2 := refineOnce nfa alpha P
    if P2 = P then .ok P else refineLoop nfa alpha fuel P2

/-- Modelled from the spec: the initial partition, accepting states and
non-accepting states (empty blocks dropped). -/
def initPartition (nfa : NfaRec) (Q : List (List String)) : Partition :=
  [Q.filter (fun S => subsetAccepting nfa S),
   Q.filter (fun S => ¬ subsetAccepting nfa S)].filter (fun B => B ≠ [])

/-- Modelled from the spec: run the partition refinement on the discovered
subset states. -/
def minimizeD (nfa : NfaRec) (Q : List (List String)) : Except BuildErr Partition :=
  refineLoop nfa nfa.inputSymbols (Q.length + 1) (initPartition nfa Q)

/-- The block a subset state belongs to. -/
def blockOf (P : Partition) (S : List String) : List (List String) :=
  (P.find? (fun B => S ∈ B)).getD []

/-- Modelled from the spec: the representative state of a merged block.
The block of the trap (the empty subset) is the minimized trap class; the
spec excludes it from the output entirely, so it is represented by the
trap itself; every other block is represented by its first member. -/
def reprOf (B : List (List String)) : List String :=
  if [] ∈ B then [] else B.headD []

/-- The representative a subset state is merged into. -/
def mergedInto (P : Partition) (S : List String) : List String :=
  reprOf (blockOf P S)

/-- Modelled from the spec: the state enumeration of the minimized DFA.
Surviving classes appear in first-discovered order from the start state
(the canonicalizer of spec 4.4 assigns them dense ids from 0), and the
trap class, which the output excludes, is enumerated after them. -/
def minStatesOf (P : Partition) (Q : List (List String)) : List (List String) :=
  let reps := setOfList (Q.map (fun S => mergedInto P S))
  reps.filter (fun S => S ≠ []) ++ reps.filter (fun S => S = [])

/-- The transition function of the minimized DFA. -/
def minDelta (nfa : NfaRec) (P : Partition) (S : List String) (a : String) : List String :=
  mergedInto P (subsetDelta nfa S a)

/-- The start state of the minimized DFA. -/
def minStart (nfa : NfaRec) (P : Partition) : List String :=
  mergedInto P (dfaStart nfa)

/-- The accepting states of the minimized DFA. -/
def minAccSet (nfa : NfaRec) (P : Partition) (Q : List (List String)) : List (List String) :=
  setOfList ((Q.filter (fun S => subsetAccepting nfa S)).map (fun S => mergedInto P S))

/-- The canonical record the pipeline returns (source lines 158-164). -/
structure OutRecord where
  states : List Nat
  start : Nat
  accepts : List Nat
  transitions : List (Nat × List (String × Nat))
  elements : List (String × Node)
deriving Repr

/-- The enumeration index of a minimized state (source line 158: the
state_map built by enumerate over pdfa.states). -/
def stateIdx (ms : List (List String)) (S : List String) : Nat :=
  ms.findIdx (fun T => T = S)

/-- The canonicalization of the minimized DFA (source lines 158-164): drop
the trap state, renumber by enumeration position, keep for every surviving
state the symbols whose successor survives, and attach the element map. -/
def canonicalize (nfa : NfaRec) (P : Partition) (Q : List (List String))
    (elems : List (String × Node)) : OutRecord :=
  let ms := minStatesOf P Q
  { states := (ms.filter (fun S => S ≠ [])).map (stateIdx ms),
    start := stateIdx ms (minStart nfa P),
    accepts := ((minAccSet nfa P Q).filter (fun S => S ≠ [])).map (stateIdx ms),
    transitions := (ms.filter (fun S => S ≠ [])).map (fun S =>
      (stateIdx ms S,
       (nfa.inputSymbols.filter (fun a => minDelta nfa P S a ≠ [])).map (fun a =>
         (a, stateIdx ms (minDelta nfa P S a))))),
    elements := elems }

/-- The whole dfa_from_group pipeline with its intermediate stages exposed:
the finished NFA, the discovered subset states, the refined partition and
the canonical record, together with the content-model tree as the call
leaves it. -/
def pipeline (t : Node) :
    (Except BuildErr (NfaRec × (List (List String) × (Partition × OutRecord)))) × Node :=
  match nfaFromNode (nodeFuel t) t emptyBuilder with
  | (.error e, t2) => (.error e, t2)
  | (.ok ((init, finals), b), t2) =>
    match mkNfa b init finals with
    | .error e => (.error e, t2)
    | .ok nfa =>
      match determinize nfa with
      | .error e => (.error e, t2)
      | .ok Q =>
        match minimizeD nfa Q with
        | .error e => (.error e, t2)
        | .ok P => (.ok (nfa, Q, P, canonicalize nfa P Q b.elements), t2)

/-- dfa_from_group together with the tree value it leaves behind. -/
def dfaFromGroupM (t : Node) : (Except BuildErr OutRecord) × Node :=
  ((pipeline t).1.map (fun z => z.2.2.2), (pipeline t).2)

/-- dfa_from_group as the caller sees it. -/
def dfaFromGroup (t : Node) : Except BuildErr OutRecord :=
  (dfaFromGroupM t).1

/-- Is an occurs pair one of the four shapes the builder supports? -/
def occursSupported (o : Occurs) : Bool :=
  o = ⟨1, some 1⟩ || o = ⟨0, some 1⟩ || o = ⟨0, none⟩ || o = ⟨1, none⟩

mutual
/-- Does every group node own the child list its rule indexes?  The
sequence rule (and through it the all rule) indexes entry 0, so an empty
child list there raises IndexError; an empty choice does not. -/
def groupsNonempty : Node → Bool
  | .element _ _ => true
  | .sequence cs _ => !cs.isEmpty && listGroupsNonempty cs
  | .choice cs _ => listGroupsNonempty cs
  | .allGroup cs _ => !cs.isEmpty && listGroupsNonempty cs
def listGroupsNonempty : List Node → Bool
  | [] => true
  | c :: rest => groupsNonempty c && listGroupsNonempty rest
end

mutual
/-- Does every node of the tree carry a supported occurs pair? -/
def allOccursSupported : Node → Bool
  | .element _ o => occursSupported o
  | .sequence cs o => listAllOccursSupported cs && occursSupported o
  | .choice cs o => listAllOccursSupported cs && occursSupported o
  | .allGroup cs o => listAllOccursSupported cs && occursSupported o
def listAllOccursSupported : List Node → Bool
  | [] => true
  | c :: rest => allOccursSupported c && listAllOccursSupported rest
end

/-- The builder state invariant: the state set is exactly the block of
names q0 up to the current size, in allocation order. -/
def GoodB (b : Builder) : Prop :=
  b.states = (List.range b.states.length).map qName

/-- The epsilon-transition target set recorded at a state. -/
def epsTargets (b : Builder) (x : String) : List Target :=
  match alGet b.transitions x with
  | none => []
  | some row => (alGet row "").getD []

/-- Fold of set union over a list of sets, the running union of the
vacants accumulator in the choice and all loops. -/
def unionAll (ls : List (List String)) : List String :=
  ls.foldl setUnion []

/-- Acceptance of a symbol sequence by the epsilon-NFA under epsilon-closure
simulation: start in the closure of the initial state, move through the
closure of the symbol successors, accept when the accepting state is in
the final subset. -/
def nfaAccepts (nfa : NfaRec) (w : List String) : Bool :=
  subsetAccepting nfa (w.foldl (fun S a => subsetDelta nfa S a) (dfaStart nfa))

/-- Acceptance of a symbol sequence by the minimized DFA. -/
def minAccepts (nfa : NfaRec) (P : Partition) (Q : List (List String)) (w : List String) : Bool :=
  (w.foldl (fun S a => minDelta nfa P S a) (minStart nfa P)) ∈ minAccSet nfa P Q

/-- Decimal value of a digit character list, the left inverse used to show
distinct numbers print distinct names. -/
def digitsVal (l : List Char) : Nat :=
  l.foldl (fun a c => a * 10 + (c.toNat - 48)) 0

/-- The builder invariant carried through the recursion: states are the
names q0 up to the current size in allocation order, and the transition
table holds one entry per state. -/
structure BInv (b : Builder) : Prop where
  names : b.states = (List.range b.states.length).map qName
  keys : (b.transitions.map (fun kv => kv.1)).Nodup
  keySub : ∀ kv ∈ b.transitions, kv.1 ∈ b.states

/-- Every listed state exists in the second builder and is new relative to
the first. -/
def FreshOf (b0 b2 : Builder) (xs : List String) : Prop :=
  ∀ x ∈ xs, x ∈ b2.states ∧ x ∉ b0.states

/-- Every listed state owns a transition-table row. -/
def RowsOk (b2 : Builder) (xs : List String) : Prop :=
  ∀ x ∈ xs, (alGet b2.transitions x).isSome = true

/-- The second builder extends the state list of the first. -/
def Ext (b0 b2 : Builder) : Prop :=
  ∃ ext, b2.states = b0.states ++ ext

/-- The rows of the first builder are untouched in the second. -/
def Unchanged (b0 b2 : Builder) : Prop :=
  ∀ s ∈ b0.states, alGet b2.transitions s = alGet b0.transitions s

/-- Soundness of one node build from one builder state: the node value is
left unchanged, success is decided purely by the tree, a failure on a tree
whose groups are all indexable is an unsupported-occurs failure, and on
success the invariant is preserved, the states grow, the fragment lives in
the fresh states, every vacant state owns a row, and the old rows are
untouched. -/
def BuildSound (t : Node) (b : Builder) (res : BuildRes) : Prop :=
  res.2 = t ∧
  (res.1.isOk = (groupsNonempty t && allOccursSupported t)) ∧
  (∀ e, res.1 = .error e → groupsNonempty t = true →
    ∃ o, e = .unsupportedOccurs o ∧ occursSupported o = false) ∧
  (∀ init vac b2, res.1 = .ok ((init, vac), b2) →
    BInv b2 ∧ Ext b b2 ∧ (init ∈ b2.states ∧ init ∉ b.states) ∧
    FreshOf b b2 vac ∧ RowsOk b2 vac ∧ Unchanged b b2)

/-- Soundness of a recursive builder callback for every node within a
height bound. -/
def RecSound (rec : Node → Builder → BuildRes) (bound : Nat) : Prop :=
  ∀ c b, BInv b → nodeFuel c ≤ bound → BuildSound c b (rec c b)

/-- Pending-tracking soundness of a recursive builder callback: every
pending target a successful build leaves behind sits either where the
input builder already had one or at a vacant state of the fragment. -/
def RecPend (rec : Node → Builder → BuildRes) (bound : Nat) : Prop :=
  ∀ t b, BInv b → nodeFuel t ≤ bound →
    ∀ init vac b2, (rec t b).1 = .ok ((init, vac), b2) →
      PendBound b2 (PendsOf b) vac

/-- The partition invariant carried through the refinement loop: every
block member is a discovered subset state, every discovered subset state
lies in some block, blocks are uniform in acceptance, distinct blocks are
disjoint, and no block is empty. -/
def PartInv (nfa : NfaRec) (Q : List (List String)) (P : Partition) : Prop :=
  (∀ B ∈ P, ∀ x ∈ B, x ∈ Q) ∧
  (∀ x ∈ Q, ∃ B ∈ P, x ∈ B) ∧
  (∀ B ∈ P, ∀ x ∈ B, ∀ y ∈ B, subsetAccepting nfa x = subsetAccepting nfa y) ∧
  (∀ B1 ∈ P, ∀ B2 ∈ P, B1 ≠ B2 → ∀ x ∈ B1, x ∉ B2) ∧
  (∀ B ∈ P, B ≠ [])

/-! Basic lemmas about the Python set and dict embeddings. -/

theorem mem_setInsert {α : Type} [DecidableEq α] (l : List α) (x y : α) :
    y ∈ setInsert l x ↔ y ∈ l ∨ y = x := by
  unfold setInsert
  by_cases h : x ∈ l
  · simp only [if_pos h]
    constructor
    · exact Or.inl
    · rintro (hy | rfl)
      · exact hy
      · exact h
  · simp [if_neg h]

theorem setInsert_of_not_mem {α : Type} [DecidableEq α] {l : List α} {x : α} (h : x ∉ l) :
    setInsert l x = l ++ [x] := by
  unfold setInsert
  simp [if_neg h]

theorem setInsert_of_mem {α : Type} [DecidableEq α] {l : List α} {x : α} (h : x ∈ l) :
    setInsert l x = l := by
  unfold setInsert
  simp [if_pos h]

theorem nodup_setInsert {α : Type} [DecidableEq α] {l : List α} (x : α) (h : l.Nodup) :
    (setInsert l x).Nodup := by
  unfold setInsert
  by_cases hx : x ∈ l
  · simpa [if_pos hx]
  · simp [if_neg hx, List.nodup_append, h, hx]

theorem mem_setUnion {α : Type} [DecidableEq α] (l r : List α) (y : α) :
    y ∈ setUnion l r ↔ y ∈ l ∨ y ∈ r := by
  induction r generalizing l with
  | nil => simp [setUnion]
  | cons a r ih =>
    show y ∈ setUnion (setInsert l a) r ↔ _
    rw [ih, mem_setInsert]
    simp only [List.mem_cons]
    tauto

theorem mem_setOfList {α : Type} [DecidableEq α] (l : List α) (y : α) :
    y ∈ setOfList l ↔ y ∈ l := by
  have : ∀ init : List α, y ∈ l.foldl setInsert init ↔ y ∈ init ∨ y ∈ l := by
    intro init
    induction l generalizing init with
    | nil => simp
    | cons a l ih =>
      simp only [List.foldl_cons, ih, mem_setInsert, List.mem_cons]
      tauto
  simpa [setOfList] using (this []).trans (by simp)

theorem nodup_setUnion {α : Type} [DecidableEq α] (l r : List α) (h : l.Nodup) :
    (setUnion l r).Nodup := by
  induction r generalizing l with
  | nil => exact h
  | cons a r ih => exact ih (setInsert l a) (nodup_setInsert a h)

theorem nodup_setOfList {α : Type} [DecidableEq α] (l : List α) : (setOfList l).Nodup :=
  nodup_setUnion [] l List.nodup_nil

theorem alGet_alSet_self {α β : Type} [DecidableEq α] (l : List (α × β)) (k : α) (v : β) :
    alGet (alSet l k v) k = some v := by
  induction l with
  | nil => simp [alGet, alSet]
  | cons kv rest ih =>
    by_cases h : kv.1 = k
    · simp [alSet, alGet, h]
    · cases kv
      simp only [alSet] at *
      rw [if_neg h]
      simpa [alGet, h] using ih

theorem alGet_alSet_ne {α β : Type} [DecidableEq α] (l : List (α × β)) (k k2 : α) (v : β)
    (h : k ≠ k2) : alGet (alSet l k v) k2 = alGet l k2 := by
  induction l with
  | nil => simp [alGet, alSet, h]
  | cons kv rest ih =>
    cases kv with
    | mk k1 v1 =>
      by_cases h1 : k1 = k
      · subst h1
        simp [alSet, alGet, h]
      · simp only [alSet, if_neg h1, alGet]
        by_cases h2 : k1 = k2
        · simp [h2]
        · simpa [h2] using ih

theorem alSet_keys {α β : Type} [DecidableEq α] (l : List (α × β)) (k : α) (v : β) :
    (alSet l k v).map (fun kv => kv.1) =
      (if k ∈ l.map (fun kv => kv.1) then l.map (fun kv => kv.1)
       else l.map (fun kv => kv.1) ++ [k]) := by
  induction l with
  | nil => simp [alSet]
  | cons kv rest ih =>
    cases kv with
    | mk k1 v1 =>
      by_cases h1 : k1 = k
      · subst h1
        simp [alSet]
      · have h1s : ¬ k = k1 := fun hh => h1 hh.symm
        simp only [alSet, if_neg h1, List.map_cons, List.mem_cons]
        rw [ih]
        by_cases h2 : k ∈ rest.map (fun kv => kv.1)
        · simp [h2, h1s]
        · simp [h2, h1s]

theorem mem_alSet_cases {α β : Type} [DecidableEq α] (l : List (α × β)) (k : α) (v : β)
    (hnd : (l.map (fun kv => kv.1)).Nodup) (kv : α × β) (h : kv ∈ alSet l k v) :
    kv = (k, v) ∨ (kv ∈ l ∧ kv.1 ≠ k) := by
  induction l with
  | nil =>
    simp only [alSet, List.mem_singleton] at h
    exact Or.inl h
  | cons hd rest ih =>
    cases hd with
    | mk k1 v1 =>
      simp only [List.map_cons, List.nodup_cons] at hnd
      by_cases h1 : k1 = k
      · subst h1
        rw [show alSet ((k1, v1) :: rest) k1 v = (k1, v) :: rest by simp [alSet]] at h
        cases h with
        | head => exact Or.inl rfl
        | tail _ hmem =>
          refine Or.inr ⟨List.mem_cons_of_mem _ hmem, ?_⟩
          intro hk
          exact hnd.1 (hk ▸ List.mem_map_of_mem (fun kv => kv.1) hmem)
      · rw [show alSet ((k1, v1) :: rest) k v = (k1, v1) :: alSet rest k v by
            simp [alSet, h1]] at h
        cases h with
        | head => exact Or.inr ⟨List.mem_cons_self _ _, h1⟩
        | tail _ hmem =>
          rcases ih hnd.2 hmem with hh | ⟨hm, hne⟩
          · exact Or.inl hh
          · exact Or.inr ⟨List.mem_cons_of_mem _ hm, hne⟩

/-! Distinct numbers print distinct decimal strings, so the q-names of the
builder are pairwise distinct. -/

theorem toDigitsCore_append (fuel n : Nat) (acc : List Char) :
    Nat.toDigitsCore 10 fuel n acc = Nat.toDigitsCore 10 fuel n [] ++ acc := by
  induction fuel generalizing n acc with
  | zero => simp [Nat.toDigitsCore]
  | succ f ih =>
    simp only [Nat.toDigitsCore]
    by_cases h : n / 10 = 0
    · simp [h]
    · rw [if_neg h, if_neg h, ih (n / 10), ih (n / 10) [Nat.digitChar (n % 10)]]
      simp

theorem digitsVal_append (l : List Char) (c : Char) :
    digitsVal (l ++ [c]) = digitsVal l * 10 + (c.toNat - 48) := by
  simp [digitsVal, List.foldl_append]

theorem digitChar_val (d : Nat) (h : d < 10) : (Nat.digitChar d).toNat - 48 = d := by
  interval_cases d <;> rfl

theorem digitsVal_toDigitsCore (fuel n : Nat) (h : n < fuel) :
    digitsVal (Nat.toDigitsCore 10 fuel n []) = n := by
  induction fuel generalizing n with
  | zero => omega
  | succ f ih =>
    simp only [Nat.toDigitsCore]
    by_cases h0 : n / 10 = 0
    · rw [if_pos h0]
      have hn : n < 10 := by omega
      have : digitsVal [Nat.digitChar (n % 10)] = (Nat.digitChar (n % 10)).toNat - 48 := by
        simp [digitsVal]
      rw [this, digitChar_val (n % 10) (by omega)]
      omega
    · rw [if_neg h0, toDigitsCore_append, digitsVal_append,
        ih (n / 10) (by omega), digitChar_val (n % 10) (by omega)]
      omega

theorem natRepr_inj (m n : Nat) (h : Nat.repr m = Nat.repr n) : m = n := by
  have hm : Nat.toDigitsCore 10 (m + 1) m [] = Nat.toDigitsCore 10 (n + 1) n [] := by
    have hd := congrArg String.data h
    simpa [Nat.repr, Nat.toDigits, List.asString] using hd
  have h1 := digitsVal_toDigitsCore (m + 1) m (by omega)
  have h2 := digitsVal_toDigitsCore (n + 1) n (by omega)
  rw [hm] at h1
  omega

theorem qName_inj (m n : Nat) (h : qName m = qName n) : m = n := by
  apply natRepr_inj
  have hd := congrArg String.data h
  simp only [qName, String.data_append] at hd
  have h2 := List.append_cancel_left hd
  exact String.ext h2

theorem qName_not_mem_range (n : Nat) : qName n ∉ (List.range n).map qName := by
  intro h
  rcases List.mem_map.mp h with ⟨i, hi, he⟩
  have := qName_inj i n he
  rw [List.mem_range] at hi
  omega

/-! Lemmas about the builder primitives. -/

theorem newState_fresh (b : Builder) (hb : BInv b) : (newState b).1 ∉ b.states := by
  intro hmem
  rw [hb.names] at hmem
  exact qName_not_mem_range b.states.length hmem

theorem newState_states (b : Builder) (hb : BInv b) :
    (newState b).2.states = b.states ++ [(newState b).1] := by
  show setInsert b.states (qName b.states.length) = _
  exact setInsert_of_not_mem (newState_fresh b hb)

theorem newState_binv (b : Builder) (hb : BInv b) : BInv (newState b).2 := by
  refine ⟨?_, hb.keys, ?_⟩
  · rw [newState_states b hb]
    have hlen : (b.states ++ [(newState b).1]).length = b.states.length + 1 := by simp
    rw [hlen, List.range_succ, List.map_append, List.map_singleton]
    congr 1
    exact hb.names
  · intro kv hkv
    rw [newState_states b hb]
    exact List.mem_append_left _ (hb.keySub kv hkv)

theorem newState_transitions (b : Builder) : (newState b).2.transitions = b.transitions := rfl

theorem newState_elements (b : Builder) : (newState b).2.elements = b.elements := rfl

theorem addTransition_states (b : Builder) (s a : String) (x : Target) :
    (addTransition b s a x).states = b.states := by
  unfold addTransition
  split
  · rfl
  · split <;> rfl

theorem addTransition_elements (b : Builder) (s a : String) (x : Target) :
    (addTransition b s a x).elements = b.elements := by
  unfold addTransition
  split
  · rfl
  · split <;> rfl

theorem keys_alSet_nodup {α β : Type} [DecidableEq α] (l : List (α × β)) (k : α) (v : β)
    (h : (l.map (fun kv => kv.1)).Nodup) : ((alSet l k v).map (fun kv => kv.1)).Nodup := by
  rw [alSet_keys]
  by_cases hk : k ∈ l.map (fun kv => kv.1)
  · simpa [hk]
  · simp only [if_neg hk]
    simp [List.nodup_append, h, hk]

theorem addTransition_transitions (b : Builder) (s a : String) (x : Target) :
    ∃ row2, (addTransition b s a x).transitions = alSet b.transitions s row2 := by
  unfold addTransition
  split
  · exact ⟨_, rfl⟩
  · split <;> exact ⟨_, rfl⟩

theorem alGet_some_mem {α β : Type} [DecidableEq α] (l : List (α × β)) (k : α) (v : β)
    (h : alGet l k = some v) : (k, v) ∈ l := by
  induction l with
  | nil => exact absurd h (by simp [alGet])
  | cons kv rest ih =>
    cases kv with
    | mk k1 v1 =>
      by_cases h1 : k1 = k
      · subst h1
        rw [show alGet ((k1, v1) :: rest) k1 = some v1 from by simp [alGet]] at h
        simp only [Option.some.injEq] at h
        cases h
        exact List.mem_cons_self _ _
      · simp only [alGet, if_neg h1] at h
        exact List.mem_cons_of_mem _ (ih h)

theorem addTransition_binv (b : Builder) (s a : String) (x : Target) (hb : BInv b)
    (hs : s ∈ b.states) : BInv (addTransition b s a x) := by
  rcases addTransition_transitions b s a x with ⟨row2, hrow⟩
  refine ⟨?_, ?_, ?_⟩
  · rw [addTransition_states]
    exact hb.names
  · rw [hrow]
    exact keys_alSet_nodup _ _ _ hb.keys
  · intro kv hkv
    rw [hrow] at hkv
    rw [addTransition_states]
    rcases mem_alSet_cases b.transitions s row2 hb.keys kv hkv with hkv2 | ⟨hkv2, _⟩
    · rw [hkv2]
      exact hs
    · exact hb.keySub kv hkv2

theorem patchB_states (b : Builder) (s x : String) (b2 : Builder)
    (h : patchB b s x = .ok b2) : b2.states = b.states := by
  unfold patchB at h
  cases hg : alGet b.transitions s with
  | none => rw [hg] at h; exact absurd h (by simp)
  | some row =>
    rw [hg] at h
    simp only [Except.ok.injEq] at h
    rw [← h]

theorem patchB_elements (b : Builder) (s x : String) (b2 : Builder)
    (h : patchB b s x = .ok b2) : b2.elements = b.elements := by
  unfold patchB at h
  cases hg : alGet b.transitions s with
  | none => rw [hg] at h; exact absurd h (by simp)
  | some row =>
    rw [hg] at h
    simp only [Except.ok.injEq] at h
    rw [← h]

theorem patchB_binv (b : Builder) (s x : String) (b2 : Builder)
    (h : patchB b s x = .ok b2) (hb : BInv b) : BInv b2 := by
  unfold patchB at h
  cases hg : alGet b.transitions s with
  | none => rw [hg] at h; exact absurd h (by simp)
  | some row =>
    rw [hg] at h
    simp only [Except.ok.injEq] at h
    subst h
    refine ⟨hb.names, keys_alSet_nodup _ _ _ hb.keys, ?_⟩
    intro kv hkv
    rcases mem_alSet_cases b.transitions s (patchRow row x) hb.keys kv hkv with hkv2 | ⟨hkv2, _⟩
    · rw [hkv2]
      exact hb.keySub (s, row) (alGet_some_mem b.transitions s row hg)
    · exact hb.keySub kv hkv2

theorem alGet_addTransition_ne (b : Builder) (s a : String) (x : Target) (s2 : String)
    (h : s ≠ s2) : alGet (addTransition b s a x).transitions s2 = alGet b.transitions s2 := by
  rcases addTransition_transitions b s a x with ⟨row2, hrow⟩
  rw [hrow, alGet_alSet_ne _ _ _ _ h]

theorem alGet_addTransition_self (b : Builder) (s a : String) (x : Target) :
    ∃ row2, alGet (addTransition b s a x).transitions s = some row2 := by
  rcases addTransition_transitions b s a x with ⟨row2, hrow⟩
  exact ⟨row2, by rw [hrow, alGet_alSet_self]⟩

theorem addTransition_isSome (b : Builder) (s a : String) (x : Target) (s2 : String)
    (h : (alGet b.transitions s2).isSome = true) :
    (alGet (addTransition b s a x).transitions s2).isSome = true := by
  by_cases hs : s = s2
  · subst hs
    rcases alGet_addTransition_self b s a x with ⟨row2, hrow⟩
    simp [hrow]
  · rw [alGet_addTransition_ne b s a x s2 hs]
    exact h

theorem patchB_some (b : Builder) (s x : String) (row : List (String × List Target))
    (h : alGet b.transitions s = some row) :
    patchB b s x = .ok { b with transitions := alSet b.transitions s (patchRow row x) } := by
  unfold patchB
  rw [h]

theorem patchB_none (b : Builder) (s x : String) (h : alGet b.transitions s = none) :
    patchB b s x = .error .keyError := by
  unfold patchB
  rw [h]

theorem patchB_ok_cases (b : Builder) (s x : String) (b2 : Builder)
    (h : patchB b s x = .ok b2) :
    ∃ row, alGet b.transitions s = some row ∧
      b2 = { b with transitions := alSet b.transitions s (patchRow row x) } := by
  cases hg : alGet b.transitions s with
  | none => rw [patchB_none b s x hg] at h; exact absurd h (by simp)
  | some row =>
    rw [patchB_some b s x row hg] at h
    simp only [Except.ok.injEq] at h
    exact ⟨row, rfl, h.symm⟩

theorem alGet_patchB_ne (b : Builder) (s x : String) (b2 : Builder) (s2 : String)
    (h : patchB b s x = .ok b2) (hne : s ≠ s2) :
    alGet b2.transitions s2 = alGet b.transitions s2 := by
  rcases patchB_ok_cases b s x b2 h with ⟨row, _, rfl⟩
  exact alGet_alSet_ne _ _ _ _ hne

theorem patchB_isSome (b : Builder) (s x : String) (b2 : Builder) (s2 : String)
    (h : patchB b s x = .ok b2) (hs : (alGet b.transitions s2).isSome = true) :
    (alGet b2.transitions s2).isSome = true := by
  by_cases hne : s = s2
  · subst hne
    rcases patchB_ok_cases b s x b2 h with ⟨row, _, rfl⟩
    simp [alGet_alSet_self]
  · rw [alGet_patchB_ne b s x b2 s2 h hne]
    exact hs

theorem patchMany_cons (b : Builder) (v : String) (vs : List String) (x : String) :
    patchMany b (v :: vs) x =
      match patchB b v x with
      | .error e => .error e
      | .ok b1 => patchMany b1 vs x := by
  show (v :: vs).foldlM (fun bb v => patchB bb v x) b = _
  rw [List.foldlM_cons]
  cases patchB b v x with
  | error e =>
    show Except.bind _ _ = _
    rfl
  | ok b1 =>
    show Except.bind _ _ = _
    rfl

theorem patchMany_nil (b : Builder) (x : String) : patchMany b [] x = .ok b := rfl

theorem patchMany_ok_facts (vs : List String) (b : Builder) (x : String) (b2 : Builder)
    (h : patchMany b vs x = .ok b2) :
    b2.states = b.states ∧ b2.elements = b.elements ∧ (BInv b → BInv b2) ∧
      (∀ s2, (alGet b.transitions s2).isSome = true →
        (alGet b2.transitions s2).isSome = true) ∧
      (∀ s2, s2 ∉ vs → alGet b2.transitions s2 = alGet b.transitions s2) := by
  induction vs generalizing b with
  | nil =>
    rw [patchMany_nil] at h
    simp only [Except.ok.injEq] at h
    subst h
    exact ⟨rfl, rfl, fun hb => hb, fun _ hs => hs, fun _ _ => rfl⟩
  | cons v vs ih =>
    rw [patchMany_cons] at h
    cases hp : patchB b v x with
    | error e => rw [hp] at h; exact absurd h (by simp)
    | ok b1 =>
      rw [hp] at h
      rcases ih b1 h with ⟨hst, hel, hbi, hsome, hloc⟩
      refine ⟨hst.trans (patchB_states b v x b1 hp), hel.trans (patchB_elements b v x b1 hp),
        fun hb => hbi (patchB_binv b v x b1 hp hb), ?_, ?_⟩
      · intro s2 hs
        exact hsome s2 (patchB_isSome b v x b1 s2 hp hs)
      · intro s2 hs2
        rw [hloc s2 (fun hm => hs2 (List.mem_cons_of_mem _ hm)),
          alGet_patchB_ne b v x b1 s2 hp (fun hh => hs2 (hh ▸ List.mem_cons_self _ _))]

theorem patchMany_ok_of_rows (vs : List String) (b : Builder) (x : String)
    (hrows : ∀ v ∈ vs, (alGet b.transitions v).isSome = true) :
    ∃ b2, patchMany b vs x = .ok b2 := by
  induction vs generalizing b with
  | nil => exact ⟨b, rfl⟩
  | cons v vs ih =>
    rw [patchMany_cons]
    cases hg : alGet b.transitions v with
    | none =>
      have := hrows v (List.mem_cons_self _ _)
      rw [hg] at this
      exact absurd this (by simp)
    | some row =>
      rw [patchB_some b v x row hg]
      apply ih
      intro v2 hv2
      exact patchB_isSome b v x _ v2 (patchB_some b v x row hg) (hrows v2 (List.mem_cons_of_mem _ hv2))

theorem ext_refl (b : Builder) : Ext b b := ⟨[], by simp⟩

theorem ext_trans {a b c : Builder} (h1 : Ext a b) (h2 : Ext b c) : Ext a c := by
  rcases h1 with ⟨e1, h1⟩
  rcases h2 with ⟨e2, h2⟩
  exact ⟨e1 ++ e2, by rw [h2, h1, List.append_assoc]⟩

theorem ext_mem {a b : Builder} (h : Ext a b) {x : String} (hx : x ∈ a.states) :
    x ∈ b.states := by
  rcases h with ⟨e, he⟩
  rw [he]
  exact List.mem_append_left _ hx

theorem ext_of_states_eq {a b : Builder} (h : b.states = a.states) : Ext a b :=
  ⟨[], by rw [h, List.append_nil]⟩

theorem unchanged_refl (b : Builder) : Unchanged b b := fun _ _ => rfl

theorem unchanged_trans {a b c : Builder} (hab : Unchanged a b) (hbc : Unchanged b c)
    (hext : Ext a b) : Unchanged a c := by
  intro s hs
  rw [hbc s (ext_mem hext hs), hab s hs]

theorem unchanged_of_transitions_eq {a b : Builder} (h : b.transitions = a.transitions) :
    Unchanged a b := fun s _ => by rw [h]

theorem unchanged_addTransition {b : Builder} {s : String} (a : String) (x : Target)
    (hs : s ∉ b.states) : Unchanged b (addTransition b s a x) := by
  intro s2 hs2
  exact alGet_addTransition_ne b s a x s2 (fun hh => hs (hh ▸ hs2))

theorem unchanged_patchMany {b b2 : Builder} {vs : List String} {x : String}
    (h : patchMany b vs x = .ok b2) (hvs : ∀ v ∈ vs, v ∉ b.states) :
    Unchanged b b2 := by
  intro s hs
  exact (patchMany_ok_facts vs b x b2 h).2.2.2.2 s (fun hm => hvs s hm hs)

theorem rowsOk_mono {b b2 : Builder} {xs : List String} (h : RowsOk b xs)
    (hsub : ∀ x ∈ xs, x ∈ b.states) (hun : Unchanged b b2) : RowsOk b2 xs := by
  intro x hx
  rw [hun x (hsub x hx)]
  exact h x hx

theorem freshOf_mono {b0 b b2 : Builder} {xs : List String} (h : FreshOf b0 b xs)
    (hext : Ext b b2) : FreshOf b0 b2 xs := by
  intro x hx
  exact ⟨ext_mem hext (h x hx).1, (h x hx).2⟩

theorem unchanged_step_addTransition {b0 b : Builder} {s : String} (a : String) (x : Target)
    (hloc : Unchanged b0 b) (hs : s ∉ b0.states) : Unchanged b0 (addTransition b s a x) := by
  intro s2 hs2
  rw [alGet_addTransition_ne b s a x s2 (fun hh => hs (hh ▸ hs2)), hloc s2 hs2]

theorem unchanged_step_patchMany {b0 b b2 : Builder} {vs : List String} {x : String}
    (h : patchMany b vs x = .ok b2) (hloc : Unchanged b0 b) (hvs : ∀ v ∈ vs, v ∉ b0.states) :
    Unchanged b0 b2 := by
  intro s hs
  rw [(patchMany_ok_facts vs b x b2 h).2.2.2.2 s (fun hm => hvs s hm hs), hloc s hs]

theorem occursWrap_sound (b0 b : Builder) (o : Occurs) (init : String) (vac : List String)
    (hb : BInv b) (hext : Ext b0 b) (hinit : init ∈ b.states ∧ init ∉ b0.states)
    (hvac : FreshOf b0 b vac) (hrows : RowsOk b vac) (hloc : Unchanged b0 b) :
    ((occursWrap b o init vac).isOk = occursSupported o) ∧
    (∀ e, occursWrap b o init vac = .error e →
      e = .unsupportedOccurs o ∧ occursSupported o = false) ∧
    (∀ init2 vac2 b2, occursWrap b o init vac = .ok ((init2, vac2), b2) →
      init2 = init ∧ init ∈ b2.states ∧ BInv b2 ∧ Ext b0 b2 ∧ FreshOf b0 b2 vac2 ∧
        RowsOk b2 vac2 ∧ Unchanged b0 b2) := by
  have hvacFresh : ∀ v ∈ vac, v ∉ b0.states := fun v hv => (hvac v hv).2
  by_cases h11 : o = ⟨1, some 1⟩
  · subst h11
    rw [show occursWrap b ⟨1, some 1⟩ init vac = .ok ((init, vac), b) from rfl]
    refine ⟨rfl, by simp, ?_⟩
    intro init2 vac2 b2 h
    simp only [Except.ok.injEq, Prod.mk.injEq] at h
    rcases h with ⟨⟨hi, hv⟩, hb2⟩
    subst hi; subst hv; subst hb2
    exact ⟨rfl, hinit.1, hb, hext, hvac, hrows, hloc⟩
  · by_cases h01 : o = ⟨0, some 1⟩
    · subst h01
      rw [show occursWrap b ⟨0, some 1⟩ init vac =
          .ok ((init, setInsert vac init), addTransition b init "" none) from rfl]
      refine ⟨rfl, by simp, ?_⟩
      intro init2 vac2 b2 h
      simp only [Except.ok.injEq, Prod.mk.injEq] at h
      rcases h with ⟨⟨hi, hv⟩, hb2⟩
      subst hi; subst hv; subst hb2
      have hext2 : Ext b (addTransition b init "" none) :=
        ext_of_states_eq (addTransition_states b init "" none)
      refine ⟨rfl, ext_mem hext2 hinit.1, addTransition_binv b init "" none hb hinit.1,
        ext_trans hext hext2, ?_, ?_,
        unchanged_step_addTransition "" none hloc hinit.2⟩
      · intro v hv
        rw [mem_setInsert] at hv
        rcases hv with hv | rfl
        · exact freshOf_mono hvac hext2 v hv
        · exact ⟨ext_mem hext2 hinit.1, hinit.2⟩
      · intro v hv
        rw [mem_setInsert] at hv
        rcases hv with hv | rfl
        · by_cases hvi : init = v
          · subst hvi
            rcases alGet_addTransition_self b init "" none with ⟨row2, hrow⟩
            simp [hrow]
          · rw [alGet_addTransition_ne b init "" none v hvi]
            exact hrows v hv
        · rcases alGet_addTransition_self b v "" none with ⟨row2, hrow⟩
          simp [hrow]
    · by_cases h0u : o = ⟨0, none⟩
      · subst h0u
        have hred : occursWrap b ⟨0, none⟩ init vac =
            match patchMany b vac init with
            | .error e => .error e
            | .ok b1 => .ok ((init, [init]), addTransition b1 init "" none) := rfl
        rcases patchMany_ok_of_rows vac b init (fun v hv => hrows v hv) with ⟨b1, hp⟩
        rw [hred, hp]
        rcases patchMany_ok_facts vac b init b1 hp with ⟨hst, _, hbi, hsome, _⟩
        refine ⟨rfl, by simp, ?_⟩
        intro init2 vac2 b2 h
        simp only [Except.ok.injEq, Prod.mk.injEq] at h
        rcases h with ⟨⟨hi, hv⟩, hb2⟩
        subst hi; subst hv; subst hb2
        have hext1 : Ext b b1 := ext_of_states_eq hst
        have hext2 : Ext b1 (addTransition b1 init "" none) :=
          ext_of_states_eq (addTransition_states b1 init "" none)
        have hloc1 : Unchanged b0 b1 := unchanged_step_patchMany hp hloc hvacFresh
        refine ⟨rfl, ext_mem hext2 (ext_mem hext1 hinit.1),
          addTransition_binv b1 init "" none (hbi hb) (hst.symm ▸ hinit.1),
          ext_trans hext (ext_trans hext1 hext2), ?_, ?_,
          unchanged_step_addTransition "" none hloc1 hinit.2⟩
        · intro v hv
          rw [List.mem_singleton] at hv
          subst hv
          exact ⟨ext_mem hext2 (ext_mem hext1 hinit.1), hinit.2⟩
        · intro v hv
          rw [List.mem_singleton] at hv
          subst hv
          rcases alGet_addTransition_self b1 v "" none with ⟨row2, hrow⟩
          simp [hrow]
      · by_cases h1u : o = ⟨1, none⟩
        · subst h1u
          have hred : occursWrap b ⟨1, none⟩ init vac =
              match patchMany (newState b).2 vac (newState b).1 with
              | .error e => .error e
              | .ok b2 =>
                .ok ((init, [(newState b).1]),
                  addTransition (addTransition b2 (newState b).1 "" (some init))
                    (newState b).1 "" none) := rfl
          have hrows1 : RowsOk (newState b).2 vac := by
            intro v hv
            rw [show (newState b).2.transitions = b.transitions from rfl]
            exact hrows v hv
          rcases patchMany_ok_of_rows vac (newState b).2 (newState b).1 hrows1 with ⟨b1, hp⟩
          rw [hred, hp]
          rcases patchMany_ok_facts vac (newState b).2 (newState b).1 b1 hp with
            ⟨hst, _, hbi, hsome, _⟩
          refine ⟨rfl, by simp, ?_⟩
          intro init2 vac2 b2 h
          simp only [Except.ok.injEq, Prod.mk.injEq] at h
          rcases h with ⟨⟨hi, hv⟩, hb2⟩
          subst hi; subst hv; subst hb2
          have hnb : BInv (newState b).2 := newState_binv b hb
          have hnfresh : (newState b).1 ∉ b.states := newState_fresh b hb
          have hnfresh0 : (newState b).1 ∉ b0.states := fun hm => hnfresh (ext_mem hext hm)
          have hextN : Ext b (newState b).2 := ⟨[(newState b).1], newState_states b hb⟩
          have hext1 : Ext (newState b).2 b1 := ext_of_states_eq hst
          have hlocN : Unchanged b0 (newState b).2 :=
            unchanged_trans hloc (unchanged_of_transitions_eq rfl) hext
          have hloc1 : Unchanged b0 b1 := unchanged_step_patchMany hp hlocN hvacFresh
          have hxb1 : (newState b).1 ∈ b1.states := by
            rw [hst, newState_states b hb]
            exact List.mem_append_right _ (List.mem_singleton_self _)
          have hA1 := addTransition_binv b1 (newState b).1 "" (some init) (hbi hnb) hxb1
          have hextA1 : Ext b1 (addTransition b1 (newState b).1 "" (some init)) :=
            ext_of_states_eq (addTransition_states _ _ _ _)
          have hextA2 : Ext (addTransition b1 (newState b).1 "" (some init))
              (addTransition (addTransition b1 (newState b).1 "" (some init))
                (newState b).1 "" none) :=
            ext_of_states_eq (addTransition_states _ _ _ _)
          refine ⟨rfl,
            ext_mem hextA2 (ext_mem hextA1 (ext_mem hext1 (ext_mem hextN hinit.1))),
            addTransition_binv _ _ _ _ hA1
              (by rw [addTransition_states]; exact hxb1),
            ext_trans hext (ext_trans hextN (ext_trans hext1 (ext_trans hextA1 hextA2))), ?_, ?_,
            unchanged_step_addTransition "" none
              (unchanged_step_addTransition "" (some init) hloc1 hnfresh0) hnfresh0⟩
          · intro v hv
            rw [List.mem_singleton] at hv
            subst hv
            refine ⟨?_, hnfresh0⟩
            apply ext_mem hextA2
            apply ext_mem hextA1
            apply ext_mem hext1
            rw [newState_states b hb]
            exact List.mem_append_right _ (List.mem_singleton_self _)
          · intro v hv
            rw [List.mem_singleton] at hv
            subst hv
            rcases alGet_addTransition_self
              (addTransition b1 (newState b).1 "" (some init)) (newState b).1 ""
              none with ⟨row2, hrow⟩
            simp [hrow]
        · have hred : ∀ bb ii vv, occursWrap bb o ii vv = .error (.unsupportedOccurs o) := by
            intro bb ii vv
            unfold occursWrap
            rw [if_neg h11, if_neg h01, if_neg h0u, if_neg h1u]
          have hsup : occursSupported o = false := by
            unfold occursSupported
            simp only [Bool.or_eq_false_iff, decide_eq_false_iff_not]
            exact ⟨⟨⟨h11, h01⟩, h0u⟩, h1u⟩
          rw [hred]
          refine ⟨by rw [hsup]; rfl, ?_, ?_⟩
          · intro e he
            simp only [Except.error.injEq] at he
            exact ⟨he.symm, hsup⟩
          · intro init2 vac2 b2 h
            exact absurd h (by simp)

theorem nodeFuel_pos (c : Node) : 1 ≤ nodeFuel c := by
  cases c <;> simp [nodeFuel]

theorem nodeFuel_le_listFuel (c : Node) (l : List Node) (h : c ∈ l) :
    nodeFuel c ≤ listFuel l := by
  induction l with
  | nil => cases h
  | cons a l ih =>
    rw [listFuel]
    cases h with
    | head => exact le_max_left _ _
    | tail _ hm => exact le_trans (ih hm) (le_max_right _ _)

theorem bool_eq_of_iff {a b : Bool} (h : a = true ↔ b = true) : a = b := by
  cases a <;> cases b <;> simp_all

theorem listGroupsNonempty_all (l : List Node) :
    listGroupsNonempty l = l.all groupsNonempty := by
  induction l with
  | nil => rfl
  | cons c l ih => rw [listGroupsNonempty, ih, List.all_cons]

theorem listAllOccursSupported_all (l : List Node) :
    listAllOccursSupported l = l.all allOccursSupported := by
  induction l with
  | nil => rfl
  | cons c l ih => rw [listAllOccursSupported, ih, List.all_cons]

theorem perm_all_eq {α : Type} (f : α → Bool) {p q : List α} (h : p.Perm q) :
    p.all f = q.all f := by
  apply bool_eq_of_iff
  simp only [List.all_eq_true]
  constructor <;> intro hh x hx
  · exact hh x (h.mem_iff.mpr hx)
  · exact hh x (h.mem_iff.mp hx)

theorem perm_listGroupsNonempty {p q : List Node} (h : p.Perm q) :
    listGroupsNonempty p = listGroupsNonempty q := by
  rw [listGroupsNonempty_all, listGroupsNonempty_all]
  exact perm_all_eq _ h

theorem perm_listAllOccursSupported {p q : List Node} (h : p.Perm q) :
    listAllOccursSupported p = listAllOccursSupported q := by
  rw [listAllOccursSupported_all, listAllOccursSupported_all]
  exact perm_all_eq _ h

theorem perm_isEmpty {α : Type} {p q : List α} (h : p.Perm q) : p.isEmpty = q.isEmpty := by
  apply bool_eq_of_iff
  rw [List.isEmpty_iff, List.isEmpty_iff]
  constructor <;> intro hh
  · subst hh
    exact h.symm.eq_nil
  · subst hh
    exact h.eq_nil

theorem seqLoop_nil (rec : Node → Builder → BuildRes) (init : String)
    (vacant : List String) (b : Builder) :
    seqLoop rec init vacant [] b = (.ok ((init, vacant), b), []) := rfl

theorem seqLoop_err (rec : Node → Builder → BuildRes) (init : String) (vacant : List String)
    (e : Node) (rest : List Node) (b : Builder) (err : BuildErr) (e2 : Node)
    (h : rec e b = (.error err, e2)) :
    seqLoop rec init vacant (e :: rest) b = (.error err, e2 :: rest) := by
  unfold seqLoop
  rw [h]

theorem seqLoop_perr (rec : Node → Builder → BuildRes) (init : String) (vacant : List String)
    (e : Node) (rest : List Node) (b : Builder) (i2 : String) (v2 : List String)
    (b1 : Builder) (e2 : Node) (err : BuildErr)
    (h : rec e b = (.ok ((i2, v2), b1), e2)) (hp : patchMany b1 vacant i2 = .error err) :
    seqLoop rec init vacant (e :: rest) b = (.error err, e2 :: rest) := by
  unfold seqLoop
  rw [h]
  dsimp only
  rw [hp]

theorem seqLoop_step (rec : Node → Builder → BuildRes) (init : String) (vacant : List String)
    (e : Node) (rest : List Node) (b : Builder) (i2 : String) (v2 : List String)
    (b1 : Builder) (e2 : Node) (b1p : Builder)
    (h : rec e b = (.ok ((i2, v2), b1), e2)) (hp : patchMany b1 vacant i2 = .ok b1p) :
    seqLoop rec init vacant (e :: rest) b =
      ((seqLoop rec init v2 rest b1p).1, e2 :: (seqLoop rec init v2 rest b1p).2) := by
  conv_lhs => unfold seqLoop
  rw [h]
  dsimp only
  rw [hp]

theorem seqLoop_sound (rec : Node → Builder → BuildRes) (bound : Nat)
    (hrec : RecSound rec bound) (b0 : Builder) (init : String) :
    ∀ (l : List Node) (vacant : List String) (b : Builder),
    (∀ c ∈ l, nodeFuel c ≤ bound) → BInv b → Ext b0 b → init ∈ b.states →
    FreshOf b0 b vacant → RowsOk b vacant → Unchanged b0 b →
    (seqLoop rec init vacant l b).2 = l ∧
    ((seqLoop rec init vacant l b).1.isOk =
      (listGroupsNonempty l && listAllOccursSupported l)) ∧
    (∀ e, (seqLoop rec init vacant l b).1 = .error e → listGroupsNonempty l = true →
      ∃ o, e = .unsupportedOccurs o ∧ occursSupported o = false) ∧
    (∀ init2 vac2 b2, (seqLoop rec init vacant l b).1 = .ok ((init2, vac2), b2) →
      init2 = init ∧ BInv b2 ∧ Ext b0 b2 ∧ Ext b b2 ∧ FreshOf b0 b2 vac2 ∧
        RowsOk b2 vac2 ∧ Unchanged b0 b2) := by
  intro l
  induction l with
  | nil =>
    intro vacant b _ hb hext _ hvac hrows hloc
    rw [seqLoop_nil]
    refine ⟨rfl, rfl, by simp, ?_⟩
    intro init2 vac2 b2 h
    simp only [Except.ok.injEq, Prod.mk.injEq] at h
    rcases h with ⟨⟨hi, hv⟩, hb2⟩
    subst hi; subst hv; subst hb2
    exact ⟨rfl, hb, hext, ext_refl b, hvac, hrows, hloc⟩
  | cons e rest ih =>
    intro vacant b hf hb hext hinitb hvac hrows hloc
    rcases hrec e b hb (hf e (List.mem_cons_self _ _)) with ⟨hres2, hok, herr, hokcase⟩
    rcases hre : rec e b with ⟨r, e2⟩
    rw [hre] at hres2
    have he2 : e2 = e := hres2
    subst he2
    cases r with
    | error err =>
      rw [seqLoop_err rec init vacant e2 rest b err e2 hre]
      have hge2 : (groupsNonempty e2 && allOccursSupported e2) = false := by
        rw [← hok, hre]
        rfl
      refine ⟨rfl, ?_, ?_, ?_⟩
      · show false = _
        rw [listGroupsNonempty, listAllOccursSupported]
        cases hga : groupsNonempty e2 <;> cases haa : allOccursSupported e2 <;>
          rw [hga, haa] at hge2 <;> simp_all
      · intro e3 he3 hgne
        simp only [Except.error.injEq] at he3
        subst he3
        rw [listGroupsNonempty, Bool.and_eq_true] at hgne
        exact herr err (by rw [hre]) hgne.1
      · intro init2 vac2 b2 h
        exact absurd h (by simp)
    | ok fb =>
      rcases fb with ⟨⟨i2, v2⟩, b1⟩
      rcases hokcase i2 v2 b1 (by rw [hre]) with ⟨hbi1, hext1, hi2, hfresh1, hrows1, hloc1⟩
      have hge2 : (groupsNonempty e2 && allOccursSupported e2) = true := by
        rw [← hok, hre]
        rfl
      have hrows0 : RowsOk b1 vacant :=
        rowsOk_mono hrows (fun v hv => (hvac v hv).1) hloc1
      rcases patchMany_ok_of_rows vacant b1 i2 hrows0 with ⟨b1p, hp⟩
      rw [seqLoop_step rec init vacant e2 rest b i2 v2 b1 e2 b1p hre hp]
      rcases patchMany_ok_facts vacant b1 i2 b1p hp with ⟨hst, _, hbi2, hsome2, _⟩
      have hextP : Ext b1 b1p := ext_of_states_eq hst
      have hlocB : Unchanged b0 b1 := unchanged_trans hloc hloc1 hext
      have hlocP : Unchanged b0 b1p :=
        unchanged_step_patchMany hp hlocB (fun v hv => (hvac v hv).2)
      have ihap := ih v2 b1p (fun c hc => hf c (List.mem_cons_of_mem _ hc)) (hbi2 hbi1)
        (ext_trans hext (ext_trans hext1 hextP))
        (ext_mem hextP (ext_mem hext1 hinitb))
        (fun v hv => ⟨ext_mem hextP (hfresh1 v hv).1,
          fun hm => (hfresh1 v hv).2 (ext_mem hext hm)⟩)
        (fun v hv => hsome2 v (hrows1 v hv))
        hlocP
      rcases ihap with ⟨ihres2, ihok, iherr, ihokcase⟩
      refine ⟨by rw [ihres2], ?_, ?_, ?_⟩
      · show (seqLoop rec init v2 rest b1p).1.isOk = _
        rw [ihok, listGroupsNonempty, listAllOccursSupported]
        rw [Bool.and_eq_true] at hge2
        rw [hge2.1, hge2.2]
        simp
      · intro e3 he3 hgne
        rw [listGroupsNonempty, Bool.and_eq_true] at hgne
        exact iherr e3 he3 hgne.2
      · intro init2 vac2 b2 h
        rcases ihokcase init2 vac2 b2 h with ⟨hie, hbi3, _, hext3, hfresh3, hrows3, hloc3⟩
        exact ⟨hie, hbi3, ext_trans hext (ext_trans hext1 (ext_trans hextP hext3)),
          ext_trans hext1 (ext_trans hextP hext3), hfresh3, hrows3, hloc3⟩

theorem seqSteps_nil (rec : Node → Builder → BuildRes) (b : Builder) :
    seqSteps rec [] b = (.error .indexError, []) := rfl

theorem seqSteps_err (rec : Node → Builder → BuildRes) (e : Node) (rest : List Node)
    (b : Builder) (err : BuildErr) (e2 : Node) (h : rec e b = (.error err, e2)) :
    seqSteps rec (e :: rest) b = (.error err, e2 :: rest) := by
  unfold seqSteps
  dsimp only
  rw [h]

theorem seqSteps_ok (rec : Node → Builder → BuildRes) (e : Node) (rest : List Node)
    (b : Builder) (i2 : String) (v2 : List String) (b1 : Builder) (e2 : Node)
    (h : rec e b = (.ok ((i2, v2), b1), e2)) :
    seqSteps rec (e :: rest) b =
      ((seqLoop rec i2 v2 rest b1).1, e2 :: (seqLoop rec i2 v2 rest b1).2) := by
  conv_lhs => unfold seqSteps
  dsimp only
  rw [h]

theorem seqSteps_sound (rec : Node → Builder → BuildRes) (bound : Nat)
    (hrec : RecSound rec bound) :
    ∀ (l : List Node) (b : Builder), (∀ c ∈ l, nodeFuel c ≤ bound) → BInv b →
    (seqSteps rec l b).2 = l ∧
    ((seqSteps rec l b).1.isOk =
      (!l.isEmpty && (listGroupsNonempty l && listAllOccursSupported l))) ∧
    (∀ e, (seqSteps rec l b).1 = .error e → (!l.isEmpty && listGroupsNonempty l) = true →
      ∃ o, e = .unsupportedOccurs o ∧ occursSupported o = false) ∧
    (∀ init2 vac2 b2, (seqSteps rec l b).1 = .ok ((init2, vac2), b2) →
      BInv b2 ∧ Ext b b2 ∧ (init2 ∈ b2.states ∧ init2 ∉ b.states) ∧ FreshOf b b2 vac2 ∧
        RowsOk b2 vac2 ∧ Unchanged b b2) := by
  intro l b hf hb
  cases l with
  | nil =>
    rw [seqSteps_nil]
    refine ⟨rfl, rfl, ?_, ?_⟩
    · intro e he hpre
      simp at hpre
    · intro init2 vac2 b2 h
      exact absurd h (by simp)
  | cons e rest =>
    rcases hrec e b hb (hf e (List.mem_cons_self _ _)) with ⟨hres2, hok, herr, hokcase⟩
    rcases hre : rec e b with ⟨r, e2⟩
    rw [hre] at hres2
    have he2 : e2 = e := hres2
    subst he2
    cases r with
    | error err =>
      rw [seqSteps_err rec e2 rest b err e2 hre]
      have hge2 : (groupsNonempty e2 && allOccursSupported e2) = false := by
        rw [← hok, hre]
        rfl
      refine ⟨rfl, ?_, ?_, ?_⟩
      · show false = _
        rw [listGroupsNonempty, listAllOccursSupported]
        cases hga : groupsNonempty e2 <;> cases haa : allOccursSupported e2 <;>
          rw [hga, haa] at hge2 <;> simp_all
      · intro e3 he3 hgne
        simp only [Except.error.injEq] at he3
        subst he3
        simp only [List.isEmpty_cons, Bool.not_false, Bool.true_and, listGroupsNonempty,
          Bool.and_eq_true] at hgne
        exact herr _ (by rw [hre]) hgne.1
      · intro init2 vac2 b2 h
        exact absurd h (by simp)
    | ok fb =>
      rcases fb with ⟨⟨i2, v2⟩, b1⟩
      rcases hokcase i2 v2 b1 (by rw [hre]) with ⟨hbi1, hext1, hi2, hfresh1, hrows1, hloc1⟩
      have hge2 : (groupsNonempty e2 && allOccursSupported e2) = true := by
        rw [← hok, hre]
        rfl
      rw [Bool.and_eq_true] at hge2
      rw [seqSteps_ok rec e2 rest b i2 v2 b1 e2 hre]
      have hsl := seqLoop_sound rec bound hrec b i2 rest v2 b1
        (fun c hc => hf c (List.mem_cons_of_mem _ hc)) hbi1 hext1 hi2.1 hfresh1 hrows1 hloc1
      rcases hsl with ⟨slres2, slok, slerr, slokcase⟩
      refine ⟨by rw [slres2], ?_, ?_, ?_⟩
      · show (seqLoop rec i2 v2 rest b1).1.isOk = _
        rw [slok, listGroupsNonempty, listAllOccursSupported]
        rw [hge2.1, hge2.2]
        simp
      · intro e3 he3 hgne
        simp only [List.isEmpty_cons, Bool.not_false, Bool.true_and, listGroupsNonempty,
          Bool.and_eq_true] at hgne
        exact slerr e3 he3 hgne.2
      · intro init2 vac2 b2 h
        rcases slokcase init2 vac2 b2 h with ⟨hie, hbi3, hext3, hext4, hfresh3, hrows3, hloc3⟩
        subst hie
        exact ⟨hbi3, hext3, ⟨ext_mem hext4 hi2.1, hi2.2⟩, hfresh3, hrows3, hloc3⟩

theorem choiceLoop_nil (rec : Node → Builder → BuildRes) (x : String)
    (vacants : List String) (b : Builder) :
    choiceLoop rec x vacants [] b = (.ok (vacants, b), []) := rfl

theorem choiceLoop_err (rec : Node → Builder → BuildRes) (x : String) (vacants : List String)
    (e : Node) (rest : List Node) (b : Builder) (err : BuildErr) (e2 : Node)
    (h : rec e b = (.error err, e2)) :
    choiceLoop rec x vacants (e :: rest) b = (.error err, e2 :: rest) := by
  unfold choiceLoop
  dsimp only
  rw [h]

theorem choiceLoop_step (rec : Node → Builder → BuildRes) (x : String) (vacants : List String)
    (e : Node) (rest : List Node) (b : Builder) (i2 : String) (v2 : List String)
    (b1 : Builder) (e2 : Node) (h : rec e b = (.ok ((i2, v2), b1), e2)) :
    choiceLoop rec x vacants (e :: rest) b =
      ((choiceLoop rec x (setUnion vacants v2) rest
          (addTransition b1 x "" (some i2))).1,
        e2 :: (choiceLoop rec x (setUnion vacants v2) rest
          (addTransition b1 x "" (some i2))).2) := by
  conv_lhs => unfold choiceLoop
  dsimp only
  rw [h]

theorem choiceLoop_sound (rec : Node → Builder → BuildRes) (bound : Nat)
    (hrec : RecSound rec bound) (b0 : Builder) (x : String) :
    ∀ (l : List Node) (vacants : List String) (b : Builder),
    (∀ c ∈ l, nodeFuel c ≤ bound) → BInv b → Ext b0 b → x ∈ b.states → x ∉ b0.states →
    FreshOf b0 b vacants → RowsOk b vacants → Unchanged b0 b →
    (choiceLoop rec x vacants l b).2 = l ∧
    ((choiceLoop rec x vacants l b).1.isOk =
      (listGroupsNonempty l && listAllOccursSupported l)) ∧
    (∀ e, (choiceLoop rec x vacants l b).1 = .error e → listGroupsNonempty l = true →
      ∃ o, e = .unsupportedOccurs o ∧ occursSupported o = false) ∧
    (∀ vac2 b2, (choiceLoop rec x vacants l b).1 = .ok (vac2, b2) →
      BInv b2 ∧ Ext b0 b2 ∧ Ext b b2 ∧ FreshOf b0 b2 vac2 ∧ RowsOk b2 vac2 ∧
        Unchanged b0 b2) := by
  intro l
  induction l with
  | nil =>
    intro vacants b _ hb hext _ _ hvac hrows hloc
    rw [choiceLoop_nil]
    refine ⟨rfl, rfl, by simp, ?_⟩
    intro vac2 b2 h
    simp only [Except.ok.injEq, Prod.mk.injEq] at h
    rcases h with ⟨hv, hb2⟩
    subst hv; subst hb2
    exact ⟨hb, hext, ext_refl b, hvac, hrows, hloc⟩
  | cons e rest ih =>
    intro vacants b hf hb hext hx hx0 hvac hrows hloc
    rcases hrec e b hb (hf e (List.mem_cons_self _ _)) with ⟨hres2, hok, herr, hokcase⟩
    rcases hre : rec e b with ⟨r, e2⟩
    rw [hre] at hres2
    have he2 : e2 = e := hres2
    subst he2
    cases r with
    | error err =>
      rw [choiceLoop_err rec x vacants e2 rest b err e2 hre]
      have hge2 : (groupsNonempty e2 && allOccursSupported e2) = false := by
        rw [← hok, hre]
        rfl
      refine ⟨rfl, ?_, ?_, ?_⟩
      · show false = _
        rw [listGroupsNonempty, listAllOccursSupported]
        cases hga : groupsNonempty e2 <;> cases haa : allOccursSupported e2 <;>
          rw [hga, haa] at hge2 <;> simp_all
      · intro e3 he3 hgne
        simp only [Except.error.injEq] at he3
        subst he3
        rw [listGroupsNonempty, Bool.and_eq_true] at hgne
        exact herr _ (by rw [hre]) hgne.1
      · intro vac2 b2 h
        exact absurd h (by simp)
    | ok fb =>
      rcases fb with ⟨⟨i2, v2⟩, b1⟩
      rcases hokcase i2 v2 b1 (by rw [hre]) with ⟨hbi1, hext1, hi2, hfresh1, hrows1, hloc1⟩
      have hge2 : (groupsNonempty e2 && allOccursSupported e2) = true := by
        rw [← hok, hre]
        rfl
      rw [Bool.and_eq_true] at hge2
      rw [choiceLoop_step rec x vacants e2 rest b i2 v2 b1 e2 hre]
      have hba := addTransition_binv b1 x "" (some i2) hbi1 (ext_mem hext1 hx)
      have hexta : Ext b1 (addTransition b1 x "" (some i2)) :=
        ext_of_states_eq (addTransition_states _ _ _ _)
      have hlocB : Unchanged b0 b1 := unchanged_trans hloc hloc1 hext
      have hloca : Unchanged b0 (addTransition b1 x "" (some i2)) :=
        unchanged_step_addTransition "" (some i2) hlocB hx0
      have ihap := ih (setUnion vacants v2) (addTransition b1 x "" (some i2))
        (fun c hc => hf c (List.mem_cons_of_mem _ hc)) hba
        (ext_trans hext (ext_trans hext1 hexta))
        (ext_mem hexta (ext_mem hext1 hx)) hx0
        (fun v hv => by
          rw [mem_setUnion] at hv
          rcases hv with hv | hv
          · exact ⟨ext_mem hexta (ext_mem hext1 (hvac v hv).1), (hvac v hv).2⟩
          · exact ⟨ext_mem hexta (hfresh1 v hv).1,
              fun hm => (hfresh1 v hv).2 (ext_mem hext hm)⟩)
        (fun v hv => by
          rw [mem_setUnion] at hv
          rcases hv with hv | hv
          · exact addTransition_isSome b1 x "" (some i2) v
              (by rw [hloc1 v (hvac v hv).1]; exact hrows v hv)
          · exact addTransition_isSome b1 x "" (some i2) v (hrows1 v hv))
        hloca
      rcases ihap with ⟨ihres2, ihok, iherr, ihokcase⟩
      refine ⟨by rw [ihres2], ?_, ?_, ?_⟩
      · show (choiceLoop rec x (setUnion vacants v2) rest
            (addTransition b1 x "" (some i2))).1.isOk = _
        rw [ihok, listGroupsNonempty, listAllOccursSupported]
        rw [hge2.1, hge2.2]
        simp
      · intro e3 he3 hgne
        rw [listGroupsNonempty, Bool.and_eq_true] at hgne
        exact iherr e3 he3 hgne.2
      · intro vac2 b2 h
        rcases ihokcase vac2 b2 h with ⟨hbi3, hext3, hext4, hfresh3, hrows3, hloc3⟩
        exact ⟨hbi3, hext3, ext_trans hext1 (ext_trans hexta hext4), hfresh3, hrows3, hloc3⟩

theorem choiceSteps_red (rec : Node → Builder → BuildRes) (cs : List Node) (b : Builder) :
    choiceSteps rec cs b =
      (match (choiceLoop rec (newState b).1 [] cs (newState b).2).1 with
       | .error err => .error err
       | .ok (vacants, b2) => .ok (((newState b).1, vacants), b2),
       (choiceLoop rec (newState b).1 [] cs (newState b).2).2) := by
  conv_lhs => unfold choiceSteps
  dsimp only
  rcases choiceLoop rec (newState b).1 [] cs (newState b).2 with ⟨r, cs2⟩
  cases r <;> rfl

theorem choiceSteps_sound (rec : Node → Builder → BuildRes) (bound : Nat)
    (hrec : RecSound rec bound) :
    ∀ (cs : List Node) (b : Builder), (∀ c ∈ cs, nodeFuel c ≤ bound) → BInv b →
    (choiceSteps rec cs b).2 = cs ∧
    ((choiceSteps rec cs b).1.isOk = (listGroupsNonempty cs && listAllOccursSupported cs)) ∧
    (∀ e, (choiceSteps rec cs b).1 = .error e → listGroupsNonempty cs = true →
      ∃ o, e = .unsupportedOccurs o ∧ occursSupported o = false) ∧
    (∀ init2 vac2 b2, (choiceSteps rec cs b).1 = .ok ((init2, vac2), b2) →
      BInv b2 ∧ Ext b b2 ∧ (init2 ∈ b2.states ∧ init2 ∉ b.states) ∧ FreshOf b b2 vac2 ∧
        RowsOk b2 vac2 ∧ Unchanged b b2) := by
  intro cs b hf hb
  have hx0 : (newState b).1 ∉ b.states := newState_fresh b hb
  have hxs : (newState b).1 ∈ (newState b).2.states := by
    rw [newState_states b hb]
    exact List.mem_append_right _ (List.mem_singleton_self _)
  have hcl := choiceLoop_sound rec bound hrec b (newState b).1 cs [] (newState b).2 hf
    (newState_binv b hb) ⟨[(newState b).1], newState_states b hb⟩ hxs hx0
    (by intro v hv; cases hv) (by intro v hv; cases hv)
    (unchanged_of_transitions_eq rfl)
  rcases hcl with ⟨clres2, clok, clerr, clokcase⟩
  rw [choiceSteps_red rec cs b]
  refine ⟨clres2, ?_, ?_, ?_⟩
  · cases hr : (choiceLoop rec (newState b).1 [] cs (newState b).2).1 with
    | error err =>
      rw [hr] at clok
      exact clok
    | ok vb =>
      rcases vb with ⟨vacants, b2⟩
      rw [hr] at clok
      exact clok
  · intro e3 he3 hgne
    cases hr : (choiceLoop rec (newState b).1 [] cs (newState b).2).1 with
    | error err =>
      rw [hr] at he3
      simp only [Except.error.injEq] at he3
      subst he3
      exact clerr _ hr hgne
    | ok vb =>
      rcases vb with ⟨vacants, b2⟩
      rw [hr] at he3
      exact absurd he3 (by simp)
  · intro init2 vac2 b2 h
    cases hr : (choiceLoop rec (newState b).1 [] cs (newState b).2).1 with
    | error err =>
      rw [hr] at h
      exact absurd h (by simp)
    | ok vb =>
      rcases vb with ⟨vacants, b3⟩
      rw [hr] at h
      simp only [Except.ok.injEq, Prod.mk.injEq] at h
      rcases h with ⟨⟨hi, hv⟩, hb2⟩
      subst hv; subst hb2
      rcases clokcase vacants b3 hr with ⟨hbi3, hext3, hext4, hfresh3, hrows3, hloc3⟩
      subst hi
      exact ⟨hbi3, hext3, ⟨ext_mem hext4 hxs, hx0⟩, hfresh3, hrows3, hloc3⟩

theorem epsTargets_of_alGet_eq {b b2 : Builder} {x : String}
    (h : alGet b2.transitions x = alGet b.transitions x) :
    epsTargets b2 x = epsTargets b x := by
  unfold epsTargets
  rw [h]

theorem epsTargets_addTransition (b : Builder) (x : String) (v : Target) :
    epsTargets (addTransition b x "" v) x = setInsert (epsTargets b x) v := by
  unfold epsTargets addTransition
  cases hg : alGet b.transitions x with
  | none =>
    dsimp only
    rw [alGet_alSet_self]
    dsimp only
    rw [show alGet [("", [v])] "" = some [v] from rfl]
    rfl
  | some row =>
    dsimp only
    cases hrr : alGet row "" with
    | none =>
      dsimp only
      rw [alGet_alSet_self]
      dsimp only
      rw [alGet_alSet_self]
      rfl
    | some ts =>
      dsimp only
      rw [alGet_alSet_self]
      dsimp only
      rw [alGet_alSet_self]
      rfl

theorem allLoop_nil (rec : Node → Builder → BuildRes) (x : String) (va : List String)
    (b : Builder) : allLoop rec x va [] b = (.ok (va, b), none) := rfl

theorem allLoop_err (rec : Node → Builder → BuildRes) (x : String) (va : List String)
    (p : List Node) (rest : List (List Node)) (b : Builder) (err : BuildErr)
    (p2 : List Node) (h : seqSteps rec p b = (.error err, p2)) :
    allLoop rec x va (p :: rest) b = (.error err, some p2) := by
  unfold allLoop
  dsimp only
  rw [h]

theorem allLoop_step (rec : Node → Builder → BuildRes) (x : String) (va : List String)
    (p : List Node) (rest : List (List Node)) (b : Builder) (i2 : String)
    (v2 : List String) (b1 : Builder) (p2 : List Node)
    (h : seqSteps rec p b = (.ok ((i2, v2), b1), p2)) :
    allLoop rec x va (p :: rest) b =
      allLoop rec x (setUnion va v2) rest (addTransition b1 x "" (some i2)) := by
  conv_lhs => unfold allLoop
  dsimp only
  rw [h]

theorem allLoop_sound (rec : Node → Builder → BuildRes) (bound : Nat)
    (hrec : RecSound rec bound) (b0 : Builder) (x : String) (ok0 : Bool) :
    ∀ (perms : List (List Node)) (va : List String) (b : Builder),
    (∀ p ∈ perms, ∀ c ∈ p, nodeFuel c ≤ bound) →
    (∀ p ∈ perms,
      (!p.isEmpty && (listGroupsNonempty p && listAllOccursSupported p)) = ok0) →
    BInv b → Ext b0 b → x ∈ b.states → x ∉ b0.states → FreshOf b0 b va → RowsOk b va →
    Unchanged b0 b →
    (∀ t ∈ epsTargets b x, ∃ s, t = some s ∧ s ∈ b.states) →
    ((allLoop rec x va perms b).1.isOk = (perms.isEmpty || ok0)) ∧
    (∀ e g, allLoop rec x va perms b = (.error e, g) →
      ok0 = false ∧ ∃ p rest2, perms = p :: rest2 ∧ g = some ((seqSteps rec p b).2) ∧
        (seqSteps rec p b).1 = .error e) ∧
    (∀ vac2 b2, (allLoop rec x va perms b).1 = .ok (vac2, b2) →
      BInv b2 ∧ Ext b0 b2 ∧ Ext b b2 ∧ FreshOf b0 b2 vac2 ∧ RowsOk b2 vac2 ∧
        Unchanged b0 b2 ∧
        ∃ frags : List (String × List String),
          frags.length = perms.length ∧
          epsTargets b2 x = epsTargets b x ++ frags.map (fun f => some f.1) ∧
          (frags.map (fun f => f.1)).Nodup ∧
          (∀ f ∈ frags, f.1 ∈ b2.states ∧ f.1 ∉ b.states) ∧
          vac2 = frags.foldl (fun acc f => setUnion acc f.2) va) := by
  intro perms
  induction perms with
  | nil =>
    intro va b _ _ hb hext _ _ hva hrows hloc _
    rw [allLoop_nil]
    refine ⟨rfl, ?_, ?_⟩
    · intro e g h
      simp at h
    · intro vac2 b2 h
      simp only [Except.ok.injEq, Prod.mk.injEq] at h
      rcases h with ⟨hv, hb2⟩
      subst hv; subst hb2
      exact ⟨hb, hext, ext_refl b, hva, hrows, hloc, [], rfl, by simp, by simp, by simp, rfl⟩
  | cons p rest ih =>
    intro va b hfu hsame hb hext hx hx0 hva hrows hloc hpre
    rcases seqSteps_sound rec bound hrec p b (hfu p (List.mem_cons_self _ _)) hb with
      ⟨ssres2, ssok, sserr, ssokcase⟩
    have hsp := hsame p (List.mem_cons_self _ _)
    cases ok0 with
    | false =>
      have hko : (seqSteps rec p b).1.isOk = false := by rw [ssok, hsp]
      rcases hsr : seqSteps rec p b with ⟨r, p2⟩
      cases r with
      | ok z =>
        rw [hsr] at hko
        exact absurd hko (by simp [Except.isOk, Except.toBool])
      | error err =>
        rw [allLoop_err rec x va p rest b err p2 hsr]
        refine ⟨rfl, ?_, ?_⟩
        · intro e g h
          simp only [Prod.mk.injEq, Except.error.injEq] at h
          refine ⟨rfl, p, rest, rfl, ?_, ?_⟩
          · rw [hsr, ← h.2]
          · rw [hsr, h.1]
        · intro vac2 b2 h
          exact absurd h (by simp)
    | true =>
      have hko : (seqSteps rec p b).1.isOk = true := by rw [ssok, hsp]
      rcases hsr : seqSteps rec p b with ⟨r, p2⟩
      cases r with
      | error err =>
        rw [hsr] at hko
        exact absurd hko (by simp [Except.isOk, Except.toBool])
      | ok fb =>
        rcases fb with ⟨⟨i2, v2⟩, b1⟩
        rcases ssokcase i2 v2 b1 (by rw [hsr]) with ⟨hbi1, hext1, hi2, hfresh1, hrows1, hloc1⟩
        rw [allLoop_step rec x va p rest b i2 v2 b1 p2 hsr]
        have hba := addTransition_binv b1 x "" (some i2) hbi1 (ext_mem hext1 hx)
        have hexta : Ext b1 (addTransition b1 x "" (some i2)) :=
          ext_of_states_eq (addTransition_states _ _ _ _)
        have hlocB : Unchanged b0 b1 := unchanged_trans hloc hloc1 hext
        have hloca : Unchanged b0 (addTransition b1 x "" (some i2)) :=
          unchanged_step_addTransition "" (some i2) hlocB hx0
        have heps1 : epsTargets b1 x = epsTargets b x :=
          epsTargets_of_alGet_eq (hloc1 x hx)
        have heps2 := epsTargets_addTransition b1 x (some i2)
        have hni : (some i2 : Target) ∉ epsTargets b1 x := by
          rw [heps1]
          intro hmem
          rcases hpre _ hmem with ⟨s, hs, hsmem⟩
          have : i2 = s := by injection hs
          exact hi2.2 (this ▸ hsmem)
        have heps3 : epsTargets (addTransition b1 x "" (some i2)) x =
            epsTargets b x ++ [some i2] := by
          rw [heps2, setInsert_of_not_mem hni, heps1]
        have ihap := ih (setUnion va v2) (addTransition b1 x "" (some i2))
          (fun q hq => hfu q (List.mem_cons_of_mem _ hq))
          (fun q hq => hsame q (List.mem_cons_of_mem _ hq))
          hba (ext_trans hext (ext_trans hext1 hexta))
          (ext_mem hexta (ext_mem hext1 hx)) hx0
          (fun v hv => by
            rw [mem_setUnion] at hv
            rcases hv with hv | hv
            · exact ⟨ext_mem hexta (ext_mem hext1 (hva v hv).1), (hva v hv).2⟩
            · exact ⟨ext_mem hexta (hfresh1 v hv).1,
                fun hm => (hfresh1 v hv).2 (ext_mem hext hm)⟩)
          (fun v hv => by
            rw [mem_setUnion] at hv
            rcases hv with hv | hv
            · exact addTransition_isSome b1 x "" (some i2) v
                (by rw [hloc1 v (hva v hv).1]; exact hrows v hv)
            · exact addTransition_isSome b1 x "" (some i2) v (hrows1 v hv))
          hloca
          (by
            rw [heps3]
            intro t ht
            rw [List.mem_append] at ht
            rcases ht with ht | ht
            · rcases hpre t ht with ⟨s, hs, hsmem⟩
              exact ⟨s, hs, ext_mem hexta (ext_mem hext1 hsmem)⟩
            · rw [List.mem_singleton] at ht
              exact ⟨i2, ht, ext_mem hexta hi2.1⟩)
        rcases ihap with ⟨ihok, iherr, ihokcase⟩
        refine ⟨?_, ?_, ?_⟩
        · rw [ihok]
          cases rest <;> simp
        · intro e g h
          rcases iherr e g h with ⟨hfalse, _⟩
          exact absurd hfalse (by simp)
        · intro vac2 b2 h
          rcases ihokcase vac2 b2 h with
            ⟨hbi3, hext3, hext4, hfresh3, hrows3, hloc3, frags2, hlen, hepsf, hnd, hffr, hvf⟩
          refine ⟨hbi3, hext3, ext_trans hext1 (ext_trans hexta hext4), hfresh3, hrows3,
            hloc3, (i2, v2) :: frags2, ?_, ?_, ?_, ?_, ?_⟩
          · simp [hlen]
          · rw [hepsf, heps3, List.append_assoc]
            rfl
          · rw [List.map_cons, List.nodup_cons]
            refine ⟨?_, hnd⟩
            intro hmem
            rcases List.mem_map.mp hmem with ⟨f, hf, hfe⟩
            exact (hffr f hf).2 (hfe ▸ ext_mem hexta hi2.1)
          · intro f hf
            cases hf with
            | head =>
              exact ⟨ext_mem hext4 (ext_mem hexta hi2.1), hi2.2⟩
            | tail _ hft =>
              refine ⟨(hffr f hft).1, ?_⟩
              intro hm
              exact (hffr f hft).2 (ext_mem hexta (ext_mem hext1 hm))
          · rw [hvf]
            rfl

theorem permutations_cons_self (cs : List Node) :
    cs.permutations = cs :: cs.permutationsAux [] := rfl

theorem permutations_ne_nil (cs : List Node) : cs.permutations ≠ [] := by
  rw [permutations_cons_self]
  simp

theorem allSteps_red (rec : Node → Builder → BuildRes) (cs : List Node) (b : Builder) :
    allSteps rec cs b =
      (match allLoop rec (newState b).1 [] cs.permutations (newState b).2 with
       | (.error err, some g) => (.error err, g)
       | (.error err, none) => (.error err, cs)
       | (.ok (vacants, b2), _) => (.ok (((newState b).1, vacants), b2), cs)) := rfl

theorem allSteps_sound (rec : Node → Builder → BuildRes) (bound : Nat)
    (hrec : RecSound rec bound) :
    ∀ (cs : List Node) (b : Builder), (∀ c ∈ cs, nodeFuel c ≤ bound) → BInv b →
    (allSteps rec cs b).2 = cs ∧
    ((allSteps rec cs b).1.isOk =
      (!cs.isEmpty && (listGroupsNonempty cs && listAllOccursSupported cs))) ∧
    (∀ e, (allSteps rec cs b).1 = .error e → (!cs.isEmpty && listGroupsNonempty cs) = true →
      ∃ o, e = .unsupportedOccurs o ∧ occursSupported o = false) ∧
    (∀ init2 vac2 b2, (allSteps rec cs b).1 = .ok ((init2, vac2), b2) →
      BInv b2 ∧ Ext b b2 ∧ (init2 ∈ b2.states ∧ init2 ∉ b.states) ∧ FreshOf b b2 vac2 ∧
        RowsOk b2 vac2 ∧ Unchanged b b2) := by
  intro cs b hf hb
  have hx0 : (newState b).1 ∉ b.states := newState_fresh b hb
  have hxs : (newState b).1 ∈ (newState b).2.states := by
    rw [newState_states b hb]
    exact List.mem_append_right _ (List.mem_singleton_self _)
  have hnoRow : alGet (newState b).2.transitions (newState b).1 = none := by
    rw [show (newState b).2.transitions = b.transitions from rfl]
    cases hg : alGet b.transitions (newState b).1 with
    | none => rfl
    | some row =>
      exact absurd (hb.keySub _ (alGet_some_mem b.transitions (newState b).1 row hg)) hx0
  have hal := allLoop_sound rec bound hrec b (newState b).1
    (!cs.isEmpty && (listGroupsNonempty cs && listAllOccursSupported cs))
    cs.permutations [] (newState b).2
    (fun p hp c hc =>
      hf c ((List.mem_permutations.mp hp).mem_iff.mp hc))
    (fun p hp => by
      have hperm : p.Perm cs := List.mem_permutations.mp hp
      rw [perm_isEmpty hperm, perm_listGroupsNonempty hperm,
        perm_listAllOccursSupported hperm])
    (newState_binv b hb) ⟨[(newState b).1], newState_states b hb⟩ hxs hx0
    (by intro v hv; cases hv) (by intro v hv; cases hv)
    (unchanged_of_transitions_eq rfl)
    (by
      intro t ht
      unfold epsTargets at ht
      rw [hnoRow] at ht
      cases ht)
  rcases hal with ⟨alok, alerr, alokcase⟩
  rw [allSteps_red rec cs b]
  rcases har : allLoop rec (newState b).1 [] cs.permutations (newState b).2 with ⟨r, g⟩
  cases r with
  | error err =>
    rcases alerr err g har with ⟨hok0, p, rest2, hperms, hg, hserr⟩
    rw [permutations_cons_self] at hperms
    simp only [List.cons.injEq] at hperms
    have hpcs : p = cs := hperms.1.symm
    subst hpcs
    rcases seqSteps_sound rec bound hrec p (newState b).2 hf (newState_binv b hb) with
      ⟨ssres2, _, sserr, _⟩
    rw [ssres2] at hg
    subst hg
    dsimp only
    refine ⟨rfl, ?_, ?_, ?_⟩
    · show false = _
      rw [hok0]
    · intro e3 he3 hpre
      simp only [Except.error.injEq] at he3
      subst he3
      exact sserr _ hserr hpre
    · intro i2 v2 b2 h
      exact absurd h (by simp)
  | ok vb =>
    rcases vb with ⟨vacants, b2⟩
    rcases alokcase vacants b2 (by rw [har]) with
      ⟨hbi2, hext2, hextN2, hfresh2, hrows2, hloc2, _⟩
    have hpe : cs.permutations.isEmpty = false := by
      cases hpp : cs.permutations with
      | nil => exact absurd hpp (permutations_ne_nil cs)
      | cons a tl => simp
    rw [har, hpe] at alok
    dsimp only
    refine ⟨rfl, ?_, ?_, ?_⟩
    · show true = _
      rw [show ((Except.ok (vacants, b2) : Except BuildErr (List String × Builder)).isOk) =
        true from rfl] at alok
      exact alok
    · intro e3 he3 _
      exact absurd he3 (by simp)
    · intro i2 v2 b3 h
      simp only [Except.ok.injEq, Prod.mk.injEq] at h
      rcases h with ⟨⟨hi, hv⟩, hb3⟩
      subst hi; subst hv; subst hb3
      exact ⟨hbi2, hext2, ⟨ext_mem hextN2 hxs, hx0⟩, hfresh2, hrows2, hloc2⟩

theorem nfaFromNode_sound : ∀ fuel, RecSound (nfaFromNode fuel) fuel := by
  intro fuel
  induction fuel with
  | zero =>
    intro c b hb hf
    have := nodeFuel_pos c
    omega
  | succ f ih =>
    intro c b hb hf
    show BuildSound c b (nodeStep (nfaFromNode f) c b)
    cases c with
    | element name o =>
      have hb1 := newState_binv b hb
      have hx0 := newState_fresh b hb
      have hx1 : (newState b).1 ∈ (newState b).2.states := by
        rw [newState_states b hb]
        exact List.mem_append_right _ (List.mem_singleton_self _)
      have hb2 := addTransition_binv (newState b).2 (newState b).1 name none hb1 hx1
      have hb3 : BInv (elementB b name o) := ⟨hb2.names, hb2.keys, hb2.keySub⟩
      have hxmem : (newState b).1 ∈ (elementB b name o).states := by
        show (newState b).1 ∈ (addTransition (newState b).2 (newState b).1 name none).states
        rw [addTransition_states]
        exact hx1
      have hext3 : Ext b (elementB b name o) := by
        refine ⟨[(newState b).1], ?_⟩
        show (addTransition (newState b).2 (newState b).1 name none).states = _
        rw [addTransition_states]
        exact newState_states b hb
      have hrows3 : RowsOk (elementB b name o) [(newState b).1] := by
        intro v hv
        rw [List.mem_singleton] at hv
        subst hv
        show (alGet (addTransition (newState b).2 (newState b).1 name none).transitions
          (newState b).1).isSome = true
        rcases alGet_addTransition_self (newState b).2 (newState b).1 name none with ⟨row, hrow⟩
        simp [hrow]
      have hloc3 : Unchanged b (elementB b name o) := by
        intro s hs
        show alGet (addTransition (newState b).2 (newState b).1 name none).transitions s = _
        rw [alGet_addTransition_ne _ _ _ _ s (fun hh => hx0 (by rw [hh]; exact hs))]
        rfl
      have hw := occursWrap_sound b (elementB b name o) o (newState b).1 [(newState b).1]
        hb3 hext3 ⟨hxmem, hx0⟩
        (fun v hv => by
          rw [List.mem_singleton] at hv
          subst hv
          exact ⟨hxmem, hx0⟩)
        hrows3 hloc3
      rcases hw with ⟨hwok, hwerr, hwokcase⟩
      refine ⟨rfl, ?_, ?_, ?_⟩
      · show (occursWrap (elementB b name o) o (newState b).1 [(newState b).1]).isOk = _
        rw [hwok]
        show occursSupported o = (true && occursSupported o)
        simp
      · intro e he hg
        rcases hwerr e he with ⟨heo, hso⟩
        exact ⟨o, heo, hso⟩
      · intro init2 vac2 b2 hok
        rcases hwokcase init2 vac2 b2 hok with ⟨hie, him, hbi, hext, hfr, hro, hun⟩
        subst hie
        exact ⟨hbi, hext, ⟨him, hx0⟩, hfr, hro, hun⟩
    | sequence cs o =>
      have hfl : ∀ c2 ∈ cs, nodeFuel c2 ≤ f := by
        intro c2 hc2
        have h1 := nodeFuel_le_listFuel c2 cs hc2
        have h2 : nodeFuel (Node.sequence cs o) = 1 + listFuel cs := rfl
        omega
      have hred : nodeStep (nfaFromNode f) (Node.sequence cs o) b =
          (match seqSteps (nfaFromNode f) cs b with
           | (.error err, cs2) => (.error err, Node.sequence cs2 o)
           | (.ok ((init, vacant), b2), cs2) =>
             (occursWrap b2 o init vacant, Node.sequence cs2 o)) := rfl
      rw [hred]
      rcases seqSteps_sound (nfaFromNode f) f ih cs b hfl hb with ⟨ssr2, ssok, sserr, ssokcase⟩
      rcases hsq : seqSteps (nfaFromNode f) cs b with ⟨r, cs2⟩
      rw [hsq] at ssr2 ssok sserr ssokcase
      have hcs2 : cs2 = cs := ssr2
      subst hcs2
      cases r with
      | error err =>
        dsimp only
        refine ⟨rfl, ?_, ?_, ?_⟩
        · show false = _
          show false = ((!cs2.isEmpty && listGroupsNonempty cs2) &&
            (listAllOccursSupported cs2 && occursSupported o))
          have hfalse : (!cs2.isEmpty && (listGroupsNonempty cs2 &&
              listAllOccursSupported cs2)) = false := ssok.symm
          cases h1 : cs2.isEmpty <;> cases h2 : listGroupsNonempty cs2 <;>
            cases h3 : listAllOccursSupported cs2 <;> simp_all
        · intro e he hg
          simp only [Except.error.injEq] at he
          subst he
          have hg2 : (!cs2.isEmpty && listGroupsNonempty cs2) = true := by
            have : groupsNonempty (Node.sequence cs2 o) =
              (!cs2.isEmpty && listGroupsNonempty cs2) := rfl
            rw [← this]
            exact hg
          exact sserr err rfl hg2
        · intro init2 vac2 b2 hok
          exact absurd hok (by simp)
      | ok fb =>
        dsimp only
        rcases fb with ⟨⟨init, vac⟩, b1⟩
        rcases ssokcase init vac b1 rfl with ⟨hbi1, hext1, hinit1, hfr1, hro1, hun1⟩
        have htrue : (!cs2.isEmpty && (listGroupsNonempty cs2 &&
            listAllOccursSupported cs2)) = true := ssok.symm
        simp only [Bool.and_eq_true] at htrue
        have hw := occursWrap_sound b b1 o init vac hbi1 hext1
          ⟨hinit1.1, hinit1.2⟩ hfr1 hro1 hun1
        rcases hw with ⟨hwok, hwerr, hwokcase⟩
        refine ⟨rfl, ?_, ?_, ?_⟩
        · show (occursWrap b1 o init vac).isOk = _
          rw [hwok]
          show occursSupported o = ((!cs2.isEmpty && listGroupsNonempty cs2) &&
            (listAllOccursSupported cs2 && occursSupported o))
          rw [htrue.1, htrue.2.1, htrue.2.2]
          simp
        · intro e he hg
          rcases hwerr e he with ⟨heo, hso⟩
          exact ⟨o, heo, hso⟩
        · intro init2 vac2 b2 hok
          rcases hwokcase init2 vac2 b2 hok with ⟨hie, him, hbi, hext, hfr, hro, hun⟩
          subst hie
          exact ⟨hbi, hext, ⟨him, hinit1.2⟩, hfr, hro, hun⟩
    | choice cs o =>
      have hfl : ∀ c2 ∈ cs, nodeFuel c2 ≤ f := by
        intro c2 hc2
        have h1 := nodeFuel_le_listFuel c2 cs hc2
        have h2 : nodeFuel (Node.choice cs o) = 1 + listFuel cs := rfl
        omega
      have hred : nodeStep (nfaFromNode f) (Node.choice cs o) b =
          (match choiceSteps (nfaFromNode f) cs b with
           | (.error err, cs2) => (.error err, Node.choice cs2 o)
           | (.ok ((init, vacant), b2), cs2) =>
             (occursWrap b2 o init vacant, Node.choice cs2 o)) := rfl
      rw [hred]
      rcases choiceSteps_sound (nfaFromNode f) f ih cs b hfl hb with ⟨ssr2, ssok, sserr, ssokcase⟩
      rcases hsq : choiceSteps (nfaFromNode f) cs b with ⟨r, cs2⟩
      rw [hsq] at ssr2 ssok sserr ssokcase
      have hcs2 : cs2 = cs := ssr2
      subst hcs2
      cases r with
      | error err =>
        dsimp only
        refine ⟨rfl, ?_, ?_, ?_⟩
        · show false = _
          show false = (listGroupsNonempty cs2 && (listAllOccursSupported cs2 &&
            occursSupported o))
          have hfalse : (listGroupsNonempty cs2 && listAllOccursSupported cs2) = false :=
            ssok.symm
          cases h2 : listGroupsNonempty cs2 <;> cases h3 : listAllOccursSupported cs2 <;>
            simp_all
        · intro e he hg
          simp only [Except.error.injEq] at he
          subst he
          exact sserr err rfl hg
        · intro init2 vac2 b2 hok
          exact absurd hok (by simp)
      | ok fb =>
        dsimp only
        rcases fb with ⟨⟨init, vac⟩, b1⟩
        rcases ssokcase init vac b1 rfl with ⟨hbi1, hext1, hinit1, hfr1, hro1, hun1⟩
        have htrue : (listGroupsNonempty cs2 && listAllOccursSupported cs2) = true := ssok.symm
        simp only [Bool.and_eq_true] at htrue
        have hw := occursWrap_sound b b1 o init vac hbi1 hext1
          ⟨hinit1.1, hinit1.2⟩ hfr1 hro1 hun1
        rcases hw with ⟨hwok, hwerr, hwokcase⟩
        refine ⟨rfl, ?_, ?_, ?_⟩
        · show (occursWrap b1 o init vac).isOk = _
          rw [hwok]
          show occursSupported o = (listGroupsNonempty cs2 &&
            (listAllOccursSupported cs2 && occursSupported o))
          rw [htrue.1, htrue.2]
          simp
        · intro e he hg
          rcases hwerr e he with ⟨heo, hso⟩
          exact ⟨o, heo, hso⟩
        · intro init2 vac2 b2 hok
          rcases hwokcase init2 vac2 b2 hok with ⟨hie, him, hbi, hext, hfr, hro, hun⟩
          subst hie
          exact ⟨hbi, hext, ⟨him, hinit1.2⟩, hfr, hro, hun⟩
    | allGroup cs o =>
      have hfl : ∀ c2 ∈ cs, nodeFuel c2 ≤ f := by
        intro c2 hc2
        have h1 := nodeFuel_le_listFuel c2 cs hc2
        have h2 : nodeFuel (Node.allGroup cs o) = 1 + listFuel cs := rfl
        omega
      have hred : nodeStep (nfaFromNode f) (Node.allGroup cs o) b =
          (match allSteps (nfaFromNode f) cs b with
           | (.error err, cs2) => (.error err, Node.allGroup cs2 o)
           | (.ok ((init, vacant), b2), cs2) =>
             (occursWrap b2 o init vacant, Node.allGroup cs2 o)) := rfl
      rw [hred]
      rcases allSteps_sound (nfaFromNode f) f ih cs b hfl hb with ⟨ssr2, ssok, sserr, ssokcase⟩
      rcases hsq : allSteps (nfaFromNode f) cs b with ⟨r, cs2⟩
      rw [hsq] at ssr2 ssok sserr ssokcase
      have hcs2 : cs2 = cs := ssr2
      subst hcs2
      cases r with
      | error err =>
        dsimp only
        refine ⟨rfl, ?_, ?_, ?_⟩
        · show false = _
          show false = ((!cs2.isEmpty && listGroupsNonempty cs2) &&
            (listAllOccursSupported cs2 && occursSupported o))
          have hfalse : (!cs2.isEmpty && (listGroupsNonempty cs2 &&
              listAllOccursSupported cs2)) = false := ssok.symm
          cases h1 : cs2.isEmpty <;> cases h2 : listGroupsNonempty cs2 <;>
            cases h3 : listAllOccursSupported cs2 <;> simp_all
        · intro e he hg
          simp only [Except.error.injEq] at he
          subst he
          have hg2 : (!cs2.isEmpty && listGroupsNonempty cs2) = true := by
            have : groupsNonempty (Node.allGroup cs2 o) =
              (!cs2.isEmpty && listGroupsNonempty cs2) := rfl
            rw [← this]
            exact hg
          exact sserr err rfl hg2
        · intro init2 vac2 b2 hok
          exact absurd hok (by simp)
      | ok fb =>
        dsimp only
        rcases fb with ⟨⟨init, vac⟩, b1⟩
        rcases ssokcase init vac b1 rfl with ⟨hbi1, hext1, hinit1, hfr1, hro1, hun1⟩
        have htrue : (!cs2.isEmpty && (listGroupsNonempty cs2 &&
            listAllOccursSupported cs2)) = true := ssok.symm
        simp only [Bool.and_eq_true] at htrue
        have hw := occursWrap_sound b b1 o init vac hbi1 hext1
          ⟨hinit1.1, hinit1.2⟩ hfr1 hro1 hun1
        rcases hw with ⟨hwok, hwerr, hwokcase⟩
        refine ⟨rfl, ?_, ?_, ?_⟩
        · show (occursWrap b1 o init vac).isOk = _
          rw [hwok]
          show occursSupported o = ((!cs2.isEmpty && listGroupsNonempty cs2) &&
            (listAllOccursSupported cs2 && occursSupported o))
          rw [htrue.1, htrue.2.1, htrue.2.2]
          simp
        · intro e he hg
          rcases hwerr e he with ⟨heo, hso⟩
          exact ⟨o, heo, hso⟩
        · intro init2 vac2 b2 hok
          rcases hwokcase init2 vac2 b2 hok with ⟨hie, him, hbi, hext, hfr, hro, hun⟩
          subst hie
          exact ⟨hbi, hext, ⟨him, hinit1.2⟩, hfr, hro, hun⟩

theorem mem_alSet_weak {α β : Type} [DecidableEq α] (l : List (α × β)) (k : α) (v : β)
    (kv : α × β) (h : kv ∈ alSet l k v) : kv = (k, v) ∨ kv ∈ l := by
  induction l with
  | nil =>
    simp only [alSet, List.mem_singleton] at h
    exact Or.inl h
  | cons hd rest ih =>
    cases hd with
    | mk k1 v1 =>
      by_cases h1 : k1 = k
      · subst h1
        rw [show alSet ((k1, v1) :: rest) k1 v = (k1, v) :: rest by simp [alSet]] at h
        cases h with
        | head => exact Or.inl rfl
        | tail _ hmem => exact Or.inr (List.mem_cons_of_mem _ hmem)
      · rw [show alSet ((k1, v1) :: rest) k v = (k1, v1) :: alSet rest k v by
            simp [alSet, h1]] at h
        cases h with
        | head => exact Or.inr (List.mem_cons_self _ _)
        | tail _ hmem =>
          rcases ih hmem with hh | hm
          · exact Or.inl hh
          · exact Or.inr (List.mem_cons_of_mem _ hm)

theorem rowPend_patchRow (row : List (String × List Target)) (x : String) :
    rowPend (patchRow row x) = false := by
  rw [show rowPend (patchRow row x) = (patchRow row x).any
    (fun e => e.2.any (fun t => t.isNone)) from rfl]
  rw [List.any_eq_false]
  intro e he
  rw [Bool.not_eq_true, List.any_eq_false]
  intro t ht
  unfold patchRow at he
  rcases List.mem_map.mp he with ⟨kv, _, hkv⟩
  rw [← hkv] at ht
  simp only at ht
  rw [mem_setOfList] at ht
  rcases List.mem_map.mp ht with ⟨t0, _, ht0⟩
  rw [← ht0]
  simp

theorem rowPend_mem_pending {row : List (String × List Target)}
    (h : rowPend row = true) : ∃ e ∈ row, e.2.any (fun t => t.isNone) = true := by
  rw [show rowPend row = row.any (fun e => e.2.any (fun t => t.isNone)) from rfl,
    List.any_eq_true] at h
  exact h

theorem pend_addTransition_some (b : Builder) (s a : String) (i : String)
    (kv : String × List (String × List Target))
    (hkv : kv ∈ (addTransition b s a (some i)).transitions)
    (hp : rowPend kv.2 = true) :
    ∃ kv0 ∈ b.transitions, kv0.1 = kv.1 ∧ rowPend kv0.2 = true := by
  unfold addTransition at hkv
  cases hg : alGet b.transitions s with
  | none =>
    rw [hg] at hkv
    dsimp only at hkv
    rcases mem_alSet_weak _ _ _ _ hkv with hkv2 | hkv2
    · rw [hkv2] at hp
      exact absurd hp (by simp [rowPend])
    · exact ⟨kv, hkv2, rfl, hp⟩
  | some row =>
    rw [hg] at hkv
    dsimp only at hkv
    have hmem : (s, row) ∈ b.transitions := alGet_some_mem b.transitions s row hg
    cases hrr : alGet row a with
    | none =>
      rw [hrr] at hkv
      dsimp only at hkv
      rcases mem_alSet_weak _ _ _ _ hkv with hkv2 | hkv2
      · rw [hkv2] at hp ⊢
        refine ⟨(s, row), hmem, rfl, ?_⟩
        rcases rowPend_mem_pending hp with ⟨e, he, hne⟩
        rcases mem_alSet_weak _ _ _ _ he with he2 | he2
        · rw [he2] at hne
          exact absurd hne (by simp)
        · rw [show rowPend row = row.any (fun e => e.2.any (fun t => t.isNone)) from rfl,
            List.any_eq_true]
          exact ⟨e, he2, hne⟩
      · exact ⟨kv, hkv2, rfl, hp⟩
    | some ts =>
      rw [hrr] at hkv
      dsimp only at hkv
      rcases mem_alSet_weak _ _ _ _ hkv with hkv2 | hkv2
      · rw [hkv2] at hp ⊢
        refine ⟨(s, row), hmem, rfl, ?_⟩
        rcases rowPend_mem_pending hp with ⟨e, he, hne⟩
        rcases mem_alSet_weak _ _ _ _ he with he2 | he2
        · rw [he2] at hne
          rw [List.any_eq_true] at hne
          rcases hne with ⟨t, ht, htn⟩
          rw [mem_setInsert] at ht
          rcases ht with ht | ht
          · rw [show rowPend row = row.any (fun e2 => e2.2.any (fun t => t.isNone)) from rfl,
              List.any_eq_true]
            exact ⟨(a, ts), alGet_some_mem row a ts hrr, by
              rw [List.any_eq_true]
              exact ⟨t, ht, htn⟩⟩
          · rw [ht] at htn
            exact absurd htn (by simp)
        · rw [show rowPend row = row.any (fun e2 => e2.2.any (fun t => t.isNone)) from rfl,
            List.any_eq_true]
          exact ⟨e, he2, hne⟩
      · exact ⟨kv, hkv2, rfl, hp⟩

theorem pend_addTransition_none (b : Builder) (s a : String)
    (kv : String × List (String × List Target))
    (hkv : kv ∈ (addTransition b s a none).transitions)
    (hp : rowPend kv.2 = true) :
    (∃ kv0 ∈ b.transitions, kv0.1 = kv.1 ∧ rowPend kv0.2 = true) ∨ kv.1 = s := by
  rcases addTransition_transitions b s a none with ⟨row2, hrow⟩
  rw [hrow] at hkv
  rcases mem_alSet_weak _ _ _ _ hkv with hkv2 | hkv2
  · rw [hkv2]
    exact Or.inr rfl
  · exact Or.inl ⟨kv, hkv2, rfl, hp⟩

theorem pend_patchMany (vs : List String) (b : Builder) (x : String) (b2 : Builder)
    (hnd : (b.transitions.map (fun kv => kv.1)).Nodup)
    (h : patchMany b vs x = .ok b2) (kv : String × List (String × List Target))
    (hkv : kv ∈ b2.transitions) (hp : rowPend kv.2 = true) :
    ∃ kv0 ∈ b.transitions, kv0.1 = kv.1 ∧ rowPend kv0.2 = true ∧ kv.1 ∉ vs := by
  induction vs generalizing b with
  | nil =>
    rw [patchMany_nil] at h
    simp only [Except.ok.injEq] at h
    subst h
    exact ⟨kv, hkv, rfl, hp, by simp⟩
  | cons v vs ih =>
    rw [patchMany_cons] at h
    cases hpb : patchB b v x with
    | error e =>
      rw [hpb] at h
      exact absurd h (by simp)
    | ok b1 =>
      rw [hpb] at h
      rcases patchB_ok_cases b v x b1 hpb with ⟨row, hrowg, hb1⟩
      have hnd1 : (b1.transitions.map (fun kv => kv.1)).Nodup := by
        rw [hb1]
        exact keys_alSet_nodup _ _ _ hnd
      rcases ih b1 hnd1 h with ⟨kv0, hkv0, hkey, hp0, hnotin⟩
      rw [hb1] at hkv0
      rcases mem_alSet_cases b.transitions v (patchRow row x) hnd kv0 hkv0 with h2 | ⟨h2, hne⟩
      · exfalso
        rw [h2] at hp0
        have h3 : rowPend (patchRow row x) = true := hp0
        rw [rowPend_patchRow] at h3
        simp at h3
      · refine ⟨kv0, h2, hkey, hp0, ?_⟩
        intro hmem
        cases hmem with
        | head => exact hne hkey
        | tail _ hmm => exact hnotin hmm

theorem pendBound_mono {b2 : Builder} {Q R : String → Prop} {vac vac2 : List String}
    (h : PendBound b2 Q vac) (hQR : ∀ s, Q s → R s ∨ s ∈ vac2)
    (hvv : ∀ s, s ∈ vac → R s ∨ s ∈ vac2) : PendBound b2 R vac2 := by
  intro kv hkv hp
  rcases h kv hkv hp with hq | hv
  · exact hQR _ hq
  · exact hvv _ hv

theorem pendsOf_addTransition_some {b : Builder} {s a i : String} {s2 : String}
    (h : PendsOf (addTransition b s a (some i)) s2) : PendsOf b s2 := by
  rcases h with ⟨kv, hkv, hkey, hp⟩
  rcases pend_addTransition_some b s a i kv hkv hp with ⟨kv0, hkv0, hk0, hp0⟩
  exact ⟨kv0, hkv0, hk0.trans hkey, hp0⟩

theorem occursWrap_pend (b : Builder) (o : Occurs) (init : String) (vac : List String)
    (Q : String → Prop) (hb : BInv b) (hP : PendBound b Q vac) :
    ∀ init2 vac2 b2, occursWrap b o init vac = .ok ((init2, vac2), b2) →
      PendBound b2 Q vac2 := by
  intro init2 vac2 b2 h
  by_cases h11 : o = ⟨1, some 1⟩
  · subst h11
    rw [show occursWrap b ⟨1, some 1⟩ init vac = .ok ((init, vac), b) from rfl] at h
    simp only [Except.ok.injEq, Prod.mk.injEq] at h
    rcases h with ⟨⟨hi, hv⟩, hb2⟩
    subst hv; subst hb2
    exact hP
  · by_cases h01 : o = ⟨0, some 1⟩
    · subst h01
      rw [show occursWrap b ⟨0, some 1⟩ init vac =
          .ok ((init, setInsert vac init), addTransition b init "" none) from rfl] at h
      simp only [Except.ok.injEq, Prod.mk.injEq] at h
      rcases h with ⟨⟨hi, hv⟩, hb2⟩
      subst hv; subst hb2
      intro kv hkv hp
      rcases pend_addTransition_none b init "" kv hkv hp with ⟨kv0, hkv0, hk0, hp0⟩ | hkx
      · rcases hP kv0 hkv0 hp0 with hq | hvv
        · exact Or.inl (hk0 ▸ hq)
        · exact Or.inr (by rw [mem_setInsert]; exact Or.inl (hk0 ▸ hvv))
      · exact Or.inr (by rw [mem_setInsert, hkx]; exact Or.inr rfl)
    · by_cases h0u : o = ⟨0, none⟩
      · subst h0u
        have hred : occursWrap b ⟨0, none⟩ init vac =
            match patchMany b vac init with
            | .error e => .error e
            | .ok b1 => .ok ((init, [init]), addTransition b1 init "" none) := rfl
        rw [hred] at h
        cases hp : patchMany b vac init with
        | error e =>
          rw [hp] at h
          exact absurd h (by simp)
        | ok b1 =>
          rw [hp] at h
          simp only [Except.ok.injEq, Prod.mk.injEq] at h
          rcases h with ⟨⟨hi, hv⟩, hb2⟩
          subst hv; subst hb2
          intro kv hkv hpend
          rcases pend_addTransition_none b1 init "" kv hkv hpend with
            ⟨kv0, hkv0, hk0, hp0⟩ | hkx
          · rcases pend_patchMany vac b init b1 hb.keys hp kv0 hkv0 hp0 with
              ⟨kv1, hkv1, hk1, hp1, hnv⟩
            rcases hP kv1 hkv1 hp1 with hq | hvv
            · exact Or.inl ((hk1.trans hk0) ▸ hq)
            · exact absurd (hk1 ▸ hvv) hnv
          · exact Or.inr (by rw [hkx]; exact List.mem_singleton_self _)
      · by_cases h1u : o = ⟨1, none⟩
        · subst h1u
          have hred : occursWrap b ⟨1, none⟩ init vac =
              match patchMany (newState b).2 vac (newState b).1 with
              | .error e => .error e
              | .ok b2 =>
                .ok ((init, [(newState b).1]),
                  addTransition (addTransition b2 (newState b).1 "" (some init))
                    (newState b).1 "" none) := rfl
          rw [hred] at h
          cases hp : patchMany (newState b).2 vac (newState b).1 with
          | error e =>
            rw [hp] at h
            exact absurd h (by simp)
          | ok b1 =>
            rw [hp] at h
            simp only [Except.ok.injEq, Prod.mk.injEq] at h
            rcases h with ⟨⟨hi, hv⟩, hb2⟩
            subst hv; subst hb2
            intro kv hkv hpend
            rcases pend_addTransition_none
              (addTransition b1 (newState b).1 "" (some init)) (newState b).1 "" kv hkv
              hpend with ⟨kv0, hkv0, hk0, hp0⟩ | hkx
            · have hpo : PendsOf b1 kv0.1 :=
                pendsOf_addTransition_some ⟨kv0, hkv0, rfl, hp0⟩
              rcases hpo with ⟨kv1, hkv1, hk1, hp1⟩
              rcases pend_patchMany vac (newState b).2 (newState b).1 b1 hb.keys hp kv1
                hkv1 hp1 with ⟨kv2, hkv2, hk2, hp2, hnv⟩
              rcases hP kv2 (by exact hkv2) hp2 with hq | hvv
              · exact Or.inl ((hk2.trans (hk1.trans hk0)) ▸ hq)
              · exact absurd (hk2 ▸ hvv) hnv
            · exact Or.inr (by rw [hkx]; exact List.mem_singleton_self _)
        · exfalso
          have : occursWrap b o init vac = .error (.unsupportedOccurs o) := by
            unfold occursWrap
            rw [if_neg h11, if_neg h01, if_neg h0u, if_neg h1u]
          rw [this] at h
          exact absurd h (by simp)

theorem seqLoop_pend (rec : Node → Builder → BuildRes) (bound : Nat)
    (hrec : RecSound rec bound) (hrecP : RecPend rec bound) (init : String)
    (Q : String → Prop) :
    ∀ (l : List Node) (vacant : List String) (b : Builder),
    (∀ c ∈ l, nodeFuel c ≤ bound) → BInv b → PendBound b Q vacant →
    ∀ init2 vac2 b2, (seqLoop rec init vacant l b).1 = .ok ((init2, vac2), b2) →
      PendBound b2 Q vac2 := by
  intro l
  induction l with
  | nil =>
    intro vacant b _ _ hP init2 vac2 b2 h
    rw [seqLoop_nil] at h
    simp only [Except.ok.injEq, Prod.mk.injEq] at h
    rcases h with ⟨⟨hi, hv⟩, hb2⟩
    subst hv; subst hb2
    exact hP
  | cons e rest ih =>
    intro vacant b hf hb hP init2 vac2 b2 h
    rcases hre : rec e b with ⟨r, e2⟩
    cases r with
    | error err =>
      rw [seqLoop_err rec init vacant e rest b err e2 hre] at h
      exact absurd h (by simp)
    | ok fb =>
      rcases fb with ⟨⟨i2, v2⟩, b1⟩
      rcases (hrec e b hb (hf e (List.mem_cons_self _ _))).2.2.2 i2 v2 b1
        (by rw [hre]) with ⟨hbi1, hext1, hi2, hfresh1, hrows1, hloc1⟩
      cases hpm : patchMany b1 vacant i2 with
      | error err =>
        rw [seqLoop_perr rec init vacant e rest b i2 v2 b1 e2 err hre hpm] at h
        exact absurd h (by simp)
      | ok b1p =>
        rw [seqLoop_step rec init vacant e rest b i2 v2 b1 e2 b1p hre hpm] at h
        have hpend1 : PendBound b1 Q (setUnion vacant v2) := by
          have hpb1 := hrecP e b hb (hf e (List.mem_cons_self _ _)) i2 v2 b1 (by rw [hre])
          intro kv hkv hp
          rcases hpb1 kv hkv hp with hpo | hv
          · rcases hpo with ⟨kv0, hkv0, hk0, hp0⟩
            rcases hP kv0 hkv0 hp0 with hq | hvv
            · exact Or.inl (hk0 ▸ hq)
            · exact Or.inr (by rw [mem_setUnion]; exact Or.inl (hk0 ▸ hvv))
          · exact Or.inr (by rw [mem_setUnion]; exact Or.inr hv)
        have hpend1p : PendBound b1p Q v2 := by
          intro kv hkv hp
          rcases pend_patchMany vacant b1 i2 b1p hbi1.keys hpm kv hkv hp with
            ⟨kv0, hkv0, hk0, hp0, hnv⟩
          rcases hpend1 kv0 hkv0 hp0 with hq | hvv
          · exact Or.inl (hk0 ▸ hq)
          · rw [mem_setUnion] at hvv
            rcases hvv with hvv | hvv
            · exact absurd (hk0 ▸ hvv) hnv
            · exact Or.inr (hk0 ▸ hvv)
        have hbi1p : BInv b1p := (patchMany_ok_facts vacant b1 i2 b1p hpm).2.2.1 hbi1
        exact ih v2 b1p (fun c hc => hf c (List.mem_cons_of_mem _ hc)) hbi1p hpend1p
          init2 vac2 b2 h

theorem seqSteps_pend (rec : Node → Builder → BuildRes) (bound : Nat)
    (hrec : RecSound rec bound) (hrecP : RecPend rec bound) :
    ∀ (l : List Node) (b : Builder), (∀ c ∈ l, nodeFuel c ≤ bound) → BInv b →
    ∀ init2 vac2 b2, (seqSteps rec l b).1 = .ok ((init2, vac2), b2) →
      PendBound b2 (PendsOf b) vac2 := by
  intro l b hf hb init2 vac2 b2 h
  cases l with
  | nil =>
    rw [seqSteps_nil] at h
    exact absurd h (by simp)
  | cons e rest =>
    rcases hre : rec e b with ⟨r, e2⟩
    cases r with
    | error err =>
      rw [seqSteps_err rec e rest b err e2 hre] at h
      exact absurd h (by simp)
    | ok fb =>
      rcases fb with ⟨⟨i2, v2⟩, b1⟩
      rcases (hrec e b hb (hf e (List.mem_cons_self _ _))).2.2.2 i2 v2 b1
        (by rw [hre]) with ⟨hbi1, _, _, _, _, _⟩
      rw [seqSteps_ok rec e rest b i2 v2 b1 e2 hre] at h
      have hP1 : PendBound b1 (PendsOf b) v2 :=
        hrecP e b hb (hf e (List.mem_cons_self _ _)) i2 v2 b1 (by rw [hre])
      exact seqLoop_pend rec bound hrec hrecP i2 (PendsOf b) rest v2 b1
        (fun c hc => hf c (List.mem_cons_of_mem _ hc)) hbi1 hP1 init2 vac2 b2 h

theorem choiceLoop_pend (rec : Node → Builder → BuildRes) (bound : Nat)
    (hrec : RecSound rec bound) (hrecP : RecPend rec bound) (x : String)
    (Q : String → Prop) :
    ∀ (l : List Node) (vacants : List String) (b : Builder),
    (∀ c ∈ l, nodeFuel c ≤ bound) → BInv b → x ∈ b.states → PendBound b Q vacants →
    ∀ vac2 b2, (choiceLoop rec x vacants l b).1 = .ok (vac2, b2) →
      PendBound b2 Q vac2 := by
  intro l
  induction l with
  | nil =>
    intro vacants b _ _ _ hP vac2 b2 h
    rw [choiceLoop_nil] at h
    simp only [Except.ok.injEq, Prod.mk.injEq] at h
    rcases h with ⟨hv, hb2⟩
    subst hv; subst hb2
    exact hP
  | cons e rest ih =>
    intro vacants b hf hb hx hP vac2 b2 h
    rcases hre : rec e b with ⟨r, e2⟩
    cases r with
    | error err =>
      rw [choiceLoop_err rec x vacants e rest b err e2 hre] at h
      exact absurd h (by simp)
    | ok fb =>
      rcases fb with ⟨⟨i2, v2⟩, b1⟩
      rcases (hrec e b hb (hf e (List.mem_cons_self _ _))).2.2.2 i2 v2 b1
        (by rw [hre]) with ⟨hbi1, hext1, hi2, hfresh1, hrows1, hloc1⟩
      rw [choiceLoop_step rec x vacants e rest b i2 v2 b1 e2 hre] at h
      have hpend1 : PendBound b1 Q (setUnion vacants v2) := by
        have hpb1 := hrecP e b hb (hf e (List.mem_cons_self _ _)) i2 v2 b1 (by rw [hre])
        intro kv hkv hp
        rcases hpb1 kv hkv hp with hpo | hv
        · rcases hpo with ⟨kv0, hkv0, hk0, hp0⟩
          rcases hP kv0 hkv0 hp0 with hq | hvv
          · exact Or.inl (hk0 ▸ hq)
          · exact Or.inr (by rw [mem_setUnion]; exact Or.inl (hk0 ▸ hvv))
        · exact Or.inr (by rw [mem_setUnion]; exact Or.inr hv)
      have hpenda : PendBound (addTransition b1 x "" (some i2)) Q (setUnion vacants v2) := by
        intro kv hkv hp
        rcases pend_addTransition_some b1 x "" i2 kv hkv hp with ⟨kv0, hkv0, hk0, hp0⟩
        rcases hpend1 kv0 hkv0 hp0 with hq | hvv
        · exact Or.inl (hk0 ▸ hq)
        · exact Or.inr (hk0 ▸ hvv)
      have hba := addTransition_binv b1 x "" (some i2) hbi1 (ext_mem hext1 hx)
      exact ih (setUnion vacants v2) (addTransition b1 x "" (some i2))
        (fun c hc => hf c (List.mem_cons_of_mem _ hc)) hba
        (by rw [addTransition_states]; exact ext_mem hext1 hx) hpenda vac2 b2 h

theorem allLoop_pend (rec : Node → Builder → BuildRes) (bound : Nat)
    (hrec : RecSound rec bound) (hrecP : RecPend rec bound) (x : String)
    (Q : String → Prop) :
    ∀ (perms : List (List Node)) (va : List String) (b : Builder),
    (∀ p ∈ perms, ∀ c ∈ p, nodeFuel c ≤ bound) → BInv b → x ∈ b.states →
    PendBound b Q va →
    ∀ vac2 b2, (allLoop rec x va perms b).1 = .ok (vac2, b2) →
      PendBound b2 Q vac2 := by
  intro perms
  induction perms with
  | nil =>
    intro va b _ _ _ hP vac2 b2 h
    rw [allLoop_nil] at h
    simp only [Except.ok.injEq, Prod.mk.injEq] at h
    rcases h with ⟨hv, hb2⟩
    subst hv; subst hb2
    exact hP
  | cons p rest ih =>
    intro va b hfu hb hx hP vac2 b2 h
    rcases hsr : seqSteps rec p b with ⟨r, p2⟩
    cases r with
    | error err =>
      rw [allLoop_err rec x va p rest b err p2 hsr] at h
      exact absurd h (by simp)
    | ok fb =>
      rcases fb with ⟨⟨i2, v2⟩, b1⟩
      rcases (seqSteps_sound rec bound hrec p b (hfu p (List.mem_cons_self _ _)) hb).2.2.2
        i2 v2 b1 (by rw [hsr]) with ⟨hbi1, hext1, hi2, hfresh1, hrows1, hloc1⟩
      rw [allLoop_step rec x va p rest b i2 v2 b1 p2 hsr] at h
      have hpend1 : PendBound b1 Q (setUnion va v2) := by
        have hpb1 := seqSteps_pend rec bound hrec hrecP p b
          (hfu p (List.mem_cons_self _ _)) hb i2 v2 b1 (by rw [hsr])
        intro kv hkv hp
        rcases hpb1 kv hkv hp with hpo | hv
        · rcases hpo with ⟨kv0, hkv0, hk0, hp0⟩
          rcases hP kv0 hkv0 hp0 with hq | hvv
          · exact Or.inl (hk0 ▸ hq)
          · exact Or.inr (by rw [mem_setUnion]; exact Or.inl (hk0 ▸ hvv))
        · exact Or.inr (by rw [mem_setUnion]; exact Or.inr hv)
      have hpenda : PendBound (addTransition b1 x "" (some i2)) Q (setUnion va v2) := by
        intro kv hkv hp
        rcases pend_addTransition_some b1 x "" i2 kv hkv hp with ⟨kv0, hkv0, hk0, hp0⟩
        rcases hpend1 kv0 hkv0 hp0 with hq | hvv
        · exact Or.inl (hk0 ▸ hq)
        · exact Or.inr (hk0 ▸ hvv)
      have hba := addTransition_binv b1 x "" (some i2) hbi1 (ext_mem hext1 hx)
      exact ih (setUnion va v2) (addTransition b1 x "" (some i2))
        (fun q hq => hfu q (List.mem_cons_of_mem _ hq)) hba
        (by rw [addTransition_states]; exact ext_mem hext1 hx) hpenda vac2 b2 h

theorem nfaFromNode_pend : ∀ fuel, RecPend (nfaFromNode fuel) fuel := by
  intro fuel
  induction fuel with
  | zero =>
    intro t b _ _ init vac b2 h
    exact absurd h (by simp [nfaFromNode])
  | succ f ih =>
    intro t b hb hf init vac b2 h
    have hrec : RecSound (nfaFromNode f) f := nfaFromNode_sound f
    rw [show nfaFromNode (f + 1) t b = nodeStep (nfaFromNode f) t b from rfl] at h
    cases t with
    | element name o =>
      have hb1 := newState_binv b hb
      have hx1 : (newState b).1 ∈ (newState b).2.states := by
        rw [newState_states b hb]
        exact List.mem_append_right _ (List.mem_singleton_self _)
      have hb2 := addTransition_binv (newState b).2 (newState b).1 name none hb1 hx1
      have hb3 : BInv (elementB b name o) := ⟨hb2.names, hb2.keys, hb2.keySub⟩
      have hPel : PendBound (elementB b name o) (PendsOf b) [(newState b).1] := by
        intro kv hkv hp
        have hkv2 : kv ∈ (addTransition (newState b).2 (newState b).1 name none).transitions :=
          hkv
        rcases pend_addTransition_none (newState b).2 (newState b).1 name kv hkv2 hp with
          ⟨kv0, hkv0, hk0, hp0⟩ | hkx
        · exact Or.inl ⟨kv0, hkv0, hk0, hp0⟩
        · exact Or.inr (by rw [hkx]; exact List.mem_singleton_self _)
      exact occursWrap_pend (elementB b name o) o (newState b).1 [(newState b).1]
        (PendsOf b) hb3 hPel init vac b2 h
    | sequence cs o =>
      have hfl : ∀ c2 ∈ cs, nodeFuel c2 ≤ f := by
        intro c2 hc2
        have h1 := nodeFuel_le_listFuel c2 cs hc2
        have h2 : nodeFuel (Node.sequence cs o) = 1 + listFuel cs := rfl
        omega
      have hred : nodeStep (nfaFromNode f) (Node.sequence cs o) b =
          (match seqSteps (nfaFromNode f) cs b with
           | (.error err, cs2) => (.error err, Node.sequence cs2 o)
           | (.ok ((init, vacant), b2), cs2) =>
             (occursWrap b2 o init vacant, Node.sequence cs2 o)) := rfl
      rw [hred] at h
      rcases hsq : seqSteps (nfaFromNode f) cs b with ⟨r, cs2⟩
      rw [hsq] at h
      cases r with
      | error err => exact absurd h (by simp)
      | ok fb =>
        rcases fb with ⟨⟨i2, v2⟩, b1⟩
        rcases (seqSteps_sound (nfaFromNode f) f hrec cs b hfl hb).2.2.2 i2 v2 b1
          (by rw [hsq]) with ⟨hbi1, _, _, _, _, _⟩
        have hP1 : PendBound b1 (PendsOf b) v2 :=
          seqSteps_pend (nfaFromNode f) f hrec ih cs b hfl hb i2 v2 b1 (by rw [hsq])
        exact occursWrap_pend b1 o i2 v2 (PendsOf b) hbi1 hP1 init vac b2 h
    | choice cs o =>
      have hfl : ∀ c2 ∈ cs, nodeFuel c2 ≤ f := by
        intro c2 hc2
        have h1 := nodeFuel_le_listFuel c2 cs hc2
        have h2 : nodeFuel (Node.choice cs o) = 1 + listFuel cs := rfl
        omega
      have hred : nodeStep (nfaFromNode f) (Node.choice cs o) b =
          (match choiceSteps (nfaFromNode f) cs b with
           | (.error err, cs2) => (.error err, Node.choice cs2 o)
           | (.ok ((init, vacant), b2), cs2) =>
             (occursWrap b2 o init vacant, Node.choice cs2 o)) := rfl
      rw [hred] at h
      rcases hsq : choiceSteps (nfaFromNode f) cs b with ⟨r, cs2⟩
      rw [hsq] at h
      cases r with
      | error err => exact absurd h (by simp)
      | ok fb =>
        rcases fb with ⟨⟨i2, v2⟩, b1⟩
        rcases (choiceSteps_sound (nfaFromNode f) f hrec cs b hfl hb).2.2.2 i2 v2 b1
          (by rw [hsq]) with ⟨hbi1, _, _, _, _, _⟩
        have hx1 : (newState b).1 ∈ (newState b).2.states := by
          rw [newState_states b hb]
          exact List.mem_append_right _ (List.mem_singleton_self _)
        have hP1 : PendBound b1 (PendsOf b) v2 := by
          rw [choiceSteps_red (nfaFromNode f) cs b] at hsq
          rcases hcl : (choiceLoop (nfaFromNode f) (newState b).1 [] cs (newState b).2).1
            with r2 | vb2
          · rw [hcl] at hsq
            simp only [Prod.mk.injEq] at hsq
            exact absurd hsq.1 (by simp)
          · rcases vb2 with ⟨vacants, bL⟩
            rw [hcl] at hsq
            simp only [Prod.mk.injEq, Except.ok.injEq, Prod.mk.injEq] at hsq
            rcases hsq with ⟨⟨⟨hxe, hve⟩, hbe⟩, _⟩
            have hPloop := choiceLoop_pend (nfaFromNode f) f hrec ih (newState b).1
              (PendsOf b) cs [] (newState b).2 hfl (newState_binv b hb) hx1
              (fun kv hkv hp => Or.inl ⟨kv, hkv, rfl, hp⟩) vacants bL hcl
            rw [hve, hbe] at hPloop
            exact hPloop
        exact occursWrap_pend b1 o i2 v2 (PendsOf b) hbi1 hP1 init vac b2 h
    | allGroup cs o =>
      have hfl : ∀ c2 ∈ cs, nodeFuel c2 ≤ f := by
        intro c2 hc2
        have h1 := nodeFuel_le_listFuel c2 cs hc2
        have h2 : nodeFuel (Node.allGroup cs o) = 1 + listFuel cs := rfl
        omega
      have hred : nodeStep (nfaFromNode f) (Node.allGroup cs o) b =
          (match allSteps (nfaFromNode f) cs b with
           | (.error err, cs2) => (.error err, Node.allGroup cs2 o)
           | (.ok ((init, vacant), b2), cs2) =>
             (occursWrap b2 o init vacant, Node.allGroup cs2 o)) := rfl
      rw [hred] at h
      rcases hsq : allSteps (nfaFromNode f) cs b with ⟨r, cs2⟩
      rw [hsq] at h
      cases r with
      | error err => exact absurd h (by simp)
      | ok fb =>
        rcases fb with ⟨⟨i2, v2⟩, b1⟩
        rcases (allSteps_sound (nfaFromNode f) f hrec cs b hfl hb).2.2.2 i2 v2 b1
          (by rw [hsq]) with ⟨hbi1, _, _, _, _, _⟩
        have hx1 : (newState b).1 ∈ (newState b).2.states := by
          rw [newState_states b hb]
          exact List.mem_append_right _ (List.mem_singleton_self _)
        have hP1 : PendBound b1 (PendsOf b) v2 := by
          rw [allSteps_red (nfaFromNode f) cs b] at hsq
          rcases hcl : allLoop (nfaFromNode f) (newState b).1 [] cs.permutations
            (newState b).2 with ⟨r2, g2⟩
          rw [hcl] at hsq
          cases r2 with
          | error err2 =>
            cases g2 with
            | none => simp only [Prod.mk.injEq] at hsq; exact absurd hsq.1 (by simp)
            | some gg => simp only [Prod.mk.injEq] at hsq; exact absurd hsq.1 (by simp)
          | ok vb2 =>
            rcases vb2 with ⟨vacants, bL⟩
            simp only [Prod.mk.injEq, Except.ok.injEq, Prod.mk.injEq] at hsq
            rcases hsq with ⟨⟨⟨hxe, hve⟩, hbe⟩, _⟩
            have hPloop := allLoop_pend (nfaFromNode f) f hrec ih (newState b).1
              (PendsOf b) cs.permutations [] (newState b).2
              (fun p hp c hc => hfl c ((List.mem_permutations.mp hp).mem_iff.mp hc))
              (newState_binv b hb) hx1
              (fun kv hkv hp => Or.inl ⟨kv, hkv, rfl, hp⟩) vacants bL (by rw [hcl])
            rw [hve, hbe] at hPloop
            exact hPloop
        exact occursWrap_pend b1 o i2 v2 (PendsOf b) hbi1 hP1 init vac b2 h

theorem binv_empty : BInv emptyBuilder := by
  refine ⟨rfl, List.nodup_nil, ?_⟩
  intro kv hkv
  cases hkv

theorem binv_nodup {b : Builder} (hb : BInv b) : b.states.Nodup := by
  rw [hb.names]
  exact (List.nodup_range _).map (fun a b h => qName_inj a b h)

theorem pipeline_snd (t : Node) :
    (pipeline t).2 = (nfaFromNode (nodeFuel t) t emptyBuilder).2 := by
  unfold pipeline
  rcases nfaFromNode (nodeFuel t) t emptyBuilder with ⟨r, t2⟩
  cases r with
  | error e => rfl
  | ok fb =>
    rcases fb with ⟨⟨init, finals⟩, b⟩
    dsimp only
    split
    · rfl
    · split
      · rfl
      · split
        · rfl
        · rfl

theorem dfaFromGroup_error_of_build (t : Node) (e : BuildErr)
    (h : (nfaFromNode (nodeFuel t) t emptyBuilder).1 = .error e) :
    dfaFromGroup t = .error e := by
  unfold dfaFromGroup dfaFromGroupM pipeline
  rcases hr : nfaFromNode (nodeFuel t) t emptyBuilder with ⟨r, t2⟩
  rw [hr] at h
  cases r with
  | error e2 =>
    simp only at h
    rw [h]
    rfl
  | ok fb => exact absurd h (by simp)

/-- C9: the content-model tree is read-only to the core: whether
dfa_from_group returns a record or raises, every node of the tree,
including the child list of every all group that the builder permutes and
restores, holds its original value when the call ends. -/
theorem c9_input_tree_readonly (t : Node) : (dfaFromGroupM t).2 = t := by
  have hbs := nfaFromNode_sound (nodeFuel t) t emptyBuilder binv_empty (le_refl _)
  have h2 : (nfaFromNode (nodeFuel t) t emptyBuilder).2 = t := hbs.1
  show (pipeline t).2 = t
  rw [pipeline_snd, h2]

/-- C5: a node carrying an occurs pair other than the four supported
shapes makes the build fail with the unsupported-occurs error, with no
record returned; the groups-nonempty hypothesis rules out the IndexError
an empty sequence or all group would raise first. -/
theorem c5_unsupported_occurs (t : Node)
    (hg : groupsNonempty t = true) (hbad : allOccursSupported t = false) :
    ∃ o, dfaFromGroup t = .error (.unsupportedOccurs o) ∧ occursSupported o = false := by
  have hbs := nfaFromNode_sound (nodeFuel t) t emptyBuilder binv_empty (le_refl _)
  have hok := hbs.2.1
  rw [hg, hbad] at hok
  cases hr : (nfaFromNode (nodeFuel t) t emptyBuilder).1 with
  | ok fb =>
    rw [hr] at hok
    exact absurd hok (by simp [Except.isOk, Except.toBool])
  | error e =>
    rcases hbs.2.2.1 e hr hg with ⟨o, heo, hso⟩
    subst heo
    exact ⟨o, dfaFromGroup_error_of_build t _ hr, hso⟩

/-- C5 witness: a sequence group with occurs pair two-to-three fails with
the unsupported-occurs error. -/
theorem c5_witness :
    groupsNonempty (Node.sequence [Node.element "A" ⟨1, some 1⟩] ⟨2, some 3⟩) = true ∧
    allOccursSupported (Node.sequence [Node.element "A" ⟨1, some 1⟩] ⟨2, some 3⟩) = false ∧
    ∃ o, dfaFromGroup (Node.sequence [Node.element "A" ⟨1, some 1⟩] ⟨2, some 3⟩) =
      .error (.unsupportedOccurs o) ∧ occursSupported o = false :=
  ⟨by decide, by decide,
    c5_unsupported_occurs (Node.sequence [Node.element "A" ⟨1, some 1⟩] ⟨2, some 3⟩)
      (by decide) (by decide)⟩

/-- C4: after the root fragment is finalized, patching every final vacant
state to the fresh accepting state, no transition target anywhere in the
table is still the pending marker. -/
theorem c4_no_pending_after_finalize (t : Node) (init : String) (finals : List String)
    (b : Builder) (final : String) (b2 : Builder)
    (hbuild : (nfaFromNode (nodeFuel t) t emptyBuilder).1 = .ok ((init, finals), b))
    (hfin : finalizeB b finals = .ok (final, b2)) :
    hasPending b2.transitions = false := by
  have hbs := nfaFromNode_sound (nodeFuel t) t emptyBuilder binv_empty (le_refl _)
  rcases hbs.2.2.2 init finals b hbuild with ⟨hbi, _, _, _, _, _⟩
  have hpend := nfaFromNode_pend (nodeFuel t) t emptyBuilder binv_empty (le_refl _)
    init finals b hbuild
  have hpendb : ∀ kv ∈ b.transitions, rowPend kv.2 = true → kv.1 ∈ finals := by
    intro kv hkv hp
    rcases hpend kv hkv hp with hq | hv
    · rcases hq with ⟨kv0, hkv0, _, _⟩
      cases hkv0
    · exact hv
  have hfinred : finalizeB b finals =
      match patchMany { (newState b).2 with
          transitions := alSet (newState b).2.transitions (newState b).1 [] } finals
          (newState b).1 with
      | .error e => .error e
      | .ok b3 => .ok ((newState b).1, b3) := rfl
  rw [hfinred] at hfin
  cases hpm : patchMany
      { (newState b).2 with transitions := alSet (newState b).2.transitions (newState b).1 [] }
      finals (newState b).1 with
  | error e =>
    rw [hpm] at hfin
    exact absurd hfin (by simp)
  | ok b3 =>
    rw [hpm] at hfin
    simp only [Except.ok.injEq, Prod.mk.injEq] at hfin
    rcases hfin with ⟨_, hb2⟩
    subst hb2
    have hndmid : ((alSet (newState b).2.transitions (newState b).1 []).map
        (fun kv => kv.1)).Nodup := keys_alSet_nodup _ _ _ hbi.keys
    rw [show hasPending b3.transitions = b3.transitions.any (fun kv => rowPend kv.2)
      from rfl, List.any_eq_false]
    intro kv hkv
    rw [Bool.not_eq_true]
    cases hp : rowPend kv.2 with
    | false => rfl
    | true =>
      exfalso
      rcases pend_patchMany finals _ (newState b).1 b3 hndmid hpm kv hkv hp with
        ⟨kv0, hkv0, hk0, hp0, hnf⟩
      rcases mem_alSet_weak _ _ _ _ hkv0 with h2 | h2
      · rw [h2] at hp0
        exact absurd hp0 (by simp [rowPend])
      · exact hnf (hk0 ▸ hpendb kv0 h2 hp0)

theorem c4_witness :
    (nfaFromNode (nodeFuel (Node.sequence [Node.element "A" ⟨1, some 1⟩] ⟨1, some 1⟩))
        (Node.sequence [Node.element "A" ⟨1, some 1⟩] ⟨1, some 1⟩) emptyBuilder).1 =
      .ok (("q0", ["q0"]),
        ⟨["q0"], [("q0", [("A", [none])])], [("A", Node.element "A" ⟨1, some 1⟩)]⟩) ∧
    finalizeB ⟨["q0"], [("q0", [("A", [none])])], [("A", Node.element "A" ⟨1, some 1⟩)]⟩ ["q0"] =
      .ok ("q1", ⟨["q0", "q1"], [("q0", [("A", [some "q1"])]), ("q1", [])],
        [("A", Node.element "A" ⟨1, some 1⟩)]⟩) ∧
    hasPending [("q0", [("A", [some "q1"])]), ("q1", [])] = false :=
  ⟨rfl, rfl,
   c4_no_pending_after_finalize (Node.sequence [Node.element "A" ⟨1, some 1⟩] ⟨1, some 1⟩)
     "q0" ["q0"]
     ⟨["q0"], [("q0", [("A", [none])])], [("A", Node.element "A" ⟨1, some 1⟩)]⟩ "q1"
     ⟨["q0", "q1"], [("q0", [("A", [some "q1"])]), ("q1", [])],
      [("A", Node.element "A" ⟨1, some 1⟩)]⟩ rfl rfl⟩

/-- C10: state identifiers are always fresh: under the builder invariant,
which holds for the empty builder and is preserved by every successful
build, the name _new_state returns (q followed by the current size of the
state set) is not yet in the state set, and the state set stays
duplicate-free, so all NFA states are pairwise distinct. -/
theorem c10_fresh_state_names :
    (∀ b : Builder, BInv b →
      (newState b).1 ∉ b.states ∧ (newState b).2.states.Nodup) ∧
    BInv emptyBuilder ∧
    (∀ t init finals b,
      (nfaFromNode (nodeFuel t) t emptyBuilder).1 = .ok ((init, finals), b) →
      BInv b ∧ b.states.Nodup) := by
  refine ⟨?_, binv_empty, ?_⟩
  · intro b hb
    exact ⟨newState_fresh b hb, binv_nodup (newState_binv b hb)⟩
  · intro t init finals b hbuild
    have hbs := nfaFromNode_sound (nodeFuel t) t emptyBuilder binv_empty (le_refl _)
    rcases hbs.2.2.2 init finals b hbuild with ⟨hbi, _, _, _, _, _⟩
    exact ⟨hbi, binv_nodup hbi⟩

theorem c10_witness :
    (newState ⟨["q0"], [("q0", [("A", [none])])], []⟩).1 ∉
      (⟨["q0"], [("q0", [("A", [none])])], []⟩ : Builder).states ∧
    (newState ⟨["q0"], [("q0", [("A", [none])])], []⟩).2.states.Nodup :=
  c10_fresh_state_names.1 ⟨["q0"], [("q0", [("A", [none])])], []⟩
    ⟨by decide, by decide, by decide⟩

/-- C1: on the sequence of two elements A and B, all three nodes carrying
occurs one-to-one, dfa_from_group does not return the expected record: the
build creates no epsilon transition, so the alphabet computation's
set.remove of the empty symbol (source line 140) raises KeyError. -/
theorem c1_sequence_ab_raises :
    dfaFromGroup (Node.sequence
      [Node.element "A" ⟨1, some 1⟩, Node.element "B" ⟨1, some 1⟩] ⟨1, some 1⟩) =
      .error .keyError := by
  rfl

/-- C2: the alphabet computation does not succeed on every supported tree:
on a single-element sequence, a supported tree with no epsilon transition,
the epsilon symbol is absent from the union of the row keys and the
set.remove of it (source line 140) raises KeyError instead of returning
the set of non-epsilon symbols. -/
theorem c2_alphabet_remove_raises :
    (groupsNonempty (Node.sequence [Node.element "A" ⟨1, some 1⟩] ⟨1, some 1⟩) &&
      allOccursSupported (Node.sequence [Node.element "A" ⟨1, some 1⟩] ⟨1, some 1⟩)) = true ∧
    dfaFromGroup (Node.sequence [Node.element "A" ⟨1, some 1⟩] ⟨1, some 1⟩) =
      .error .keyError := by
  exact ⟨by decide, by rfl⟩

/-- C6: an all group with n children builds exactly n-factorial sequence
fragments, one per permutation of the child list: the branch state is the
single fresh state allocated at entry, its epsilon-target list enumerates
the start of each permutation fragment (pairwise distinct states fresh
relative to the branch state), and the fragment returned pairs the branch
state with the union of the vacant sets of every permutation. -/
theorem c6_all_group_factorial (fuel : Nat) (cs : List Node) (b : Builder)
    (hb : BInv b) (hfl : ∀ c ∈ cs, nodeFuel c ≤ fuel)
    (init : String) (vac : List String) (b2 : Builder)
    (hok : (allSteps (nfaFromNode fuel) cs b).1 = .ok ((init, vac), b2)) :
    init = (newState b).1 ∧ init ∉ b.states ∧
    ∃ frags : List (String × List String),
      frags.length = Nat.factorial cs.length ∧
      epsTargets b2 init = frags.map (fun f => some f.1) ∧
      (frags.map (fun f => f.1)).Nodup ∧
      (∀ f ∈ frags, f.1 ∈ b2.states ∧ f.1 ∉ (newState b).2.states) ∧
      vac = frags.foldl (fun acc f => setUnion acc f.2) [] := by
  have hrec := nfaFromNode_sound fuel
  have hx0 : (newState b).1 ∉ b.states := newState_fresh b hb
  have hxs : (newState b).1 ∈ (newState b).2.states := by
    rw [newState_states b hb]
    exact List.mem_append_right _ (List.mem_singleton_self _)
  have hnoRow : alGet (newState b).2.transitions (newState b).1 = none := by
    rw [show (newState b).2.transitions = b.transitions from rfl]
    cases hg : alGet b.transitions (newState b).1 with
    | none => rfl
    | some row =>
      exact absurd (hb.keySub _ (alGet_some_mem b.transitions (newState b).1 row hg)) hx0
  have hal := allLoop_sound (nfaFromNode fuel) fuel hrec b (newState b).1
    (!cs.isEmpty && (listGroupsNonempty cs && listAllOccursSupported cs))
    cs.permutations [] (newState b).2
    (fun p hp c hc =>
      hfl c ((List.mem_permutations.mp hp).mem_iff.mp hc))
    (fun p hp => by
      have hperm : p.Perm cs := List.mem_permutations.mp hp
      rw [perm_isEmpty hperm, perm_listGroupsNonempty hperm,
        perm_listAllOccursSupported hperm])
    (newState_binv b hb) ⟨[(newState b).1], newState_states b hb⟩ hxs hx0
    (by intro v hv; cases hv) (by intro v hv; cases hv)
    (unchanged_of_transitions_eq rfl)
    (by
      intro tg htg
      unfold epsTargets at htg
      rw [hnoRow] at htg
      cases htg)
  rcases hal with ⟨_, _, alokcase⟩
  rw [allSteps_red (nfaFromNode fuel) cs b] at hok
  rcases har : allLoop (nfaFromNode fuel) (newState b).1 [] cs.permutations
    (newState b).2 with ⟨r, g⟩
  rw [har] at hok
  cases r with
  | error err =>
    cases g with
    | none => exact absurd hok (by simp)
    | some gg => exact absurd hok (by simp)
  | ok vb =>
    rcases vb with ⟨vacants, bL⟩
    simp only [Except.ok.injEq, Prod.mk.injEq] at hok
    rcases hok with ⟨⟨hi, hv⟩, hbL⟩
    subst hbL
    rcases alokcase vacants bL (by rw [har]) with
      ⟨_, _, _, _, _, _, frags, hlen, heps, hnd, hmem, hvac⟩
    refine ⟨hi.symm, hi ▸ hx0, frags, ?_, ?_, hnd, hmem, hv ▸ hvac⟩
    · rw [hlen, List.length_permutations]
    · rw [← hi, heps, show epsTargets (newState b).2 (newState b).1 = [] from by
        unfold epsTargets
        rw [hnoRow]]
      rfl

theorem c6_witness :
    BInv emptyBuilder ∧
    (∀ c ∈ [Node.element "A" ⟨1, some 1⟩, Node.element "B" ⟨1, some 1⟩], nodeFuel c ≤ 1) ∧
    (allSteps (nfaFromNode 1)
        [Node.element "A" ⟨1, some 1⟩, Node.element "B" ⟨1, some 1⟩] emptyBuilder).1 =
      .ok (("q0", ["q2", "q4"]),
        ⟨["q0", "q1", "q2", "q3", "q4"],
         [("q1", [("A", [some "q2"])]), ("q2", [("B", [none])]),
          ("q0", [("", [some "q1", some "q3"])]), ("q3", [("B", [some "q4"])]),
          ("q4", [("A", [none])])],
         [("A", Node.element "A" ⟨1, some 1⟩), ("B", Node.element "B" ⟨1, some 1⟩)]⟩) ∧
    ("q0" = (newState emptyBuilder).1 ∧ "q0" ∉ emptyBuilder.states ∧
      ∃ frags : List (String × List String),
        frags.length = Nat.factorial 2 ∧
        epsTargets
          ⟨["q0", "q1", "q2", "q3", "q4"],
           [("q1", [("A", [some "q2"])]), ("q2", [("B", [none])]),
            ("q0", [("", [some "q1", some "q3"])]), ("q3", [("B", [some "q4"])]),
            ("q4", [("A", [none])])],
           [("A", Node.element "A" ⟨1, some 1⟩), ("B", Node.element "B" ⟨1, some 1⟩)]⟩
          "q0" = frags.map (fun f => some f.1) ∧
        (frags.map (fun f => f.1)).Nodup ∧
        (∀ f ∈ frags, f.1 ∈
            (⟨["q0", "q1", "q2", "q3", "q4"],
              [("q1", [("A", [some "q2"])]), ("q2", [("B", [none])]),
               ("q0", [("", [some "q1", some "q3"])]), ("q3", [("B", [some "q4"])]),
               ("q4", [("A", [none])])],
              [("A", Node.element "A" ⟨1, some 1⟩),
               ("B", Node.element "B" ⟨1, some 1⟩)]⟩ : Builder).states ∧
          f.1 ∉ (newState emptyBuilder).2.states) ∧
        ["q2", "q4"] = frags.foldl (fun acc f => setUnion acc f.2) []) := by
  have hperm :
      ([Node.element "A" ⟨1, some 1⟩, Node.element "B" ⟨1, some 1⟩] : List Node).permutations
        = [[Node.element "A" ⟨1, some 1⟩, Node.element "B" ⟨1, some 1⟩],
           [Node.element "B" ⟨1, some 1⟩, Node.element "A" ⟨1, some 1⟩]] := by
    simp [List.permutations, List.permutationsAux_cons, List.permutationsAux_nil,
      List.permutationsAux2]
  have hok : (allSteps (nfaFromNode 1)
      [Node.element "A" ⟨1, some 1⟩, Node.element "B" ⟨1, some 1⟩] emptyBuilder).1 =
      .ok (("q0", ["q2", "q4"]),
        ⟨["q0", "q1", "q2", "q3", "q4"],
         [("q1", [("A", [some "q2"])]), ("q2", [("B", [none])]),
          ("q0", [("", [some "q1", some "q3"])]), ("q3", [("B", [some "q4"])]),
          ("q4", [("A", [none])])],
         [("A", Node.element "A" ⟨1, some 1⟩), ("B", Node.element "B" ⟨1, some 1⟩)]⟩) := by
    rw [allSteps_red, hperm]
    rfl
  exact ⟨binv_empty, by decide, hok,
    c6_all_group_factorial 1 [Node.element "A" ⟨1, some 1⟩, Node.element "B" ⟨1, some 1⟩]
      emptyBuilder binv_empty (by decide) "q0" ["q2", "q4"]
      ⟨["q0", "q1", "q2", "q3", "q4"],
       [("q1", [("A", [some "q2"])]), ("q2", [("B", [none])]),
        ("q0", [("", [some "q1", some "q3"])]), ("q3", [("B", [some "q4"])]),
        ("q4", [("A", [none])])],
       [("A", Node.element "A" ⟨1, some 1⟩), ("B", Node.element "B" ⟨1, some 1⟩)]⟩ hok⟩

/-! Structure of the canonical state enumeration (source lines 158-164). -/

theorem stateIdx_map_range :
    ∀ (A B : List (List String)), A.Nodup →
      A.map (fun S => stateIdx (A ++ B) S) = List.range A.length := by
  intro A
  induction A with
  | nil => intro B _; rfl
  | cons a A ih =>
    intro B hnd
    rcases List.nodup_cons.mp hnd with ⟨ha, hndA⟩
    have h0 : stateIdx ((a :: A) ++ B) a = 0 := by
      unfold stateIdx
      simp [List.findIdx_cons]
    have hS : ∀ S ∈ A, stateIdx ((a :: A) ++ B) S = stateIdx (A ++ B) S + 1 := by
      intro S hSm
      unfold stateIdx
      rw [List.cons_append, List.findIdx_cons]
      have hne : (decide (a = S)) = false := by
        simp only [decide_eq_false_iff_not]
        intro h
        exact ha (h ▸ hSm)
      rw [hne]
      rfl
    calc (a :: A).map (fun S => stateIdx ((a :: A) ++ B) S)
        = stateIdx ((a :: A) ++ B) a :: A.map (fun S => stateIdx ((a :: A) ++ B) S) := rfl
      _ = 0 :: A.map (fun S => stateIdx (A ++ B) S + 1) := by
          rw [h0, List.map_congr_left hS]
      _ = 0 :: (A.map (fun S => stateIdx (A ++ B) S)).map (fun n => n + 1) := by
          rw [List.map_map]
          rfl
      _ = 0 :: (List.range A.length).map (fun n => n + 1) := by rw [ih B hndA]
      _ = List.range (A.length + 1) := by
          rw [List.range_succ_eq_map]
      _ = List.range ((a :: A).length) := rfl

theorem minStatesOf_split (P : Partition) (Q : List (List String)) :
    minStatesOf P Q =
      (setOfList (Q.map (fun S => mergedInto P S))).filter (fun S => S ≠ []) ++
      (setOfList (Q.map (fun S => mergedInto P S))).filter (fun S => S = []) := rfl

theorem minStatesOf_filter (P : Partition) (Q : List (List String)) :
    (minStatesOf P Q).filter (fun S => S ≠ []) =
      (setOfList (Q.map (fun S => mergedInto P S))).filter (fun S => S ≠ []) := by
  rw [minStatesOf_split, List.filter_append, List.filter_filter, List.filter_filter]
  have h1 : (List.filter (fun a => decide (a ≠ []) && decide (a ≠ []))
      (setOfList (Q.map (fun S => mergedInto P S)))) =
      (List.filter (fun a => decide (a ≠ []))
        (setOfList (Q.map (fun S => mergedInto P S)))) := by
    apply List.filter_congr
    intro a _
    rw [Bool.and_self]
  have h2 : (List.filter (fun a => decide (a ≠ []) && decide (a = []))
      (setOfList (Q.map (fun S => mergedInto P S)))) = [] := by
    apply List.filter_eq_nil_iff.mpr
    intro a _
    simp only [Bool.and_eq_true, decide_eq_true_eq, not_and]
    intro hne
    exact hne
  rw [h1, h2, List.append_nil]

theorem canonicalize_states (nfa : NfaRec) (P : Partition) (Q : List (List String))
    (elems : List (String × Node)) :
    (canonicalize nfa P Q elems).states =
      ((minStatesOf P Q).filter (fun S => S ≠ [])).map (stateIdx (minStatesOf P Q)) := rfl

/-- Unravelling a successful pipeline run into its stages. -/
theorem pipeline_ok_inv (t : Node) (nfa : NfaRec) (Q : List (List String))
    (P : Partition) (rec : OutRecord)
    (h : (pipeline t).1 = .ok (nfa, Q, P, rec)) :
    determinize nfa = .ok Q ∧ minimizeD nfa Q = .ok P ∧
      ∃ elems, rec = canonicalize nfa P Q elems := by
  unfold pipeline at h
  rcases hb : nfaFromNode (nodeFuel t) t emptyBuilder with ⟨r, t2⟩
  rw [hb] at h
  cases r with
  | error e => exact absurd h (by simp)
  | ok fb =>
    rcases fb with ⟨⟨init, finals⟩, b⟩
    dsimp only at h
    rcases hn : mkNfa b init finals with e2 | nfa2
    · rw [hn] at h
      exact absurd h (by simp)
    · rw [hn] at h
      dsimp only at h
      rcases hd : determinize nfa2 with e3 | Q2
      · rw [hd] at h
        exact absurd h (by simp)
      · rw [hd] at h
        dsimp only at h
        rcases hm : minimizeD nfa2 Q2 with e4 | P2
        · rw [hm] at h
          exact absurd h (by simp)
        · rw [hm] at h
          simp only [Except.ok.injEq, Prod.mk.injEq] at h
          rcases h with ⟨hnfa, hQ, hP, hrec⟩
          subst hnfa
          subst hQ
          subst hP
          exact ⟨hd, hm, b.elements, hrec.symm⟩

/-- Unravelling a successful dfa_from_group call. -/
theorem dfaFromGroup_ok_inv (t : Node) (rec : OutRecord)
    (h : dfaFromGroup t = .ok rec) :
    ∃ nfa Q P, determinize nfa = .ok Q ∧ minimizeD nfa Q = .ok P ∧
      ∃ elems, rec = canonicalize nfa P Q elems := by
  unfold dfaFromGroup dfaFromGroupM at h
  rcases hp : (pipeline t).1 with e | z
  · rw [hp] at h
    exact absurd h (by simp [Except.map])
  · rw [hp] at h
    rcases z with ⟨nfa, Q, P, rec2⟩
    simp only [Except.map, Except.ok.injEq] at h
    subst h
    exact ⟨nfa, Q, P, pipeline_ok_inv t nfa Q P rec2 hp⟩

/-- C8: every record dfa_from_group returns assigns the surviving states
dense consecutive ids from zero: the states field is exactly the range of
its own length. -/
theorem c8_dense_state_ids (t : Node) (rec : OutRecord)
    (h : dfaFromGroup t = .ok rec) :
    rec.states = List.range rec.states.length := by
  rcases dfaFromGroup_ok_inv t rec h with ⟨nfa, Q, P, _, _, elems, hrec⟩
  subst hrec
  rw [canonicalize_states]
  have hA : (minStatesOf P Q).filter (fun S => S ≠ []) =
      (setOfList (Q.map (fun S => mergedInto P S))).filter (fun S => S ≠ []) :=
    minStatesOf_filter P Q
  have hnd : ((setOfList (Q.map (fun S => mergedInto P S))).filter
      (fun S => S ≠ [])).Nodup :=
    (nodup_setOfList _).filter _
  rw [hA, minStatesOf_split]
  rw [show ((setOfList (Q.map (fun S => mergedInto P S))).filter (fun S => S ≠ [])).map
        (stateIdx ((setOfList (Q.map (fun S => mergedInto P S))).filter (fun S => S ≠ []) ++
          (setOfList (Q.map (fun S => mergedInto P S))).filter (fun S => S = []))) =
      ((setOfList (Q.map (fun S => mergedInto P S))).filter (fun S => S ≠ [])).map
        (fun S => stateIdx ((setOfList (Q.map (fun S => mergedInto P S))).filter
          (fun S => S ≠ []) ++
          (setOfList (Q.map (fun S => mergedInto P S))).filter (fun S => S = [])) S)
      from rfl]
  rw [stateIdx_map_range _ _ hnd, List.length_range]

theorem c8_witness :
    dfaFromGroup (Node.choice [Node.element "A" ⟨1, some 1⟩, Node.element "B" ⟨1, some 1⟩]
        ⟨1, some 1⟩) =
      .ok ⟨[0, 1], 0, [1], [(0, [("A", 1), ("B", 1)]), (1, [])],
        [("A", Node.element "A" ⟨1, some 1⟩), ("B", Node.element "B" ⟨1, some 1⟩)]⟩ ∧
    (⟨[0, 1], 0, [1], [(0, [("A", 1), ("B", 1)]), (1, [])],
      [("A", Node.element "A" ⟨1, some 1⟩),
       ("B", Node.element "B" ⟨1, some 1⟩)]⟩ : OutRecord).states =
      List.range (⟨[0, 1], 0, [1], [(0, [("A", 1), ("B", 1)]), (1, [])],
        [("A", Node.element "A" ⟨1, some 1⟩),
         ("B", Node.element "B" ⟨1, some 1⟩)]⟩ : OutRecord).states.length :=
  ⟨by rfl,
   c8_dense_state_ids
     (Node.choice [Node.element "A" ⟨1, some 1⟩, Node.element "B" ⟨1, some 1⟩] ⟨1, some 1⟩)
     ⟨[0, 1], 0, [1], [(0, [("A", 1), ("B", 1)]), (1, [])],
      [("A", Node.element "A" ⟨1, some 1⟩), ("B", Node.element "B" ⟨1, some 1⟩)]⟩ (by rfl)⟩

/-! Closure of the discovered subset states under the subset transition
function (the breadth-first worklist loop, modelled from the spec). -/

theorem bfs_fold_ext (nfa : NfaRec) (S : List String) :
    ∀ (alpha : List String) (d w : List (List String)),
      ∃ ext, alpha.foldl
        (fun (acc : List (List String) × List (List String)) a =>
          let T := subsetDelta nfa S a
          if T ∈ acc.1 then acc else (acc.1 ++ [T], acc.2 ++ [T])) (d, w) =
        (d ++ ext, w ++ ext) := by
  intro alpha
  induction alpha with
  | nil =>
    intro d w
    exact ⟨[], by simp⟩
  | cons a alpha ih =>
    intro d w
    rw [List.foldl_cons]
    by_cases hT : subsetDelta nfa S a ∈ d
    · rw [show (let T := subsetDelta nfa S a
          if T ∈ (d, w).1 then (d, w) else ((d, w).1 ++ [T], (d, w).2 ++ [T])) = (d, w) from by
        simp only []
        rw [if_pos hT]]
      exact ih d w
    · rw [show (let T := subsetDelta nfa S a
          if T ∈ (d, w).1 then (d, w) else ((d, w).1 ++ [T], (d, w).2 ++ [T])) =
            (d ++ [subsetDelta nfa S a], w ++ [subsetDelta nfa S a]) from by
        simp only []
        rw [if_neg hT]]
      rcases ih (d ++ [subsetDelta nfa S a]) (w ++ [subsetDelta nfa S a]) with ⟨ext, hext⟩
      refine ⟨subsetDelta nfa S a :: ext, ?_⟩
      rw [hext]
      simp

theorem bfs_fold_delta (nfa : NfaRec) (S : List String) :
    ∀ (alpha : List String) (d w : List (List String)) (a : String), a ∈ alpha →
      subsetDelta nfa S a ∈ (alpha.foldl
        (fun (acc : List (List String) × List (List String)) a =>
          let T := subsetDelta nfa S a
          if T ∈ acc.1 then acc else (acc.1 ++ [T], acc.2 ++ [T])) (d, w)).1 := by
  intro alpha
  induction alpha with
  | nil =>
    intro d w a ha
    cases ha
  | cons b alpha ih =>
    intro d w a ha
    rw [List.foldl_cons]
    rcases List.mem_cons.mp ha with hab | ha2
    · subst hab
      by_cases hT : subsetDelta nfa S a ∈ d
      · rw [show (let T := subsetDelta nfa S a
            if T ∈ (d, w).1 then (d, w) else ((d, w).1 ++ [T], (d, w).2 ++ [T])) = (d, w) from by
          simp only []
          rw [if_pos hT]]
        rcases bfs_fold_ext nfa S alpha d w with ⟨ext, hext⟩
        rw [hext]
        exact List.mem_append_left _ hT
      · rw [show (let T := subsetDelta nfa S a
            if T ∈ (d, w).1 then (d, w) else ((d, w).1 ++ [T], (d, w).2 ++ [T])) =
              (d ++ [subsetDelta nfa S a], w ++ [subsetDelta nfa S a]) from by
          simp only []
          rw [if_neg hT]]
        rcases bfs_fold_ext nfa S alpha (d ++ [subsetDelta nfa S a])
          (w ++ [subsetDelta nfa S a]) with ⟨ext, hext⟩
        rw [hext]
        exact List.mem_append_left _ (List.mem_append_right _ (List.mem_singleton_self _))
    · by_cases hT : subsetDelta nfa S b ∈ d
      · rw [show (let T := subsetDelta nfa S b
            if T ∈ (d, w).1 then (d, w) else ((d, w).1 ++ [T], (d, w).2 ++ [T])) = (d, w) from by
          simp only []
          rw [if_pos hT]]
        exact ih d w a ha2
      · rw [show (let T := subsetDelta nfa S b
            if T ∈ (d, w).1 then (d, w) else ((d, w).1 ++ [T], (d, w).2 ++ [T])) =
              (d ++ [subsetDelta nfa S b], w ++ [subsetDelta nfa S b]) from by
          simp only []
          rw [if_neg hT]]
        exact ih (d ++ [subsetDelta nfa S b]) (w ++ [subsetDelta nfa S b]) a ha2

theorem bfsLoop_closed (nfa : NfaRec) (alpha : List String) :
    ∀ (fuel : Nat) (disc wl Q : List (List String)),
      (∀ x ∈ wl, x ∈ disc) →
      (∀ S ∈ disc, S ∈ wl ∨ ∀ a ∈ alpha, subsetDelta nfa S a ∈ disc) →
      bfsLoop nfa alpha fuel disc wl = .ok Q →
      (∃ ext, Q = disc ++ ext) ∧
      (∀ S ∈ Q, ∀ a ∈ alpha, subsetDelta nfa S a ∈ Q) := by
  intro fuel
  induction fuel with
  | zero =>
    intro disc wl Q _ _ h
    exact absurd h (by simp [bfsLoop])
  | succ fuel ih =>
    intro disc wl Q hwd hcl h
    cases wl with
    | nil =>
      have hQ : disc = Q := by
        have : (Except.ok disc : Except BuildErr (List (List String))) = .ok Q := h
        simpa using this
      subst hQ
      refine ⟨⟨[], by simp⟩, ?_⟩
      intro S hS a ha
      rcases hcl S hS with hw | hc
      · cases hw
      · exact hc a ha
    | cons S rest =>
      rcases bfs_fold_ext nfa S alpha disc rest with ⟨ext, hext⟩
      have hred : bfsLoop nfa alpha (fuel + 1) disc (S :: rest) =
          bfsLoop nfa alpha fuel (disc ++ ext) (rest ++ ext) := by
        show bfsLoop nfa alpha fuel
            (alpha.foldl
              (fun (acc : List (List String) × List (List String)) a =>
                let T := subsetDelta nfa S a
                if T ∈ acc.1 then acc else (acc.1 ++ [T], acc.2 ++ [T])) (disc, rest)).1
            (alpha.foldl
              (fun (acc : List (List String) × List (List String)) a =>
                let T := subsetDelta nfa S a
                if T ∈ acc.1 then acc else (acc.1 ++ [T], acc.2 ++ [T])) (disc, rest)).2 =
          bfsLoop nfa alpha fuel (disc ++ ext) (rest ++ ext)
        rw [hext]
      rw [hred] at h
      have hdelta : ∀ a ∈ alpha, subsetDelta nfa S a ∈ disc ++ ext := by
        intro a ha
        have := bfs_fold_delta nfa S alpha disc rest a ha
        rw [hext] at this
        exact this
      have hSd : S ∈ disc := hwd S (List.mem_cons_self _ _)
      have hwd2 : ∀ x ∈ rest ++ ext, x ∈ disc ++ ext := by
        intro x hx
        rcases List.mem_append.mp hx with hx | hx
        · exact List.mem_append_left _ (hwd x (List.mem_cons_of_mem _ hx))
        · exact List.mem_append_right _ hx
      have hcl2 : ∀ X ∈ disc ++ ext, X ∈ rest ++ ext ∨
          ∀ a ∈ alpha, subsetDelta nfa X a ∈ disc ++ ext := by
        intro X hX
        rcases List.mem_append.mp hX with hX | hX
        · rcases hcl X hX with hw | hc
          · rcases List.mem_cons.mp hw with hXS | hXr
            · subst hXS
              exact Or.inr hdelta
            · exact Or.inl (List.mem_append_left _ hXr)
          · exact Or.inr (fun a ha => List.mem_append_left _ (hc a ha))
        · exact Or.inl (List.mem_append_right _ hX)
      rcases ih (disc ++ ext) (rest ++ ext) Q hwd2 hcl2 h with ⟨⟨ext2, hext2⟩, hclQ⟩
      refine ⟨⟨ext ++ ext2, ?_⟩, hclQ⟩
      rw [hext2, List.append_assoc]

theorem determinize_closed (nfa : NfaRec) (Q : List (List String))
    (h : determinize nfa = .ok Q) :
    dfaStart nfa ∈ Q ∧ ∀ S ∈ Q, ∀ a ∈ nfa.inputSymbols, subsetDelta nfa S a ∈ Q := by
  unfold determinize at h
  rcases bfsLoop_closed nfa nfa.inputSymbols (2 ^ nfa.states.length + 1)
    [dfaStart nfa] [dfaStart nfa] Q (fun x hx => hx)
    (fun S hS => Or.inl hS) h with ⟨⟨ext, hext⟩, hcl⟩
  refine ⟨?_, hcl⟩
  rw [hext]
  exact List.mem_append_left _ (List.mem_singleton_self _)

/-! Invariants of the partition refinement (modelled from the spec). -/

theorem mem_groupByKey {α κ : Type} [DecidableEq α] [DecidableEq κ] (key : α → κ)
    (l : List α) (C : List α) (hC : C ∈ groupByKey key l) :
    ∃ k, C = l.filter (fun x => key x = k) ∧ C ≠ [] := by
  unfold groupByKey at hC
  rcases List.mem_map.mp hC with ⟨k, hk, hCk⟩
  refine ⟨k, hCk.symm, ?_⟩
  rw [← hCk]
  rcases List.mem_map.mp ((mem_setOfList _ _).mp hk) with ⟨x, hx, hkx⟩
  intro hnil
  have hxm : x ∈ l.filter (fun y => key y = k) :=
    List.mem_filter.mpr ⟨hx, by simp [hkx]⟩
  rw [hnil] at hxm
  cases hxm

theorem groupByKey_cover {α κ : Type} [DecidableEq α] [DecidableEq κ] (key : α → κ)
    (l : List α) (x : α) (hx : x ∈ l) :
    ∃ C ∈ groupByKey key l, x ∈ C := by
  refine ⟨l.filter (fun y => key y = key x), ?_, ?_⟩
  · unfold groupByKey
    exact List.mem_map.mpr
      ⟨key x, (mem_setOfList _ _).mpr (List.mem_map.mpr ⟨x, hx, rfl⟩), rfl⟩
  · exact List.mem_filter.mpr ⟨hx, by simp⟩

theorem initPartition_inv (nfa : NfaRec) (Q : List (List String)) :
    PartInv nfa Q (initPartition nfa Q) := by
  have hAx : ∀ x, x ∈ Q.filter (fun S => subsetAccepting nfa S) ↔
      (x ∈ Q ∧ subsetAccepting nfa x = true) := by
    intro x
    rw [List.mem_filter]
  have hNx : ∀ x, x ∈ Q.filter (fun S => ¬ subsetAccepting nfa S) ↔
      (x ∈ Q ∧ subsetAccepting nfa x = false) := by
    intro x
    rw [List.mem_filter]
    simp
  have hmem : ∀ B ∈ initPartition nfa Q,
      (B = Q.filter (fun S => subsetAccepting nfa S) ∨
       B = Q.filter (fun S => ¬ subsetAccepting nfa S)) ∧ B ≠ [] := by
    intro B hB
    unfold initPartition at hB
    rcases List.mem_filter.mp hB with ⟨hB2, hne⟩
    refine ⟨?_, by simpa using hne⟩
    rcases List.mem_cons.mp hB2 with h | h
    · exact Or.inl h
    · exact Or.inr (by simpa using h)
  refine ⟨?_, ?_, ?_, ?_, ?_⟩
  · intro B hB x hx
    rcases (hmem B hB).1 with h | h
    · exact ((hAx x).mp (h ▸ hx)).1
    · exact ((hNx x).mp (h ▸ hx)).1
  · intro x hx
    cases hacc : subsetAccepting nfa x with
    | true =>
      refine ⟨Q.filter (fun S => subsetAccepting nfa S), ?_, (hAx x).mpr ⟨hx, hacc⟩⟩
      unfold initPartition
      refine List.mem_filter.mpr ⟨List.mem_cons_self _ _, ?_⟩
      refine decide_eq_true ?_
      intro hnil
      have hxm := (hAx x).mpr ⟨hx, hacc⟩
      rw [hnil] at hxm
      cases hxm
    | false =>
      refine ⟨Q.filter (fun S => ¬ subsetAccepting nfa S), ?_, (hNx x).mpr ⟨hx, hacc⟩⟩
      unfold initPartition
      refine List.mem_filter.mpr ⟨List.mem_cons_of_mem _ (List.mem_cons_self _ _), ?_⟩
      refine decide_eq_true ?_
      intro hnil
      have hxm := (hNx x).mpr ⟨hx, hacc⟩
      rw [hnil] at hxm
      cases hxm
  · intro B hB x hx y hy
    rcases (hmem B hB).1 with h | h
    · rw [((hAx x).mp (h ▸ hx)).2, ((hAx y).mp (h ▸ hy)).2]
    · rw [((hNx x).mp (h ▸ hx)).2, ((hNx y).mp (h ▸ hy)).2]
  · intro B1 hB1 B2 hB2 hne x hx1 hx2
    rcases (hmem B1 hB1).1 with h1 | h1 <;> rcases (hmem B2 hB2).1 with h2 | h2
    · exact hne (h1.trans h2.symm)
    · have ht := ((hAx x).mp (h1 ▸ hx1)).2
      have hf := ((hNx x).mp (h2 ▸ hx2)).2
      rw [ht] at hf
      cases hf
    · have ht := ((hAx x).mp (h2 ▸ hx2)).2
      have hf := ((hNx x).mp (h1 ▸ hx1)).2
      rw [ht] at hf
      cases hf
    · exact hne (h1.trans h2.symm)
  · intro B hB
    exact (hmem B hB).2

theorem refineOnce_inv (nfa : NfaRec) (alpha : List String) (Q : List (List String))
    (P : Partition) (hP : PartInv nfa Q P) :
    PartInv nfa Q (refineOnce nfa alpha P) := by
  rcases hP with ⟨hsub, hcov, hacc, hdisj, hne⟩
  have hmem : ∀ C ∈ refineOnce nfa alpha P, ∃ B ∈ P,
      C ∈ groupByKey (sigOf nfa alpha P) B ∧ ∀ x ∈ C, x ∈ B := by
    intro C hC
    unfold refineOnce at hC
    rcases List.mem_flatMap.mp hC with ⟨B, hB, hCB⟩
    refine ⟨B, hB, hCB, ?_⟩
    rcases mem_groupByKey _ B C hCB with ⟨k, hCk, _⟩
    intro x hx
    rw [hCk] at hx
    exact (List.mem_filter.mp hx).1
  refine ⟨?_, ?_, ?_, ?_, ?_⟩
  · intro C hC x hx
    rcases hmem C hC with ⟨B, hB, _, hsubC⟩
    exact hsub B hB x (hsubC x hx)
  · intro x hx
    rcases hcov x hx with ⟨B, hB, hxB⟩
    rcases groupByKey_cover (sigOf nfa alpha P) B x hxB with ⟨C, hCB, hxC⟩
    exact ⟨C, List.mem_flatMap.mpr ⟨B, hB, hCB⟩, hxC⟩
  · intro C hC x hx y hy
    rcases hmem C hC with ⟨B, hB, _, hsubC⟩
    exact hacc B hB x (hsubC x hx) y (hsubC y hy)
  · intro C1 hC1 C2 hC2 hneC x hx1 hx2
    rcases hmem C1 hC1 with ⟨B1, hB1, hC1B, hsub1⟩
    rcases hmem C2 hC2 with ⟨B2, hB2, hC2B, hsub2⟩
    by_cases hBB : B1 = B2
    · subst hBB
      rcases mem_groupByKey _ B1 C1 hC1B with ⟨k1, hk1, _⟩
      rcases mem_groupByKey _ B1 C2 hC2B with ⟨k2, hk2, _⟩
      have hx1f := hk1 ▸ hx1
      have hx2f := hk2 ▸ hx2
      have hkx1 : sigOf nfa alpha P x = k1 :=
        of_decide_eq_true (List.mem_filter.mp hx1f).2
      have hkx2 : sigOf nfa alpha P x = k2 :=
        of_decide_eq_true (List.mem_filter.mp hx2f).2
      have hk12 : k1 = k2 := hkx1 ▸ hkx2
      exact hneC (by rw [hk1, hk2, hk12])
    · exact hdisj B1 hB1 B2 hB2 hBB x (hsub1 x hx1) (hsub2 x hx2)
  · intro C hC
    rcases hmem C hC with ⟨B, hB, hCB, _⟩
    rcases mem_groupByKey _ B C hCB with ⟨_, _, hne2⟩
    exact hne2

theorem refineLoop_inv (nfa : NfaRec) (alpha : List String) (Q : List (List String)) :
    ∀ (fuel : Nat) (P0 P : Partition), PartInv nfa Q P0 →
      refineLoop nfa alpha fuel P0 = .ok P →
      PartInv nfa Q P ∧ refineOnce nfa alpha P = P := by
  intro fuel
  induction fuel with
  | zero =>
    intro P0 P _ h
    exact absurd h (by simp [refineLoop])
  | succ fuel ih =>
    intro P0 P hP0 h
    rw [show refineLoop nfa alpha (fuel + 1) P0 =
        (if refineOnce nfa alpha P0 = P0 then .ok P0
         else refineLoop nfa alpha fuel (refineOnce nfa alpha P0)) from rfl] at h
    by_cases hfix : refineOnce nfa alpha P0 = P0
    · rw [if_pos hfix] at h
      have hPP : P0 = P := by simpa using h
      subst hPP
      exact ⟨hP0, hfix⟩
    · rw [if_neg hfix] at h
      exact ih (refineOnce nfa alpha P0) P (refineOnce_inv nfa alpha Q P0 hP0) h

theorem minimizeD_inv (nfa : NfaRec) (Q : List (List String)) (P : Partition)
    (h : minimizeD nfa Q = .ok P) :
    PartInv nfa Q P ∧ refineOnce nfa nfa.inputSymbols P = P := by
  unfold minimizeD at h
  exact refineLoop_inv nfa nfa.inputSymbols Q (Q.length + 1) (initPartition nfa Q) P
    (initPartition_inv nfa Q) h

/-! Stability of the refined partition at the fixpoint. -/

theorem length_le_sum_map {α : Type} :
    ∀ (l : List α) (f : α → Nat), (∀ x ∈ l, 1 ≤ f x) → l.length ≤ (l.map f).sum := by
  intro l
  induction l with
  | nil =>
    intro f _
    simp
  | cons a l ih =>
    intro f h1
    rw [List.map_cons, List.sum_cons, List.length_cons]
    have hrest := ih f (fun x hx => h1 x (List.mem_cons_of_mem _ hx))
    have hhead := h1 a (List.mem_cons_self _ _)
    omega

theorem sum_ones_of_length {α : Type} :
    ∀ (l : List α) (f : α → Nat), (∀ x ∈ l, 1 ≤ f x) → (l.map f).sum = l.length →
      ∀ x ∈ l, f x = 1 := by
  intro l
  induction l with
  | nil =>
    intro f _ _ x hx
    cases hx
  | cons a l ih =>
    intro f h1 hsum x hx
    rw [List.map_cons, List.sum_cons, List.length_cons] at hsum
    have hrest := length_le_sum_map l f (fun y hy => h1 y (List.mem_cons_of_mem _ hy))
    have hhead := h1 a (List.mem_cons_self _ _)
    rcases List.mem_cons.mp hx with hxa | hxl
    · subst hxa
      omega
    · exact ih f (fun y hy => h1 y (List.mem_cons_of_mem _ hy)) (by omega) x hxl

theorem fixpoint_sig_uniform (nfa : NfaRec) (alpha : List String) (P : Partition)
    (hfix : refineOnce nfa alpha P = P) (hne : ∀ B ∈ P, B ≠ []) :
    ∀ B ∈ P, ∀ x ∈ B, ∀ y ∈ B, sigOf nfa alpha P x = sigOf nfa alpha P y := by
  have hsum : (P.map (fun B => (groupByKey (sigOf nfa alpha P) B).length)).sum =
      P.length := by
    have hlf := List.length_flatMap P (fun B => groupByKey (sigOf nfa alpha P) B)
    have : (refineOnce nfa alpha P).length = P.length := by rw [hfix]
    unfold refineOnce at this
    rw [hlf] at this
    exact this
  have h1 : ∀ B ∈ P, 1 ≤ (groupByKey (sigOf nfa alpha P) B).length := by
    intro B hB
    have hBne := hne B hB
    have : sigOf nfa alpha P (B.headD []) ∈ setOfList (B.map (sigOf nfa alpha P)) := by
      refine (mem_setOfList _ _).mpr (List.mem_map.mpr ⟨B.headD [], ?_, rfl⟩)
      cases B with
      | nil => exact absurd rfl hBne
      | cons b B2 => exact List.mem_cons_self _ _
    have hne2 : setOfList (B.map (sigOf nfa alpha P)) ≠ [] := List.ne_nil_of_mem this
    have := List.length_pos.mpr hne2
    unfold groupByKey
    rw [List.length_map]
    omega
  have hone := sum_ones_of_length P _ h1 hsum
  intro B hB x hx y hy
  have hlen1 : (setOfList (B.map (sigOf nfa alpha P))).length = 1 := by
    have := hone B hB
    unfold groupByKey at this
    rw [List.length_map] at this
    exact this
  rcases hk : setOfList (B.map (sigOf nfa alpha P)) with _ | ⟨k, rest⟩
  · rw [hk] at hlen1
    cases hlen1
  · have hrest : rest = [] := by
      rw [hk] at hlen1
      simpa using hlen1
    subst hrest
    have hxk : sigOf nfa alpha P x ∈ setOfList (B.map (sigOf nfa alpha P)) :=
      (mem_setOfList _ _).mpr (List.mem_map.mpr ⟨x, hx, rfl⟩)
    have hyk : sigOf nfa alpha P y ∈ setOfList (B.map (sigOf nfa alpha P)) :=
      (mem_setOfList _ _).mpr (List.mem_map.mpr ⟨y, hy, rfl⟩)
    rw [hk] at hxk hyk
    have hx1 : sigOf nfa alpha P x = k := by simpa using hxk
    have hy1 : sigOf nfa alpha P y = k := by simpa using hyk
    rw [hx1, hy1]

/-! The representative map of the minimized DFA. -/

theorem blockOf_mem_of_mem (P : Partition)
    (hdisj : ∀ B1 ∈ P, ∀ B2 ∈ P, B1 ≠ B2 → ∀ x ∈ B1, x ∉ B2)
    (B : List (List String)) (hB : B ∈ P) (x : List String) (hx : x ∈ B) :
    blockOf P x = B := by
  unfold blockOf
  rcases hf : P.find? (fun C => x ∈ C) with _ | C
  · rw [List.find?_eq_none] at hf
    exact absurd (decide_eq_true hx) (hf B hB)
  · have hCP := List.mem_of_find?_eq_some hf
    have hxC' := List.find?_some hf
    have hxC : x ∈ C := of_decide_eq_true hxC'
    by_cases hCB : C = B
    · rw [hf, hCB]
      rfl
    · exact absurd hx (hdisj C hCP B hB hCB x hxC)

theorem mergedInto_self_mem (P : Partition)
    (hdisj : ∀ B1 ∈ P, ∀ B2 ∈ P, B1 ≠ B2 → ∀ x ∈ B1, x ∉ B2)
    (B : List (List String)) (hB : B ∈ P) (x : List String) (hx : x ∈ B) :
    mergedInto P x ∈ B := by
  unfold mergedInto
  rw [blockOf_mem_of_mem P hdisj B hB x hx]
  unfold reprOf
  by_cases h : [] ∈ B
  · rw [if_pos h]
    exact h
  · rw [if_neg h]
    cases B with
    | nil => cases hx
    | cons b B2 => exact List.mem_cons_self _ _

theorem mergedInto_trap (P : Partition) : mergedInto P [] = [] := by
  unfold mergedInto blockOf
  rcases hf : P.find? (fun B => ([] : List String) ∈ B) with _ | C
  · rw [hf]
    rfl
  · rw [hf]
    have hC' := List.find?_some hf
    have hC : ([] : List String) ∈ C := of_decide_eq_true hC'
    show reprOf ((some C).getD []) = []
    unfold reprOf
    rw [Option.getD_some, if_pos hC]

theorem mergedInto_eq_of_same_block (P : Partition)
    (hdisj : ∀ B1 ∈ P, ∀ B2 ∈ P, B1 ≠ B2 → ∀ x ∈ B1, x ∉ B2)
    (B : List (List String)) (hB : B ∈ P) (x y : List String)
    (hx : x ∈ B) (hy : y ∈ B) :
    mergedInto P x = mergedInto P y := by
  unfold mergedInto
  rw [blockOf_mem_of_mem P hdisj B hB x hx, blockOf_mem_of_mem P hdisj B hB y hy]

theorem same_repr_same_block (P : Partition)
    (hdisj : ∀ B1 ∈ P, ∀ B2 ∈ P, B1 ≠ B2 → ∀ x ∈ B1, x ∉ B2)
    (x y : List String) (Bx : List (List String)) (hBx : Bx ∈ P) (hxB : x ∈ Bx)
    (By2 : List (List String)) (hBy : By2 ∈ P) (hyB : y ∈ By2)
    (h : mergedInto P x = mergedInto P y) : Bx = By2 := by
  rw [mergedInto, mergedInto, blockOf_mem_of_mem P hdisj Bx hBx x hxB,
    blockOf_mem_of_mem P hdisj By2 hBy y hyB] at h
  by_cases hx0 : [] ∈ Bx
  · have h1 : reprOf Bx = [] := by
      unfold reprOf
      rw [if_pos hx0]
    have h2 : reprOf By2 = [] := by rw [← h, h1]
    have hy0 : [] ∈ By2 := by
      by_cases hyy : [] ∈ By2
      · exact hyy
      · unfold reprOf at h2
        rw [if_neg hyy] at h2
        cases By2 with
        | nil => cases hyB
        | cons b B2 =>
          rw [show (b :: B2).headD [] = b from rfl] at h2
          exact h2 ▸ List.mem_cons_self _ _
    by_contra hneq
    exact hdisj Bx hBx By2 hBy hneq [] hx0 hy0
  · have h1 : reprOf Bx = Bx.headD [] := by
      unfold reprOf
      rw [if_neg hx0]
    have hmemx : reprOf Bx ∈ Bx := by
      rw [h1]
      cases Bx with
      | nil => cases hxB
      | cons b B2 => exact List.mem_cons_self _ _
    have hRne : reprOf Bx ≠ [] := fun hR => hx0 (hR ▸ hmemx)
    have hy0 : [] ∉ By2 := by
      intro hyy
      have h2 : reprOf By2 = [] := by
        unfold reprOf
        rw [if_pos hyy]
      exact hRne (h.trans h2)
    have hmemy : reprOf By2 ∈ By2 := by
      unfold reprOf
      rw [if_neg hy0]
      cases By2 with
      | nil => cases hyB
      | cons b B2 => exact List.mem_cons_self _ _
    have hmemx2 : reprOf Bx ∈ By2 := by
      rw [h]
      exact hmemy
    by_contra hneq
    exact hdisj Bx hBx By2 hBy hneq (reprOf Bx) hmemx hmemx2

theorem blockOf_eq_of_findIdx_eq :
    ∀ (P : Partition) (X Y : List String),
      P.findIdx (fun B => X ∈ B) = P.findIdx (fun B => Y ∈ B) →
      blockOf P X = blockOf P Y := by
  intro P
  induction P with
  | nil =>
    intro X Y _
    rfl
  | cons B P ih =>
    intro X Y h
    rw [List.findIdx_cons, List.findIdx_cons] at h
    by_cases hX : X ∈ B <;> by_cases hY : Y ∈ B
    · have hfx : List.find? (fun C => decide (X ∈ C)) (B :: P) = some B :=
        List.find?_cons_of_pos _ (decide_eq_true hX)
      have hfy : List.find? (fun C => decide (Y ∈ C)) (B :: P) = some B :=
        List.find?_cons_of_pos _ (decide_eq_true hY)
      unfold blockOf
      rw [hfx, hfy]
    · rw [decide_eq_true hX, decide_eq_false hY] at h
      simp at h
    · rw [decide_eq_true hY, decide_eq_false hX] at h
      simp at h
    · rw [decide_eq_false hX, decide_eq_false hY] at h
      simp only [cond_false] at h
      have h2 : P.findIdx (fun C => X ∈ C) = P.findIdx (fun C => Y ∈ C) := by omega
      have hfx : List.find? (fun C => decide (X ∈ C)) (B :: P) =
          List.find? (fun C => decide (X ∈ C)) P :=
        List.find?_cons_of_neg _ (by simp [hX])
      have hfy : List.find? (fun C => decide (Y ∈ C)) (B :: P) =
          List.find? (fun C => decide (Y ∈ C)) P :=
        List.find?_cons_of_neg _ (by simp [hY])
      unfold blockOf
      rw [hfx, hfy]
      exact ih X Y h2

theorem delta_block_eq_of_sig_eq (nfa : NfaRec) (alpha : List String) (P : Partition)
    (x y : List String) (h : sigOf nfa alpha P x = sigOf nfa alpha P y)
    (a : String) (ha : a ∈ alpha) :
    blockOf P (subsetDelta nfa x a) = blockOf P (subsetDelta nfa y a) := by
  unfold sigOf at h
  exact blockOf_eq_of_findIdx_eq P _ _ (List.map_eq_map_iff.mp h a ha)

/-! Simulation of the subset automaton by the minimized DFA. -/

theorem min_delta_sim (nfa : NfaRec) (Q : List (List String)) (P : Partition)
    (hP : PartInv nfa Q P) (hfix : refineOnce nfa nfa.inputSymbols P = P)
    (S : List String) (hS : S ∈ Q) (a : String) (ha : a ∈ nfa.inputSymbols) :
    minDelta nfa P (mergedInto P S) a = mergedInto P (subsetDelta nfa S a) := by
  rcases hP with ⟨_, hcov, _, hdisj, hne⟩
  rcases hcov S hS with ⟨B, hB, hSB⟩
  have hR : mergedInto P S ∈ B := mergedInto_self_mem P hdisj B hB S hSB
  have hsig := fixpoint_sig_uniform nfa nfa.inputSymbols P hfix hne B hB
    (mergedInto P S) hR S hSB
  have hblock := delta_block_eq_of_sig_eq nfa nfa.inputSymbols P _ _ hsig a ha
  show reprOf (blockOf P (subsetDelta nfa (mergedInto P S) a)) =
    reprOf (blockOf P (subsetDelta nfa S a))
  rw [hblock]

theorem min_accept_sim (nfa : NfaRec) (Q : List (List String)) (P : Partition)
    (hP : PartInv nfa Q P) (S : List String) (hS : S ∈ Q) :
    (subsetAccepting nfa S = true) ↔ mergedInto P S ∈ minAccSet nfa P Q := by
  rcases hP with ⟨_, hcov, haccu, hdisj, _⟩
  constructor
  · intro h
    unfold minAccSet
    exact (mem_setOfList _ _).mpr
      (List.mem_map.mpr ⟨S, List.mem_filter.mpr ⟨hS, h⟩, rfl⟩)
  · intro h
    unfold minAccSet at h
    rcases List.mem_map.mp ((mem_setOfList _ _).mp h) with ⟨U, hU, hUm⟩
    rcases List.mem_filter.mp hU with ⟨hUQ, hUacc⟩
    rcases hcov U hUQ with ⟨BU, hBU, hUB⟩
    rcases hcov S hS with ⟨BS, hBS, hSB⟩
    have hBB : BU = BS := same_repr_same_block P hdisj U S BU hBU hUB BS hBS hSB hUm
    subst hBB
    have hacc2 := haccu BU hBU U hUB S hSB
    rw [← hacc2]
    exact hUacc

theorem fold_sim (nfa : NfaRec) (Q : List (List String)) (P : Partition)
    (hP : PartInv nfa Q P) (hfix : refineOnce nfa nfa.inputSymbols P = P)
    (hclosed : ∀ S ∈ Q, ∀ a ∈ nfa.inputSymbols, subsetDelta nfa S a ∈ Q) :
    ∀ (w : List String) (S : List String), S ∈ Q → (∀ a ∈ w, a ∈ nfa.inputSymbols) →
      (w.foldl (fun S a => minDelta nfa P S a) (mergedInto P S)) =
        mergedInto P (w.foldl (fun S a => subsetDelta nfa S a) S) ∧
      (w.foldl (fun S a => subsetDelta nfa S a) S) ∈ Q := by
  intro w
  induction w with
  | nil =>
    intro S hS _
    exact ⟨rfl, hS⟩
  | cons a w ih =>
    intro S hS hw
    have ha : a ∈ nfa.inputSymbols := hw a (List.mem_cons_self _ _)
    have hstep := min_delta_sim nfa Q P hP hfix S hS a ha
    have hSQ : subsetDelta nfa S a ∈ Q := hclosed S hS a ha
    rcases ih (subsetDelta nfa S a) hSQ (fun b hb => hw b (List.mem_cons_of_mem _ hb)) with
      ⟨hfold, hmem⟩
    rw [List.foldl_cons, List.foldl_cons]
    refine ⟨?_, hmem⟩
    rw [hstep]
    exact hfold

/-- C3: for every content-model tree on which the pipeline returns a
record, a symbol sequence over the NFA input alphabet is accepted by the
constructed epsilon-NFA under epsilon-closure simulation exactly when the
minimized DFA, from whose partition the output record is built, accepts
it. -/
theorem c3_language_equivalence (t : Node) (nfa : NfaRec) (Q : List (List String))
    (P : Partition) (rec : OutRecord)
    (h : (pipeline t).1 = .ok (nfa, Q, P, rec))
    (w : List String) (hw : ∀ a ∈ w, a ∈ nfa.inputSymbols) :
    nfaAccepts nfa w = minAccepts nfa P Q w := by
  rcases pipeline_ok_inv t nfa Q P rec h with ⟨hdet, hmin, _⟩
  rcases determinize_closed nfa Q hdet with ⟨hstart, hclosed⟩
  rcases minimizeD_inv nfa Q P hmin with ⟨hP, hfix⟩
  rcases fold_sim nfa Q P hP hfix hclosed w (dfaStart nfa) hstart hw with ⟨hfold, hmem⟩
  have hmin2 : minAccepts nfa P Q w = decide
      ((w.foldl (fun S a => minDelta nfa P S a) (minStart nfa P)) ∈ minAccSet nfa P Q) := rfl
  have hstart2 : minStart nfa P = mergedInto P (dfaStart nfa) := rfl
  rw [hmin2, hstart2, hfold]
  have hiff := min_accept_sim nfa Q P hP
    (w.foldl (fun S a => subsetDelta nfa S a) (dfaStart nfa)) hmem
  have hnfa2 : nfaAccepts nfa w = subsetAccepting nfa
      (w.foldl (fun S a => subsetDelta nfa S a) (dfaStart nfa)) := rfl
  rw [hnfa2]
  cases hacc : subsetAccepting nfa
      (w.foldl (fun S a => subsetDelta nfa S a) (dfaStart nfa)) with
  | true =>
    exact (decide_eq_true (hiff.mp hacc)).symm
  | false =>
    refine (decide_eq_false ?_).symm
    intro hmem2
    rw [hiff.mpr hmem2] at hacc
    cases hacc

theorem c3_witness :
    (pipeline (Node.choice [Node.element "A" ⟨1, some 1⟩, Node.element "B" ⟨1, some 1⟩]
        ⟨1, some 1⟩)).1 =
      .ok (⟨["q0", "q1", "q2", "q3"], ["A", "B"],
            [("q1", [("A", [some "q3"])]), ("q0", [("", [some "q1", some "q2"])]),
             ("q2", [("B", [some "q3"])]), ("q3", [])], "q0", "q3"⟩,
           [["q0", "q1", "q2"], ["q3"], []],
           [[["q3"]], [["q0", "q1", "q2"]], [[]]],
           ⟨[0, 1], 0, [1], [(0, [("A", 1), ("B", 1)]), (1, [])],
            [("A", Node.element "A" ⟨1, some 1⟩), ("B", Node.element "B" ⟨1, some 1⟩)]⟩) ∧
    (∀ a ∈ ["A"], a ∈
      (⟨["q0", "q1", "q2", "q3"], ["A", "B"],
        [("q1", [("A", [some "q3"])]), ("q0", [("", [some "q1", some "q2"])]),
         ("q2", [("B", [some "q3"])]), ("q3", [])], "q0", "q3"⟩ : NfaRec).inputSymbols) ∧
    nfaAccepts
      ⟨["q0", "q1", "q2", "q3"], ["A", "B"],
       [("q1", [("A", [some "q3"])]), ("q0", [("", [some "q1", some "q2"])]),
        ("q2", [("B", [some "q3"])]), ("q3", [])], "q0", "q3"⟩ ["A"] =
    minAccepts
      ⟨["q0", "q1", "q2", "q3"], ["A", "B"],
       [("q1", [("A", [some "q3"])]), ("q0", [("", [some "q1", some "q2"])]),
        ("q2", [("B", [some "q3"])]), ("q3", [])], "q0", "q3"⟩
      [[["q3"]], [["q0", "q1", "q2"]], [[]]]
      [["q0", "q1", "q2"], ["q3"], []] ["A"] :=
  ⟨by rfl, by decide,
   c3_language_equivalence
     (Node.choice [Node.element "A" ⟨1, some 1⟩, Node.element "B" ⟨1, some 1⟩] ⟨1, some 1⟩)
     ⟨["q0", "q1", "q2", "q3"], ["A", "B"],
      [("q1", [("A", [some "q3"])]), ("q0", [("", [some "q1", some "q2"])]),
       ("q2", [("B", [some "q3"])]), ("q3", [])], "q0", "q3"⟩
     [["q0", "q1", "q2"], ["q3"], []]
     [[["q3"]], [["q0", "q1", "q2"]], [[]]]
     ⟨[0, 1], 0, [1], [(0, [("A", 1), ("B", 1)]), (1, [])],
      [("A", Node.element "A" ⟨1, some 1⟩), ("B", Node.element "B" ⟨1, some 1⟩)]⟩
     (by rfl) ["A"] (by decide)⟩

/-- The transitions field of the canonical record, unfolded. -/
theorem canonicalize_transitions (nfa : NfaRec) (P : Partition) (Q : List (List String))
    (elems : List (String × Node)) :
    (canonicalize nfa P Q elems).transitions =
      ((minStatesOf P Q).filter (fun S => S ≠ [])).map (fun S =>
        (stateIdx (minStatesOf P Q) S,
         (nfa.inputSymbols.filter (fun a => minDelta nfa P S a ≠ [])).map (fun a =>
           (a, stateIdx (minStatesOf P Q) (minDelta nfa P S a))))) := rfl

/-- Every surviving representative is itself a discovered subset state. -/
theorem surviving_rep_mem_Q (nfa : NfaRec) (Q : List (List String)) (P : Partition)
    (hP : PartInv nfa Q P) (S : List String)
    (hS : S ∈ setOfList (Q.map (fun U => mergedInto P U))) :
    S ∈ Q := by
  rcases hP with ⟨hsub, hcov, _, hdisj, _⟩
  rcases List.mem_map.mp ((mem_setOfList _ _).mp hS) with ⟨U, hUQ, hUm⟩
  rcases hcov U hUQ with ⟨B, hB, hUB⟩
  have hSB : S ∈ B := hUm ▸ mergedInto_self_mem P hdisj B hB U hUB
  exact hsub B hB S hSB

/-- C7: the output transition table never targets the trap class: every
key of the transitions field, and every target id of every entry, is a
member of the states field (the surviving non-trap states). -/
theorem c7_no_trap_in_output (t : Node) (rec : OutRecord)
    (h : dfaFromGroup t = .ok rec) :
    ∀ kv ∈ rec.transitions, kv.1 ∈ rec.states ∧ ∀ e ∈ kv.2, e.2 ∈ rec.states := by
  rcases dfaFromGroup_ok_inv t rec h with ⟨nfa, Q, P, hdet, hmin, elems, hrec⟩
  rcases determinize_closed nfa Q hdet with ⟨_, hclosed⟩
  rcases minimizeD_inv nfa Q P hmin with ⟨hP, _⟩
  subst hrec
  intro kv hkv
  rw [canonicalize_transitions] at hkv
  rcases List.mem_map.mp hkv with ⟨S, hSmem, hSkv⟩
  have hstates : (canonicalize nfa P Q elems).states =
      ((minStatesOf P Q).filter (fun S => S ≠ [])).map (stateIdx (minStatesOf P Q)) := rfl
  constructor
  · rw [hstates, ← hSkv]
    exact List.mem_map.mpr ⟨S, hSmem, rfl⟩
  · intro e he
    rw [← hSkv] at he
    rcases List.mem_map.mp he with ⟨a, ham, hae⟩
    rcases List.mem_filter.mp ham with ⟨haSym, haNe⟩
    have haNe2 : minDelta nfa P S a ≠ [] := of_decide_eq_true haNe
    rcases List.mem_filter.mp hSmem with ⟨hSms, hSne⟩
    have hSne2 : S ≠ [] := of_decide_eq_true hSne
    have hSreps : S ∈ setOfList (Q.map (fun U => mergedInto P U)) := by
      rw [minStatesOf_split] at hSms
      rcases List.mem_append.mp hSms with h2 | h2
      · exact (List.mem_filter.mp h2).1
      · exact (List.mem_filter.mp h2).1
    have hSQ : S ∈ Q := surviving_rep_mem_Q nfa Q P hP S hSreps
    have hdQ : subsetDelta nfa S a ∈ Q := hclosed S hSQ a haSym
    have hTreps : minDelta nfa P S a ∈ setOfList (Q.map (fun U => mergedInto P U)) :=
      (mem_setOfList _ _).mpr (List.mem_map.mpr ⟨subsetDelta nfa S a, hdQ, rfl⟩)
    have hTmem : minDelta nfa P S a ∈ (minStatesOf P Q).filter (fun S => S ≠ []) := by
      rw [minStatesOf_filter]
      exact List.mem_filter.mpr ⟨hTreps, decide_eq_true haNe2⟩
    rw [hstates, ← hae]
    exact List.mem_map.mpr ⟨minDelta nfa P S a, hTmem, rfl⟩

theorem c7_witness :
    dfaFromGroup (Node.choice [Node.element "B" ⟨1, some 1⟩, Node.element "A" ⟨1, some 1⟩]
        ⟨1, some 1⟩) =
      .ok ⟨[0, 1], 0, [1], [(0, [("B", 1), ("A", 1)]), (1, [])],
        [("B", Node.element "B" ⟨1, some 1⟩), ("A", Node.element "A" ⟨1, some 1⟩)]⟩ ∧
    (∀ kv ∈ (⟨[0, 1], 0, [1], [(0, [("B", 1), ("A", 1)]), (1, [])],
        [("B", Node.element "B" ⟨1, some 1⟩),
         ("A", Node.element "A" ⟨1, some 1⟩)]⟩ : OutRecord).transitions,
      kv.1 ∈ (⟨[0, 1], 0, [1], [(0, [("B", 1), ("A", 1)]), (1, [])],
        [("B", Node.element "B" ⟨1, some 1⟩),
         ("A", Node.element "A" ⟨1, some 1⟩)]⟩ : OutRecord).states ∧
      ∀ e ∈ kv.2, e.2 ∈ (⟨[0, 1], 0, [1], [(0, [("B", 1), ("A", 1)]), (1, [])],
        [("B", Node.element "B" ⟨1, some 1⟩),
         ("A", Node.element "A" ⟨1, some 1⟩)]⟩ : OutRecord).states) :=
  ⟨by rfl,
   c7_no_trap_in_output
     (Node.choice [Node.element "B" ⟨1, some 1⟩, Node.element "A" ⟨1, some 1⟩] ⟨1, some 1⟩)
     ⟨[0, 1], 0, [1], [(0, [("B", 1), ("A", 1)]), (1, [])],
      [("B", Node.element "B" ⟨1, some 1⟩), ("A", Node.element "A" ⟨1, some 1⟩)]⟩
     (by rfl)⟩

end UxsdDfa
